import Mathlib

/-!
A verification development for the Scrabble-trainer rules engine in
`src/scrabble-strategy.jsx`.  The JavaScript engine is shallowly embedded:
boards are total functions that are `none` outside the 15×15 grid, words are
lists of characters, the word set is a Boolean membership test, and the
randomized board builder is modelled as a step relation whose guards are the
exact executable checks of the source (`canPlaceWord`, `sharesLetter`, the
dictionary test in `placeWord`).
-/

namespace Scrabble

/-- A word is a list of (uppercase) characters; JS strings are embedded as
character lists. -/
abbrev Word := List Char

/-- A board is a total map from (row, col) to an optional letter.  The engine
only ever reads cells through bounds-checked access (`getL`), mirroring
`getLetterAt` in the source. -/
abbrev Board := Nat → Nat → Option Char

/-- The premium-consumption map (`premiumsUsed` in the source): `true` at
coordinates whose premium has already been spent. -/
abbrev PremMap := Nat → Nat → Bool

def emptyBoard : Board := fun _ _ => none

def emptyPU : PremMap := fun _ _ => false

/-- Bounds-checked cell read, as in `getLetterAt` of `findAllValidPlays`:
`(r >= 0 && r < 15 && c >= 0 && c < 15) ? board[r][c] : null`.  The other
copies of `getLetterAt` / raw `board[r][c]` reads in the source are only
reached at in-bounds coordinates, where they agree with this one. -/
def getL (b : Board) (r c : Nat) : Option Char :=
  if r < 15 ∧ c < 15 then b r c else none

/-- Premium-square kinds of `BOARD_TEMPLATE`. -/
inductive Prem where
  | TW
  | DW
  | TL
  | DL
deriving DecidableEq, Repr

/-- The 8 triple-word squares of `BOARD_TEMPLATE`. -/
def twList : List (Nat × Nat) :=
  [(0,0),(0,7),(0,14),(7,0),(7,14),(14,0),(14,7),(14,14)]

/-- The 17 double-word squares (diagonals and center). -/
def dwList : List (Nat × Nat) :=
  [(1,1),(2,2),(3,3),(4,4),(1,13),(2,12),(3,11),(4,10),
   (13,1),(12,2),(11,3),(10,4),(13,13),(12,12),(11,11),(10,10),(7,7)]

/-- The 12 triple-letter squares. -/
def tlList : List (Nat × Nat) :=
  [(1,5),(1,9),(5,1),(5,5),(5,9),(5,13),(9,1),(9,5),(9,9),(9,13),(13,5),(13,9)]

/-- The 24 double-letter squares. -/
def dlList : List (Nat × Nat) :=
  [(0,3),(0,11),(2,6),(2,8),(3,0),(3,7),(3,14),(6,2),(6,6),(6,8),(6,12),
   (7,3),(7,11),(8,2),(8,6),(8,8),(8,12),(11,0),(11,7),(11,14),(12,6),(12,8),(14,3),(14,11)]

/-- `getPremium`: the premium kind of a square, or `none` for a plain square.
The four coordinate lists are pairwise disjoint, so direct lookup agrees with
the `BOARD_TEMPLATE` grid built by writing those lists into a 15×15 array. -/
def getPremium (r c : Nat) : Option Prem :=
  if (r, c) ∈ twList then some .TW
  else if (r, c) ∈ dwList then some .DW
  else if (r, c) ∈ tlList then some .TL
  else if (r, c) ∈ dlList then some .DL
  else none

/-- `TV`: standard letter values; `TV[ch] || 0` reads as 0 for characters not
in the table. -/
def TV : Char → Nat := fun ch =>
  if ch = 'A' then 1 else if ch = 'B' then 3 else if ch = 'C' then 3
  else if ch = 'D' then 2 else if ch = 'E' then 1 else if ch = 'F' then 4
  else if ch = 'G' then 2 else if ch = 'H' then 4 else if ch = 'I' then 1
  else if ch = 'J' then 8 else if ch = 'K' then 5 else if ch = 'L' then 1
  else if ch = 'M' then 3 else if ch = 'N' then 1 else if ch = 'O' then 1
  else if ch = 'P' then 3 else if ch = 'Q' then 10 else if ch = 'R' then 1
  else if ch = 'S' then 1 else if ch = 'T' then 1 else if ch = 'U' then 1
  else if ch = 'V' then 4 else if ch = 'W' then 4 else if ch = 'X' then 8
  else if ch = 'Y' then 4 else if ch = 'Z' then 10 else 0

/-! ### Run walks

The source repeats one walking pattern in `canPlaceWord`, `findAllValidPlays`,
`scorePlay` and `validatePlacement`: from a cell, walk backwards through
contiguous filled cells (`while (cr > 0 && getLetterAt(cr-1,c) !== null) cr--`),
then walk forward to 15 collecting letters, substituting the newly placed
letter at the origin cell.  The backward walk is structural recursion on the
index; the forward walk carries the remaining cell count `15 - start` as fuel,
which makes the `while (cr < 15)` bound exact. -/

/-- Backward walk along a row: `hStart b r c` is the leftmost column reachable
from `c` through cells `c-1, c-2, …` that are filled in `b`. -/
def hStart (b : Board) (r : Nat) : Nat → Nat
  | 0 => 0
  | c + 1 => if (getL b r c).isSome then hStart b r c else c + 1

/-- Backward walk along a column. -/
def vStart (b : Board) (c : Nat) : Nat → Nat
  | 0 => 0
  | r + 1 => if (getL b r c).isSome then vStart b c r else r + 1

/-- Forward collect along a row starting at column `c` with `rem` cells of
fuel, reading the override letter `ch` at column `c0` and the board elsewhere;
stops at the first empty cell or at column 15 (when started with fuel
`15 - c`). -/
def hCollect (b : Board) (r c0 : Nat) (ch : Char) : Nat → Nat → List Char
  | _, 0 => []
  | c, rem + 1 =>
    match (if c = c0 then some ch else getL b r c) with
    | none => []
    | some L => L :: hCollect b r c0 ch (c + 1) rem

/-- Forward collect along a column. -/
def vCollect (b : Board) (c r0 : Nat) (ch : Char) : Nat → Nat → List Char
  | _, 0 => []
  | r, rem + 1 =>
    match (if r = r0 then some ch else getL b r c) with
    | none => []
    | some L => L :: vCollect b c r0 ch (r + 1) rem

/-- The vertical cross word through the new letter `ch` at `(r, c)`: used when
the main word is horizontal. -/
def vCrossWord (b : Board) (r c : Nat) (ch : Char) : Word :=
  vCollect b c r ch (vStart b c r) (15 - vStart b c r)

/-- The cells of the vertical cross word, top to bottom (the `crossPositions`
array of `scorePlay`). -/
def vCrossPos (b : Board) (r c : Nat) (ch : Char) : List (Nat × Nat) :=
  (List.range' (vStart b c r) (vCrossWord b r c ch).length).map fun x => (x, c)

/-- The horizontal cross word through the new letter `ch` at `(r, c)`: used
when the main word is vertical. -/
def hCrossWord (b : Board) (r c : Nat) (ch : Char) : Word :=
  hCollect b r c ch (hStart b r c) (15 - hStart b r c)

def hCrossPos (b : Board) (r c : Nat) (ch : Char) : List (Nat × Nat) :=
  (List.range' (hStart b r c) (hCrossWord b r c ch).length).map fun x => (r, x)

/-! ### Scoring (`scoreOneWord`, `scorePlay`) -/

/-- `scoreOneWord`: fold over the word's cells accumulating the letter sum and
the word multiplier; a premium square counts only when the cell is newly
placed this play (`board[r][c] === null`) and not already consumed. -/
def scoreOneWord (w : Word) (ps : List (Nat × Nat)) (b : Board) (pu : PremMap) : Nat :=
  let res := (ps.zip w).foldl
    (fun (acc : Nat × Nat) q =>
      let lv0 := TV q.2
      if (getL b q.1.1 q.1.2).isNone ∧ pu q.1.1 q.1.2 = false then
        match getPremium q.1.1 q.1.2 with
        | some .DL => (acc.1 + lv0 * 2, acc.2)
        | some .TL => (acc.1 + lv0 * 3, acc.2)
        | some .DW => (acc.1 + lv0, acc.2 * 2)
        | some .TW => (acc.1 + lv0, acc.2 * 3)
        | none => (acc.1 + lv0, acc.2)
      else (acc.1 + lv0, acc.2))
    (0, 1)
  res.1 * res.2

/-- Score contributed by the vertical cross word of a newly placed letter of a
horizontal play (zero when the cross run has length ≤ 1). -/
def crossScoreH (b : Board) (pu : PremMap) (r c : Nat) (ch : Char) : Nat :=
  let cw := vCrossWord b r c ch
  if 1 < cw.length then scoreOneWord cw (vCrossPos b r c ch) b pu else 0

/-- Score contributed by the horizontal cross word of a newly placed letter of
a vertical play. -/
def crossScoreV (b : Board) (pu : PremMap) (r c : Nat) (ch : Char) : Nat :=
  let cw := hCrossWord b r c ch
  if 1 < cw.length then scoreOneWord cw (hCrossPos b r c ch) b pu else 0

/-- `scorePlay` before the bingo bonus: main word plus all cross words formed
by newly placed letters. -/
def scorePlayBase (w : Word) (ps : List (Nat × Nat)) (b : Board) (pu : PremMap)
    (isH : Bool) : Nat :=
  scoreOneWord w ps b pu +
    (ps.zip w).foldl
      (fun acc q =>
        if (getL b q.1.1 q.1.2).isNone then
          acc + (if isH then crossScoreH b pu q.1.1 q.1.2 q.2
                 else crossScoreV b pu q.1.1 q.1.2 q.2)
        else acc)
      0

/-- `scorePlay`: base score plus 50 when exactly 7 of the play's cells are
newly placed. -/
def scorePlay (w : Word) (ps : List (Nat × Nat)) (b : Board) (pu : PremMap)
    (isH : Bool) : Nat :=
  scorePlayBase w ps b pu isH +
    (if (ps.filter fun p => (getL b p.1 p.2).isNone).length = 7 then 50 else 0)

/-! ### Defense heuristic (`defenseScore`) -/

/-- The `twSquares` list local to `defenseScore` (same 8 corners as
`twList`). -/
def twSquaresD : List (Nat × Nat) :=
  [(0,0),(0,7),(0,14),(7,0),(7,14),(14,0),(14,7),(14,14)]

/-- `defenseScore(play, board)`: premium reward, triple-word-lane penalty and
centrality penalty over newly placed cells, then a length penalty.  JS numbers
are embedded as rationals because of the `1.5` weight. -/
def defenseScore (positions : List (Nat × Nat)) (word : Word) (b : Board) : ℚ :=
  let s1 : ℚ := positions.foldl
    (fun acc p =>
      if (getL b p.1 p.2).isSome then acc
      else
        match getPremium p.1 p.2 with
        | some .TW => acc + 60
        | some .DW => acc + 25
        | some .TL => acc + 15
        | some .DL => acc + 8
        | none => acc)
    0
  let s2 : ℚ := positions.foldl
    (fun acc p =>
      if (getL b p.1 p.2).isSome then acc
      else
        twSquaresD.foldl
          (fun a2 t =>
            if (p.1 = t.1 ∨ p.2 = t.2) ∧ Nat.dist p.1 t.1 + Nat.dist p.2 t.2 ≤ 5 then
              a2 - 12
            else a2)
          acc)
    s1
  let s3 : ℚ := positions.foldl
    (fun acc p =>
      if (getL b p.1 p.2).isSome then acc
      else acc - (Nat.dist p.1 7 + Nat.dist p.2 7 : ℚ) * (3 / 2))
    s2
  s3 - 2 * word.length

/-! ### Move enumeration (`findAllValidPlays`) -/

structure Play where
  word : Word
  row : Nat
  col : Nat
  horizontal : Bool
  score : Nat
  positions : List (Nat × Nat)
deriving DecidableEq, Repr

/-- The cells of a straight placement of length `n` starting at `(r, c)`
(the `positions` array collected in the enumerator's inner loop). -/
def posLine (isH : Bool) (r c n : Nat) : List (Nat × Nat) :=
  (List.range n).map fun i => if isH then (r, c + i) else (r + i, c)

/-- The letter-by-letter simulation loop of `findAllValidPlays`: walk the
word's cells; an occupied cell must match the word letter (and sets
`touchesExisting`), an empty cell consumes a tile from the remaining rack
multiset (and sets `usesNewTile`).  Returns the two flags and the leftover
rack, or `none` when the placement is invalid. -/
def simLoop (b : Board) (isH : Bool) :
    Nat → Nat → Word → List Char → Bool → Bool → Option (Bool × Bool × List Char)
  | _, _, [], rem, touches, uses => some (touches, uses, rem)
  | r, c, ch :: rest, rem, touches, uses =>
    match getL b r c with
    | some ex =>
      if ex = ch then
        simLoop b isH (if isH then r else r + 1) (if isH then c + 1 else c) rest rem true uses
      else none
    | none =>
      if 0 < rem.count ch then
        simLoop b isH (if isH then r else r + 1) (if isH then c + 1 else c) rest
          (rem.erase ch) touches true
      else none

/-- No existing letter directly before the start or after the end of a
horizontal placement. -/
def noExtH (b : Board) (sr sc len : Nat) : Bool :=
  (if 0 < sc then (getL b sr (sc - 1)).isNone else true) &&
  (if sc + len < 15 then (getL b sr (sc + len)).isNone else true)

def noExtV (b : Board) (sr sc len : Nat) : Bool :=
  (if 0 < sr then (getL b (sr - 1) sc).isNone else true) &&
  (if sr + len < 15 then (getL b (sr + len) sc).isNone else true)

/-- Cross-word check for a newly placed letter of a horizontal word: if the
cell has a vertical neighbor, the derived vertical run of length > 1 must be
in the word set.  (At `r = 0` the source reads `getLetterAt(-1, c) = null`;
with ℕ truncation `r - 1 = 0` reads the cell itself, which is empty at every
call site, so the two agree.) -/
def crossOkH (ws : Word → Bool) (b : Board) (r c : Nat) (ch : Char) : Bool :=
  if (getL b (r - 1) c).isSome ∨ (getL b (r + 1) c).isSome then
    let cw := vCrossWord b r c ch
    if 1 < cw.length ∧ ws cw = false then false else true
  else true

def crossOkV (ws : Word → Bool) (b : Board) (r c : Nat) (ch : Char) : Bool :=
  if (getL b r (c - 1)).isSome ∨ (getL b r (c + 1)).isSome then
    let cw := hCrossWord b r c ch
    if 1 < cw.length ∧ ws cw = false then false else true
  else true

/-- One candidate placement of `findAllValidPlays`: word `w` in orientation
`isH` starting at `(sr, sc)`.  `none` when any of the source's rejection
conditions fires. -/
def tryPlace (ws : Word → Bool) (b : Board) (rack : List Char) (pu : PremMap)
    (w : Word) (isH : Bool) (sr sc : Nat) : Option Play :=
  if w.length < 2 then none
  else if isH ∧ 15 < sc + w.length then none
  else if (¬ isH) ∧ 15 < sr + w.length then none
  else
    match simLoop b isH sr sc w rack false false with
    | none => none
    | some (touches, uses, _) =>
      if touches = false ∨ uses = false then none
      else if (if isH then noExtH b sr sc w.length else noExtV b sr sc w.length) = false then
        none
      else if ((posLine isH sr sc w.length).zip w).all
          (fun q =>
            if (getL b q.1.1 q.1.2).isNone then
              (if isH then crossOkH ws b q.1.1 q.1.2 q.2 else crossOkV ws b q.1.1 q.1.2 q.2)
            else true) = false then none
      else
        some ⟨w, sr, sc, isH, scorePlay w (posLine isH sr sc w.length) b pu isH,
          posLine isH sr sc w.length⟩

/-- All accepted placements in discovery order: every word of the list, both
orientations (horizontal flag 0 then 1), every start cell.  The `anchors` set
computed by the source is dead code (never read) and is not modelled. -/
def findAllValidPlaysRaw (wl : List Word) (ws : Word → Bool) (b : Board)
    (rack : List Char) (pu : PremMap) : List Play :=
  wl.flatMap fun w =>
    [false, true].flatMap fun isH =>
      (List.range 15).flatMap fun sr =>
        (List.range 15).filterMap fun sc => tryPlace ws b rack pu w isH sr sc

def playKey (p : Play) : Word × Nat × Nat × Bool :=
  (p.word, p.row, p.col, p.horizontal)

/-- The final `seen`-set deduplication by `word|row|col|horizontal`. -/
def dedupPlays : List Play → List (Word × Nat × Nat × Bool) → List Play
  | [], _ => []
  | p :: rest, seen =>
    if playKey p ∈ seen then dedupPlays rest seen
    else p :: dedupPlays rest (playKey p :: seen)

def findAllValidPlays (wl : List Word) (ws : Word → Bool) (b : Board)
    (rack : List Char) (pu : PremMap) : List Play :=
  dedupPlays (findAllValidPlaysRaw wl ws b rack pu) []

/-! ### Placement validation (`validatePlacement`) -/

/-- The user's placed tiles: the `placed` object `{ "r,c" : letter }`, as an
association list in key insertion order (coordinates are distinct in the UI). -/
abbrev Placed := List ((Nat × Nat) × Char)

/-- `placed[`r,c`]`: first binding for the coordinate, if any. -/
def lookupP (placed : Placed) (r c : Nat) : Option Char :=
  (placed.find? fun q => decide (q.1 = (r, c))).map (·.2)

/-- The result of `validatePlacement`: either a typed failure message or the
derived word, its cells, the orientation and the score. -/
inductive VResult where
  | invalid (error : String)
  | ok (word : Word) (positions : List (Nat × Nat)) (horizontal : Bool) (score : Nat)
deriving DecidableEq, Repr

/-- Forward extension of the extraction window:
`while (maxC < 14 && board[row][maxC+1] !== null) maxC++`, with fuel. -/
def extendR (b : Board) (row : Nat) : Nat → Nat → Nat
  | c, 0 => c
  | c, rem + 1 =>
    if c < 14 ∧ (getL b row (c + 1)).isSome then extendR b row (c + 1) rem else c

def extendD (b : Board) (col : Nat) : Nat → Nat → Nat
  | r, 0 => r
  | r, rem + 1 =>
    if r < 14 ∧ (getL b (r + 1) col).isSome then extendD b col (r + 1) rem else r

/-- The letter-collection loop of `extractWord`: `n` cells starting at column
`c`, each read as `placed[key] || board[row][c]`; `none` on a gap. -/
def collectH (b : Board) (placed : Placed) (row : Nat) : Nat → Nat → Option Placed
  | _, 0 => some []
  | c, n + 1 =>
    match (lookupP placed row c).or (getL b row c) with
    | none => none
    | some L => (collectH b placed row (c + 1) n).map fun t => ((row, c), L) :: t

def collectV (b : Board) (placed : Placed) (col : Nat) : Nat → Nat → Option Placed
  | _, 0 => some []
  | r, n + 1 =>
    match (lookupP placed r col).or (getL b r col) with
    | none => none
    | some L => (collectV b placed col (r + 1) n).map fun t => ((r, col), L) :: t

/-- `extractWord(true)`: the horizontal run through the placed tiles, extended
through contiguous board letters on both sides; `(r0, c0)` is `coords[0]`. -/
def extractH (b : Board) (placed : Placed) (coords : List (Nat × Nat))
    (r0 c0 : Nat) : Option Placed :=
  let minC0 := (coords.map (·.2)).foldl min c0
  let maxC0 := (coords.map (·.2)).foldl max c0
  let minC := hStart b r0 minC0
  let maxC := extendR b r0 maxC0 15
  collectH b placed r0 minC (maxC + 1 - minC)

/-- `extractWord(false)`. -/
def extractV (b : Board) (placed : Placed) (coords : List (Nat × Nat))
    (r0 c0 : Nat) : Option Placed :=
  let minR0 := (coords.map (·.1)).foldl min r0
  let maxR0 := (coords.map (·.1)).foldl max r0
  let minR := vStart b c0 minR0
  let maxR := extendD b c0 maxR0 15
  collectV b placed c0 minR (maxR + 1 - minR)

/-- The perpendicular cross word through a newly placed letter, in the
validator's chosen orientation. -/
def crossWordAt (b : Board) (isH : Bool) (r c : Nat) (ch : Char) : Word :=
  if isH then vCrossWord b r c ch else hCrossWord b r c ch

/-- The validator's cross-word scan: the first newly placed cell whose
perpendicular run of length > 1 is not in the word set (the loop that aborts
with `Cross-word "…" is not valid.`). -/
def firstBadCross (ws : Word → Bool) (b : Board) (isH : Bool) : Placed → Option Word
  | [] => none
  | q :: rest =>
    if (getL b q.1.1 q.1.2).isSome then firstBadCross ws b isH rest
    else
      let cw := crossWordAt b isH q.1.1 q.1.2 q.2
      if 1 < cw.length ∧ ws cw = false then some cw
      else firstBadCross ws b isH rest

/-- The `formsValidCrossWord` loop: some newly placed cell forms a
perpendicular run of length > 1 that is in the word set. -/
def formsCross (ws : Word → Bool) (b : Board) (isH : Bool) : Placed → Bool
  | [] => false
  | q :: rest =>
    if (getL b q.1.1 q.1.2).isSome then formsCross ws b isH rest
    else
      let cw := crossWordAt b isH q.1.1 q.1.2 q.2
      if 1 < cw.length ∧ ws cw = true then true
      else formsCross ws b isH rest

/-- The tail of `validatePlacement` after `wordPositions` has been determined:
length check, dictionary check (with the helpful message when board letters
changed the word), connectivity, cross-word validation, scoring. -/
def finishValidation (ws : Word → Bool) (b : Board) (placed : Placed)
    (pu : PremMap) (isH : Bool) (wp : Placed) : VResult :=
  if wp.length < 2 then .invalid "Word must be at least 2 letters."
  else
    let word := wp.map (·.2)
    let posArr := wp.map (·.1)
    if ws word = false then
      let placedLetters := placed.map (·.2)
      if word ≠ placedLetters then
        .invalid ("\"" ++ String.mk word ++ "\" is not a valid word. (Your letters "
          ++ String.mk placedLetters
          ++ " combined with adjacent board tiles to form \"" ++ String.mk word ++ "\".)")
      else .invalid ("\"" ++ String.mk word ++ "\" is not a valid word.")
    else
      let touches := wp.any fun q => (getL b q.1.1 q.1.2).isSome
      let forms := formsCross ws b isH wp
      if touches = false ∧ forms = false then
        .invalid "Your word must connect to the existing board."
      else
        match firstBadCross ws b isH wp with
        | some cw => .invalid ("Cross-word \"" ++ String.mk cw ++ "\" is not valid.")
        | none => .ok word posArr isH (scorePlay word posArr b pu isH)

/-- `validatePlacement(board, placed, premiumsUsed)`.  Orientation: all tiles
in one row → horizontal, one column → vertical, a single tile → try both
extractions and keep the longer word (horizontal on a tie), otherwise reject
the shape. -/
def validatePlacement (ws : Word → Bool) (b : Board) (placed : Placed)
    (pu : PremMap) : VResult :=
  match placed with
  | [] => .invalid "Place at least one tile."
  | q0 :: rest =>
    let coords := ((q0 :: rest).map (·.1) : List (Nat × Nat))
    let rowsSz := (coords.map (·.1)).dedup.length
    let colsSz := (coords.map (·.2)).dedup.length
    if rowsSz = 1 ∧ colsSz = 1 then
      match extractH b placed coords q0.1.1 q0.1.2,
            extractV b placed coords q0.1.1 q0.1.2 with
      | some hW, some vW =>
        if hW.length < vW.length then finishValidation ws b placed pu false vW
        else finishValidation ws b placed pu true hW
      | some hW, none => finishValidation ws b placed pu true hW
      | none, some vW => finishValidation ws b placed pu false vW
      | none, none => .invalid "No word formed."
    else if rowsSz = 1 then
      match extractH b placed coords q0.1.1 q0.1.2 with
      | none => .invalid "There is a gap in your word."
      | some wp => finishValidation ws b placed pu true wp
    else if colsSz = 1 then
      match extractV b placed coords q0.1.1 q0.1.2 with
      | none => .invalid "There is a gap in your word."
      | some wp => finishValidation ws b placed pu false wp
    else .invalid "Tiles must all be in one row or one column."

/-! ### Board building (`buildConnectedBoard`)

The builder is randomized; it is modelled as a step relation whose guards are
the executable checks of the source.  A committed growth step requires
`canPlaceWord`, `sharesLetter` (connectivity) and the dictionary test of
`placeWord`; the anchor-sampling bookkeeping only narrows which
`(word, row, col, horizontal)` tuples get tried, so the relation
over-approximates the reachable boards, which is sound for the invariant. -/

/-- Overwrite one cell. -/
def upd (b : Board) (r c : Nat) (ch : Char) : Board :=
  fun x y => if x = r ∧ y = c then some ch else b x y

/-- `placeWord`'s writing loop: write the word's letters along the line. -/
def place (b : Board) (w : Word) (r c : Nat) (isH : Bool) : Board :=
  match w with
  | [] => b
  | ch :: rest =>
    place (upd b r c ch) rest (if isH then r else r + 1) (if isH then c + 1 else c) isH

/-- `canPlaceWord`: bounds, overlap agreement, no extension beyond either end,
and valid perpendicular cross words at every newly placed cell. -/
def canPlaceWord (ws : Word → Bool) (b : Board) (w : Word) (row col : Nat)
    (isH : Bool) : Bool :=
  if isH ∧ 15 < col + w.length then false
  else if (¬ isH) ∧ 15 < row + w.length then false
  else
    ((posLine isH row col w.length).zip w).all
      (fun q =>
        match getL b q.1.1 q.1.2 with
        | some ex => decide (ex = q.2)
        | none => true) &&
    (if isH then noExtH b row col w.length else noExtV b row col w.length) &&
    ((posLine isH row col w.length).zip w).all
      (fun q =>
        if (getL b q.1.1 q.1.2).isNone then
          (if isH then crossOkH ws b q.1.1 q.1.2 q.2 else crossOkV ws b q.1.1 q.1.2 q.2)
        else true)

/-- `sharesLetter`: the placement reuses at least one existing tile. -/
def sharesLetter (b : Board) (w : Word) (row col : Nat) (isH : Bool) : Bool :=
  (posLine isH row col w.length).any fun p => (getL b p.1 p.2).isSome

/-- The word pool for growth: `WORD_LIST` filtered to length 3–6. -/
def growPool (wl : List Word) : List Word :=
  wl.filter fun w => decide (3 ≤ w.length ∧ w.length ≤ 6)

/-- The candidate first words: the pool filtered again to length 3–5. -/
def firstPool (wl : List Word) : List Word :=
  (growPool wl).filter fun w => decide (3 ≤ w.length ∧ w.length ≤ 5)

/-- The boards `buildConnectedBoard` can commit: a first word centered through
the middle row, then any number of growth steps, each passing the source's
checks.  `ws w = true` is the dictionary test inside `placeWord`. -/
inductive Built (wl : List Word) (ws : Word → Bool) : Board → Prop
  | first (w : Word) (hmem : w ∈ firstPool wl) (hws : ws w = true)
      (hfit : 7 - w.length / 2 + w.length ≤ 15) :
      Built wl ws (place emptyBoard w 7 (7 - w.length / 2) true)
  | grow (b : Board) (w : Word) (row col : Nat) (isH : Bool)
      (hb : Built wl ws b) (hmem : w ∈ growPool wl) (hws : ws w = true)
      (hcan : canPlaceWord ws b w row col isH = true)
      (hshare : sharesLetter b w row col isH = true) :
      Built wl ws (place b w row col isH)

/-! ### Maximal runs -/

/-- `maxHRun b r a e`: columns `[a, e)` of row `r` are a maximal horizontal
run of filled cells. -/
def maxHRun (b : Board) (r a e : Nat) : Prop :=
  a < e ∧ (∀ c, a ≤ c → c < e → (getL b r c).isSome) ∧
    (a = 0 ∨ getL b r (a - 1) = none) ∧ (15 ≤ e ∨ getL b r e = none)

def maxVRun (b : Board) (c a e : Nat) : Prop :=
  a < e ∧ (∀ r, a ≤ r → r < e → (getL b r c).isSome) ∧
    (a = 0 ∨ getL b (a - 1) c = none) ∧ (15 ≤ e ∨ getL b e c = none)

/-- The word spelled by columns `[a, e)` of row `r`. -/
def hWordOf (b : Board) (r a e : Nat) : Word :=
  (List.range' a (e - a)).filterMap fun c => getL b r c

def vWordOf (b : Board) (c a e : Nat) : Word :=
  (List.range' a (e - a)).filterMap fun r => getL b r c

/-- Every maximal run of length ≥ 2, in either direction, spells a word of the
word set. -/
def RunsValid (ws : Word → Bool) (b : Board) : Prop :=
  (∀ r a e, maxHRun b r a e → 2 ≤ e - a → ws (hWordOf b r a e) = true) ∧
  (∀ c a e, maxVRun b c a e → 2 ≤ e - a → ws (vWordOf b c a e) = true)

/-! ### Scenario generation (`generateScenario`) -/

structure Scenario where
  board : Board
  rack : List Char
  pu : PremMap
  plays : List Play

/-- A necessary condition for `generateScenario` to return a scenario: its
board was committed by `buildConnectedBoard` (the `Built` relation) and the
enumerator found at least 4 plays for the sampled rack. -/
def scenarioPossible (wl : List Word) (ws : Word → Bool) (s : Scenario) : Prop :=
  Built wl ws s.board ∧
    s.plays = findAllValidPlays wl ws s.board s.rack s.pu ∧ 4 ≤ s.plays.length

/-! ### Derived notions and concrete instances used by the theorems -/

/-- A play's newly placed tiles: the positions whose board cell is empty,
paired with the word letters they carry.  This is the map handed back to
`validatePlacement` in the round-trip property. -/
def newTilesOf (b : Board) (p : Play) : Placed :=
  (p.positions.zip p.word).filter fun q => (getL b q.1.1 q.1.2).isNone

/-- `newTilesOf` at a play laid out on a straight line, spelled out in terms
of the line parameters. -/
def newTilesAt (b : Board) (w : Word) (isH : Bool) (sr sc : Nat) : Placed :=
  ((posLine isH sr sc w.length).zip w).filter fun q => (getL b q.1.1 q.1.2).isNone

/-- Boolean success of a validation result. -/
def VResult.isOk : VResult → Bool
  | .ok _ _ _ _ => true
  | .invalid _ => false

/-- State-passing form of `scorePlay`.  The source body of
`scorePlay`/`scoreOneWord` contains no assignment to `board` or
`premiumsUsed`, only reads, so its state-passing translation returns the
store unchanged alongside the pure score. -/
def scorePlayS (w : Word) (ps : List (Nat × Nat)) (isH : Bool)
    (s : Board × PremMap) : Nat × (Board × PremMap) :=
  (scorePlay w ps s.1 s.2 isH, s)

/-- Transposed board, used to transfer lemmas between the horizontal and the
vertical copies of the source's walking code. -/
def transp (b : Board) : Board := fun r c => b c r

/-- A one-word lexicon for concrete instances. -/
def wl1 : List Word := [['A', 'T']]

def ws1 : Word → Bool := fun w => decide (w ∈ wl1)

/-- A board holding the single letter A at the center. -/
def b1 : Board := fun r c => if r = 7 ∧ c = 7 then some 'A' else none

/-- The vertical play AT through the center A found by the enumerator on
`b1` with rack `[T]`. -/
def p1 : Play :=
  ⟨['A', 'T'], 7, 7, false, 2, [(7, 7), (8, 7)]⟩

/-- Premium consumption covering the center star, for the bingo example. -/
def pu7 : PremMap := fun r c => decide (r = 7 ∧ c = 7)

/-- The always-false word set: an empty lexicon. -/
def wsEmpty : Word → Bool := fun _ => false

/-- A throwaway scenario value. -/
def s0 : Scenario := ⟨emptyBoard, [], emptyPU, []⟩

/-- A lexicon with one three-letter word, long enough for the board builder. -/
def wlCat : List Word := [['C', 'A', 'T']]

def wsCat : Word → Bool := fun w => decide (w ∈ wlCat)

/-! ## Theorems -/

/-- C8: on an empty board with an empty consumption map, CAT placed
horizontally at (7,6),(7,7),(7,8) — the A on the center double-word square —
scores exactly (3+1+1) × 2 = 10. -/
theorem C8_cat_center_ten :
    scorePlay ['C', 'A', 'T'] [(7, 6), (7, 7), (7, 8)] emptyBoard emptyPU true = 10 := by
  decide

/-- C7 counterexample: every horizontal window of 7 consecutive cells on the
board contains at least one premium square, so the claim's example
configuration — PLAYERS placed horizontally "with no premium squares under
its cells" — does not exist for any placement. -/
theorem C7_no_premium_free_window :
    ((List.range 15).all fun r =>
      (List.range 9).all fun c =>
        (List.range 7).any fun i => (getPremium r (c + i)).isSome) = true := by
  decide

/-- C7 (amended): when all of a play's cells are newly placed and there are
exactly 7 of them, `scorePlay` adds exactly 50 to the score it would
otherwise compute; and PLAYERS placed horizontally on an otherwise empty
board, with the only premium square beneath it already consumed, scores
12 + 50 = 62. -/
theorem C7_bingo_bonus :
    (∀ (w : Word) (ps : List (Nat × Nat)) (b : Board) (pu : PremMap) (isH : Bool),
        ps.length = 7 → (∀ p ∈ ps, getL b p.1 p.2 = none) →
        scorePlay w ps b pu isH = scorePlayBase w ps b pu isH + 50) ∧
    scorePlay ['P', 'L', 'A', 'Y', 'E', 'R', 'S']
        [(7, 4), (7, 5), (7, 6), (7, 7), (7, 8), (7, 9), (7, 10)] emptyBoard pu7 true = 62 := by
  constructor
  · intro w ps b pu isH hlen hnew
    unfold scorePlay
    have hf : ps.filter (fun p => (getL b p.1 p.2).isNone) = ps :=
      List.filter_eq_self.mpr fun p hp => by simp [hnew p hp]
    rw [hf, hlen]
    simp
  · decide

/-- Witness for C7: the PLAYERS bingo instance satisfies the hypotheses and
receives exactly the +50 bonus. -/
theorem C7_bingo_bonus_witness :
    scorePlay ['P', 'L', 'A', 'Y', 'E', 'R', 'S']
        [(7, 4), (7, 5), (7, 6), (7, 7), (7, 8), (7, 9), (7, 10)] emptyBoard pu7 true =
      scorePlayBase ['P', 'L', 'A', 'Y', 'E', 'R', 'S']
        [(7, 4), (7, 5), (7, 6), (7, 7), (7, 8), (7, 9), (7, 10)] emptyBoard pu7 true + 50 :=
  C7_bingo_bonus.1 _ _ _ _ _ (by decide) (by decide)

/-- C9: `scorePlay` is pure and deterministic — extensionally equal boards and
consumption maps give the identical integer, and the state-passing form
returns the store unchanged. -/
theorem C9_scorePlay_pure (w : Word) (ps : List (Nat × Nat)) (isH : Bool)
    (b b' : Board) (pu pu' : PremMap)
    (hb : ∀ r c, b r c = b' r c) (hpu : ∀ r c, pu r c = pu' r c) :
    scorePlay w ps b pu isH = scorePlay w ps b' pu' isH ∧
    scorePlayS w ps isH (b, pu) = (scorePlay w ps b pu isH, (b, pu)) := by
  have hbe : b = b' := funext fun r => funext fun c => hb r c
  have hpue : pu = pu' := funext fun r => funext fun c => hpu r c
  subst hbe
  subst hpue
  exact ⟨rfl, rfl⟩

/-- Witness for C9 at a concrete play on the one-tile board. -/
theorem C9_scorePlay_pure_witness :
    scorePlay ['A', 'T'] [(7, 7), (8, 7)] b1 emptyPU false =
      scorePlay ['A', 'T'] [(7, 7), (8, 7)] b1 emptyPU false ∧
    scorePlayS ['A', 'T'] [(7, 7), (8, 7)] false (b1, emptyPU) =
      (scorePlay ['A', 'T'] [(7, 7), (8, 7)] b1 emptyPU false, (b1, emptyPU)) :=
  C9_scorePlay_pure _ _ _ _ _ _ _ (fun _ _ => rfl) (fun _ _ => rfl)

/-- C10: a newly placed tile sitting exactly on a triple-word corner collects
both the +60 premium reward and the −12 lane penalty for that very corner
(and no other corner is within reach), so a single-tile play there scores
48 minus the centrality and word-length terms. -/
theorem C10_corner_premium_and_lane (r c : Nat) (w : Word) (b : Board)
    (hc : (r, c) ∈ twSquaresD) (hempty : getL b r c = none) :
    defenseScore [(r, c)] w b =
      48 - (3 / 2 : ℚ) * ((Nat.dist r 7 : ℚ) + (Nat.dist c 7 : ℚ)) - 2 * w.length := by
  have hs : (getL b r c).isSome = false := by rw [hempty]; rfl
  simp only [twSquaresD, List.mem_cons, List.not_mem_nil, or_false, Prod.mk.injEq] at hc
  rcases hc with hrc | hrc | hrc | hrc | hrc | hrc | hrc | hrc <;>
    obtain ⟨rfl, rfl⟩ := hrc <;>
    · simp only [defenseScore, twSquaresD, List.foldl, hs, if_false, Bool.false_eq_true]
      norm_num [getPremium, twList, dwList, tlList, dlList, Nat.dist]

/-- Witness for C10 at the (0,0) corner on the empty board. -/
theorem C10_corner_premium_and_lane_witness :
    defenseScore [(0, 0)] ['A'] emptyBoard = 25 := by
  have h := C10_corner_premium_and_lane 0 0 ['A'] emptyBoard (by decide) rfl
  rw [h]
  norm_num [Nat.dist]

/-- C4 counterexample: a single tile with no adjacent filled cell fails with
the "Word must be at least 2 letters." error, not the "No word formed."
error named by the claim — that branch is unreachable for single-tile input,
whose two extractions always succeed. -/
theorem C4_single_tile_message :
    validatePlacement ws1 emptyBoard [((7, 7), 'A')] emptyPU =
      .invalid "Word must be at least 2 letters." ∧
    validatePlacement ws1 emptyBoard [((7, 7), 'A')] emptyPU ≠
      .invalid "No word formed." := by
  decide

/-- C4 (amended): a single placed tile with no adjacent filled board cell in
either direction fails, but with the too-short failure reason "Word must be
at least 2 letters.", not "no word formed". -/
theorem C4_isolated_single_tile (ws : Word → Bool) (b : Board) (pu : PremMap)
    (r c : Nat) (ch : Char)
    (hup : 0 < r → getL b (r - 1) c = none) (hdown : getL b (r + 1) c = none)
    (hleft : 0 < c → getL b r (c - 1) = none) (hright : getL b r (c + 1) = none) :
    validatePlacement ws b [((r, c), ch)] pu =
      .invalid "Word must be at least 2 letters." := by
  have hhs : hStart b r c = c := by
    cases c with
    | zero => rfl
    | succ k =>
      have hk : getL b r k = none := hleft (Nat.succ_pos k)
      simp [hStart, hk]
  have hvs : vStart b c r = r := by
    cases r with
    | zero => rfl
    | succ k =>
      have hk : getL b k c = none := hup (Nat.succ_pos k)
      simp [vStart, hk]
  have her : extendR b r c 15 = c := by
    show extendR b r c (14 + 1) = c
    simp [extendR, hright]
  have hed : extendD b c r 15 = r := by
    show extendD b c r (14 + 1) = r
    simp [extendD, hdown]
  have hlook : lookupP [((r, c), ch)] r c = some ch := by
    simp [lookupP]
  have hcollH : collectH b [((r, c), ch)] r c 1 = some [((r, c), ch)] := by
    show collectH b [((r, c), ch)] r c (0 + 1) = some [((r, c), ch)]
    simp [collectH, hlook]
  have hcollV : collectV b [((r, c), ch)] c r 1 = some [((r, c), ch)] := by
    show collectV b [((r, c), ch)] c r (0 + 1) = some [((r, c), ch)]
    simp [collectV, hlook]
  have hextH : extractH b [((r, c), ch)] [(r, c)] r c = some [((r, c), ch)] := by
    unfold extractH
    simp only [List.map_cons, List.map_nil, List.foldl_cons, List.foldl_nil,
      min_self, max_self]
    rw [hhs, her]
    rw [Nat.add_sub_cancel_left]
    exact hcollH
  have hextV : extractV b [((r, c), ch)] [(r, c)] r c = some [((r, c), ch)] := by
    unfold extractV
    simp only [List.map_cons, List.map_nil, List.foldl_cons, List.foldl_nil,
      min_self, max_self]
    rw [hvs, hed]
    rw [Nat.add_sub_cancel_left]
    exact hcollV
  unfold validatePlacement
  simp only [List.map_cons, List.map_nil, List.dedup_nil,
    List.dedup_cons_of_not_mem (List.not_mem_nil _), List.length_singleton,
    and_self, if_true]
  rw [hextH, hextV]
  simp [finishValidation]

/-- Witness for C4 at the concrete isolated tile. -/
theorem C4_isolated_single_tile_witness :
    validatePlacement ws1 emptyBoard [((7, 7), 'A')] emptyPU =
      .invalid "Word must be at least 2 letters." :=
  C4_isolated_single_tile ws1 emptyBoard emptyPU 7 7 'A'
    (fun _ => rfl) rfl (fun _ => rfl) rfl

/-- `finishValidation` can never report success against a word set with no
members: the dictionary test fails before the success branch. -/
theorem finishValidation_not_ok (ws : Word → Bool) (hws : ∀ w, ws w = false)
    (b : Board) (placed : Placed) (pu : PremMap) (isH : Bool) (wp : Placed) :
    (finishValidation ws b placed pu isH wp).isOk = false := by
  unfold finishValidation
  have hw : ws (wp.map fun x => x.2) = false := hws _
  by_cases h1 : wp.length < 2
  · rw [if_pos h1]
    rfl
  · rw [if_neg h1]
    try dsimp only
    rw [if_pos hw]
    try dsimp only
    split <;> rfl

/-- A board is only committed after at least one successful dictionary test. -/
theorem built_needs_word {wl : List Word} {ws : Word → Bool} {board : Board}
    (hb : Built wl ws board) : ∃ w, ws w = true := by
  induction hb with
  | first w hmem hw hfit => exact ⟨w, hw⟩
  | grow b w row col isH hb hmem hw hcan hshare ih => exact ih

/-- C3 counterexample: with an empty lexicon, `validatePlacement` rejects the
word AB with exactly the same ordinary not-a-valid-word error that a loaded
lexicon lacking AB produces — there is no distinct refusal. -/
theorem C3_same_error_as_ordinary :
    validatePlacement wsEmpty emptyBoard [((7, 7), 'A'), ((7, 8), 'B')] emptyPU =
      .invalid "\"AB\" is not a valid word." ∧
    validatePlacement ws1 emptyBoard [((7, 7), 'A'), ((7, 8), 'B')] emptyPU =
      .invalid "\"AB\" is not a valid word." := by
  decide

/-- C3 (amended): with an empty lexicon, scenario generation can only fail
(no board is ever committed, so no scenario is possible), and the placement
validator never accepts — it silently rejects every submitted placement with
ordinary errors rather than returning a dedicated refusal. -/
theorem C3_empty_lexicon_fails_closed (wl : List Word) (ws : Word → Bool)
    (hws : ∀ w, ws w = false) :
    (∀ s : Scenario, ¬ scenarioPossible wl ws s) ∧
    (∀ (b : Board) (placed : Placed) (pu : PremMap),
        (validatePlacement ws b placed pu).isOk = false) := by
  constructor
  · rintro s ⟨hb, -, -⟩
    obtain ⟨w, hw⟩ := built_needs_word hb
    rw [hws w] at hw
    exact Bool.false_ne_true hw
  · intro b placed pu
    cases placed with
    | nil => rfl
    | cons q0 rest =>
      simp only [validatePlacement]
      repeat' split
      all_goals first
        | rfl
        | exact finishValidation_not_ok ws hws _ _ _ _ _

/-! ### Walk characterizations -/

theorem getL_bounds {b : Board} {r c : Nat} (h : (getL b r c).isSome = true) :
    r < 15 ∧ c < 15 := by
  unfold getL at h
  by_cases hb : r < 15 ∧ c < 15
  · exact hb
  · rw [if_neg hb] at h
    exact absurd h (by simp)

theorem getL_transp (b : Board) (r c : Nat) : getL (transp b) r c = getL b c r := by
  unfold getL transp
  by_cases h : r < 15 ∧ c < 15
  · rw [if_pos h, if_pos ⟨h.2, h.1⟩]
  · rw [if_neg h, if_neg fun hh => h ⟨hh.2, hh.1⟩]

/-- The backward walk stops exactly at the left end of the contiguous filled
block. -/
theorem hStart_eq (b : Board) (r a : Nat) :
    ∀ c, a ≤ c → (∀ y, a ≤ y → y < c → (getL b r y).isSome = true) →
      (a = 0 ∨ getL b r (a - 1) = none) → hStart b r c = a := by
  intro c
  induction c with
  | zero =>
    intro h1 _ _
    rw [Nat.le_zero.mp h1]
    rfl
  | succ k ih =>
    intro h1 h2 h3
    rcases Nat.eq_or_lt_of_le h1 with heq | hlt
    · rcases h3 with h0 | hnone
      · omega
      · have : a - 1 = k := by omega
        rw [this] at hnone
        simp only [hStart, hnone]
        simp [heq]
    · have hk : (getL b r k).isSome = true := h2 k (by omega) (by omega)
      simp only [hStart, hk, if_true]
      exact ih (by omega) (fun y hy1 hy2 => h2 y hy1 (by omega)) h3

theorem vStart_transp (b : Board) (c : Nat) : ∀ r, vStart b c r = hStart (transp b) c r := by
  intro r
  induction r with
  | zero => rfl
  | succ k ih =>
    simp only [vStart, hStart, getL_transp]
    rw [ih]

theorem vStart_eq (b : Board) (ci a : Nat) (r : Nat) (h1 : a ≤ r)
    (h2 : ∀ x, a ≤ x → x < r → (getL b x ci).isSome = true)
    (h3 : a = 0 ∨ getL b (a - 1) ci = none) : vStart b ci r = a := by
  rw [vStart_transp]
  refine hStart_eq (transp b) ci a r h1 (fun y hy1 hy2 => ?_) ?_
  · rw [getL_transp]
    exact h2 y hy1 hy2
  · rcases h3 with h | h
    · exact Or.inl h
    · right
      rw [getL_transp]
      exact h

/-- The forward collect walks exactly over the contiguous merged block
`[c, e)` when started with enough fuel inside the board. -/
theorem hCollect_eq (b : Board) (r c0 : Nat) (ch : Char) :
    ∀ n c e, c + n ≤ 15 → c ≤ e → e ≤ c + n →
      (∀ y, c ≤ y → y < e → (if y = c0 then some ch else getL b r y).isSome = true) →
      (e = 15 ∨ (if e = c0 then some ch else getL b r e) = none) →
      hCollect b r c0 ch c n =
        (List.range' c (e - c)).filterMap fun y => if y = c0 then some ch else getL b r y := by
  intro n
  induction n with
  | zero =>
    intro c e h1 h2 h3 _ _
    have : e = c := by omega
    subst this
    simp [hCollect]
  | succ k ih =>
    intro c e h1 h2 h3 hfill hend
    rcases Nat.eq_or_lt_of_le h2 with rfl | hlt
    · have hnone : (if c = c0 then some ch else getL b r c) = none := by
        rcases hend with h | h
        · omega
        · exact h
      simp only [hCollect, hnone]
      simp
    · have hsome : (if c = c0 then some ch else getL b r c).isSome = true :=
        hfill c (by omega) hlt
      obtain ⟨L, hL⟩ := Option.isSome_iff_exists.mp hsome
      simp only [hCollect, hL]
      have hrec := ih (c + 1) e (by omega) (by omega) (by omega)
        (fun y hy1 hy2 => hfill y (by omega) hy2) hend
      rw [hrec]
      have hrange : e - c = (e - (c + 1)) + 1 := by omega
      rw [hrange, List.range'_succ]
      rw [List.filterMap_cons]
      simp [hL]

theorem vCollect_transp (b : Board) (c r0 : Nat) (ch : Char) :
    ∀ n r, vCollect b c r0 ch r n = hCollect (transp b) c r0 ch r n := by
  intro n
  induction n with
  | zero => intro r; rfl
  | succ k ih =>
    intro r
    simp only [vCollect, hCollect, getL_transp]
    rw [ih]

theorem vCollect_eq (b : Board) (ci r0 : Nat) (ch : Char) (n r e : Nat)
    (h1 : r + n ≤ 15) (h2 : r ≤ e) (h3 : e ≤ r + n)
    (hfill : ∀ x, r ≤ x → x < e → (if x = r0 then some ch else getL b x ci).isSome = true)
    (hend : e = 15 ∨ (if e = r0 then some ch else getL b e ci) = none) :
    vCollect b ci r0 ch r n =
      (List.range' r (e - r)).filterMap fun x => if x = r0 then some ch else getL b x ci := by
  rw [vCollect_transp]
  rw [hCollect_eq (transp b) ci r0 ch n r e h1 h2 h3 ?hf ?he]
  · refine List.filterMap_congr fun x _ => ?_
    rw [getL_transp]
  case hf =>
    intro y hy1 hy2
    rw [getL_transp]
    exact hfill y hy1 hy2
  case he =>
    rcases hend with h | h
    · exact Or.inl h
    · right
      rw [getL_transp]
      exact h

theorem length_filterMap_of_isSome {α β : Type} (f : α → Option β) :
    ∀ l : List α, (∀ y ∈ l, (f y).isSome = true) → (l.filterMap f).length = l.length := by
  intro l
  induction l with
  | nil => simp
  | cons x xs ih =>
    intro h
    rw [List.filterMap_cons]
    cases hf : f x with
    | none => exact absurd (h x (List.mem_cons_self x xs)) (by simp [hf])
    | some v => simp [List.length_cons, ih fun y hy => h y (List.mem_cons_of_mem _ hy)]

/-- Characterization of the vertical cross word through `(row, ci)` when the
merged column (board plus the override letter at `row`) has maximal filled
block `[a, e)`. -/
theorem vCross_spec (b : Board) (ci row : Nat) (L : Char) (a e : Nat)
    (ha : a ≤ row) (hre : row < e) (he : e ≤ 15)
    (hfill : ∀ x, a ≤ x → x < e → x ≠ row → (getL b x ci).isSome = true)
    (hstart : a = 0 ∨ getL b (a - 1) ci = none)
    (hend : e = 15 ∨ getL b e ci = none) :
    vStart b ci row = a ∧
    vCrossWord b row ci L =
      (List.range' a (e - a)).filterMap (fun x => if x = row then some L else getL b x ci) ∧
    (vCrossWord b row ci L).length = e - a ∧
    vCrossPos b row ci L = (List.range' a (e - a)).map fun x => (x, ci) := by
  have hvs : vStart b ci row = a :=
    vStart_eq b ci a row ha (fun x hx1 hx2 => hfill x hx1 (by omega) (by omega)) hstart
  have hmfill : ∀ x, a ≤ x → x < e →
      (if x = row then some L else getL b x ci).isSome = true := by
    intro x hx1 hx2
    by_cases hxr : x = row
    · rw [if_pos hxr]
      rfl
    · rw [if_neg hxr]
      exact hfill x hx1 hx2 hxr
  have hmend : e = 15 ∨ (if e = row then some L else getL b e ci) = none := by
    rcases hend with h | h
    · exact Or.inl h
    · right
      rw [if_neg (by omega)]
      exact h
  have hcw : vCrossWord b row ci L =
      (List.range' a (e - a)).filterMap fun x => if x = row then some L else getL b x ci := by
    unfold vCrossWord
    rw [hvs]
    exact vCollect_eq b ci row L (15 - a) a e (by omega) (by omega) (by omega) hmfill hmend
  have hlen : (vCrossWord b row ci L).length = e - a := by
    rw [hcw]
    rw [length_filterMap_of_isSome _ _ fun y hy => ?_, List.length_range']
    have := List.mem_range'_1.mp hy
    exact hmfill y this.1 (by omega)
  refine ⟨hvs, hcw, hlen, ?_⟩
  unfold vCrossPos
  rw [hvs, hlen]

/-- Horizontal analogue of `vCross_spec`. -/
theorem hCross_spec (b : Board) (row ci : Nat) (L : Char) (a e : Nat)
    (ha : a ≤ ci) (hre : ci < e) (he : e ≤ 15)
    (hfill : ∀ y, a ≤ y → y < e → y ≠ ci → (getL b row y).isSome = true)
    (hstart : a = 0 ∨ getL b row (a - 1) = none)
    (hend : e = 15 ∨ getL b row e = none) :
    hStart b row ci = a ∧
    hCrossWord b row ci L =
      (List.range' a (e - a)).filterMap (fun y => if y = ci then some L else getL b row y) ∧
    (hCrossWord b row ci L).length = e - a ∧
    hCrossPos b row ci L = (List.range' a (e - a)).map fun y => (row, y) := by
  have hhs : hStart b row ci = a :=
    hStart_eq b row a ci ha (fun y hy1 hy2 => hfill y hy1 (by omega) (by omega)) hstart
  have hmfill : ∀ y, a ≤ y → y < e →
      (if y = ci then some L else getL b row y).isSome = true := by
    intro y hy1 hy2
    by_cases hyc : y = ci
    · rw [if_pos hyc]
      rfl
    · rw [if_neg hyc]
      exact hfill y hy1 hy2 hyc
  have hmend : e = 15 ∨ (if e = ci then some L else getL b row e) = none := by
    rcases hend with h | h
    · exact Or.inl h
    · right
      rw [if_neg (by omega)]
      exact h
  have hcw : hCrossWord b row ci L =
      (List.range' a (e - a)).filterMap fun y => if y = ci then some L else getL b row y := by
    unfold hCrossWord
    rw [hhs]
    exact hCollect_eq b row ci L (15 - a) a e (by omega) (by omega) (by omega) hmfill hmend
  have hlen : (hCrossWord b row ci L).length = e - a := by
    rw [hcw]
    rw [length_filterMap_of_isSome _ _ fun y hy => ?_, List.length_range']
    have := List.mem_range'_1.mp hy
    exact hmfill y this.1 (by omega)
  refine ⟨hhs, hcw, hlen, ?_⟩
  unfold hCrossPos
  rw [hhs, hlen]

/-- The validator's rightward extension stops at the right end of the filled
block. -/
theorem extendR_eq (b : Board) (row : Nat) :
    ∀ fuel c e, c ≤ e → e ≤ 14 → e ≤ c + fuel →
      (∀ y, c < y → y ≤ e → (getL b row y).isSome = true) →
      (e = 14 ∨ getL b row (e + 1) = none) → extendR b row c fuel = e := by
  intro fuel
  induction fuel with
  | zero =>
    intro c e h1 h2 h3 _ _
    have : c = e := by omega
    rw [this]
    rfl
  | succ k ih =>
    intro c e h1 h2 h3 hfill hend
    rcases Nat.eq_or_lt_of_le h1 with rfl | hlt
    · simp only [extendR]
      rcases hend with h14 | hn
      · rw [if_neg]
        intro hcon
        omega
      · rw [if_neg]
        intro hcon
        rw [hn] at hcon
        exact absurd hcon.2 (by simp)
    · have hc1 : (getL b row (c + 1)).isSome = true := hfill (c + 1) (by omega) (by omega)
      simp only [extendR]
      rw [if_pos ⟨by omega, hc1⟩]
      exact ih (c + 1) e (by omega) h2 (by omega) (fun y hy1 hy2 => hfill y (by omega) hy2) hend

theorem extendD_eq (b : Board) (col : Nat) :
    ∀ fuel r e, r ≤ e → e ≤ 14 → e ≤ r + fuel →
      (∀ x, r < x → x ≤ e → (getL b x col).isSome = true) →
      (e = 14 ∨ getL b (e + 1) col = none) → extendD b col r fuel = e := by
  intro fuel
  induction fuel with
  | zero =>
    intro r e h1 h2 h3 _ _
    have : r = e := by omega
    rw [this]
    rfl
  | succ k ih =>
    intro r e h1 h2 h3 hfill hend
    rcases Nat.eq_or_lt_of_le h1 with rfl | hlt
    · simp only [extendD]
      rcases hend with h14 | hn
      · rw [if_neg]
        intro hcon
        omega
      · rw [if_neg]
        intro hcon
        rw [hn] at hcon
        exact absurd hcon.2 (by simp)
    · have hc1 : (getL b (r + 1) col).isSome = true := hfill (r + 1) (by omega) (by omega)
      simp only [extendD]
      rw [if_pos ⟨by omega, hc1⟩]
      exact ih (r + 1) e (by omega) h2 (by omega) (fun x hx1 hx2 => hfill x (by omega) hx2) hend

/-- The validator's collection loop succeeds cell by cell when every cell of
the window reads a letter. -/
theorem collectH_eq (b : Board) (placed : Placed) (row : Nat) :
    ∀ n c (f : Nat → Char),
      (∀ y, c ≤ y → y < c + n → (lookupP placed row y).or (getL b row y) = some (f y)) →
      collectH b placed row c n = some ((List.range' c n).map fun y => ((row, y), f y)) := by
  intro n
  induction n with
  | zero =>
    intro c f _
    rfl
  | succ k ih =>
    intro c f hf
    have h0 : (lookupP placed row c).or (getL b row c) = some (f c) := hf c le_rfl (by omega)
    simp only [collectH, h0]
    rw [ih (c + 1) f fun y hy1 hy2 => hf y (by omega) (by omega)]
    rw [List.range'_succ]
    simp [List.map_cons]

theorem collectV_eq (b : Board) (placed : Placed) (col : Nat) :
    ∀ n r (f : Nat → Char),
      (∀ x, r ≤ x → x < r + n → (lookupP placed x col).or (getL b x col) = some (f x)) →
      collectV b placed col r n = some ((List.range' r n).map fun x => ((x, col), f x)) := by
  intro n
  induction n with
  | zero =>
    intro r f _
    rfl
  | succ k ih =>
    intro r f hf
    have h0 : (lookupP placed r col).or (getL b r col) = some (f r) := hf r le_rfl (by omega)
    simp only [collectV, h0]
    rw [ih (r + 1) f fun x hx1 hx2 => hf x (by omega) (by omega)]
    rw [List.range'_succ]
    simp [List.map_cons]

/-! ### Board updates -/

theorem place_apply_H (w : Word) :
    ∀ (b : Board) (row col x y : Nat),
      place b w row col true x y =
        if x = row ∧ col ≤ y ∧ y < col + w.length then w[y - col]? else b x y := by
  induction w with
  | nil =>
    intro b row col x y
    simp only [place, List.length_nil, Nat.add_zero]
    rw [if_neg (by omega)]
  | cons ch rest ih =>
    intro b row col x y
    simp only [place, if_true, List.length_cons]
    rw [ih (upd b row col ch) row (col + 1) x y]
    by_cases h1 : x = row ∧ col ≤ y ∧ y < col + (rest.length + 1)
    · rw [if_pos h1]
      by_cases h2 : y = col
      · rw [if_neg (by omega)]
        unfold upd
        rw [if_pos ⟨h1.1, h2⟩]
        rw [h2, Nat.sub_self, List.getElem?_cons_zero]
      · rw [if_pos ⟨h1.1, by omega, by omega⟩]
        have hyc : y - col = (y - (col + 1)) + 1 := by omega
        rw [hyc, List.getElem?_cons_succ]
    · rw [if_neg h1]
      rw [if_neg (by omega)]
      unfold upd
      rw [if_neg (by omega)]

theorem upd_transp (b : Board) (r c : Nat) (ch : Char) :
    transp (upd b r c ch) = upd (transp b) c r ch := by
  funext x y
  unfold transp upd
  by_cases h : x = c ∧ y = r
  · rw [if_pos ⟨h.2, h.1⟩, if_pos h]
  · rw [if_neg fun hh => h ⟨hh.2, hh.1⟩, if_neg h]

theorem place_transp (w : Word) :
    ∀ (b : Board) (row col : Nat),
      place b w row col false = transp (place (transp b) w col row true) := by
  induction w with
  | nil =>
    intro b row col
    rfl
  | cons ch rest ih =>
    intro b row col
    simp only [place, if_true, Bool.false_eq_true, if_false]
    rw [ih (upd b row col ch) (row + 1) col]
    rw [← upd_transp]

theorem place_apply_V (w : Word) (b : Board) (row col x y : Nat) :
    place b w row col false x y =
      if y = col ∧ row ≤ x ∧ x < row + w.length then w[x - row]? else b x y := by
  rw [place_transp]
  show place (transp b) w col row true y x = _
  rw [place_apply_H]
  rfl

theorem getL_place_H (b : Board) (w : Word) (row col : Nat)
    (hrow : row < 15) (hcol : col + w.length ≤ 15) (x y : Nat) :
    getL (place b w row col true) x y =
      if x = row ∧ col ≤ y ∧ y < col + w.length then w[y - col]? else getL b x y := by
  by_cases h : x = row ∧ col ≤ y ∧ y < col + w.length
  · rw [if_pos h]
    unfold getL
    rw [if_pos ⟨by omega, by omega⟩]
    rw [place_apply_H, if_pos h]
  · rw [if_neg h]
    unfold getL
    by_cases hb : x < 15 ∧ y < 15
    · rw [if_pos hb, if_pos hb, place_apply_H, if_neg h]
    · rw [if_neg hb, if_neg hb]

theorem getL_place_V (b : Board) (w : Word) (row col : Nat)
    (hcol : col < 15) (hrow : row + w.length ≤ 15) (x y : Nat) :
    getL (place b w row col false) x y =
      if y = col ∧ row ≤ x ∧ x < row + w.length then w[x - row]? else getL b x y := by
  by_cases h : y = col ∧ row ≤ x ∧ x < row + w.length
  · rw [if_pos h]
    unfold getL
    rw [if_pos ⟨by omega, by omega⟩]
    rw [place_apply_V, if_pos h]
  · rw [if_neg h]
    unfold getL
    by_cases hb : x < 15 ∧ y < 15
    · rw [if_pos hb, if_pos hb, place_apply_V, if_neg h]
    · rw [if_neg hb, if_neg hb]

/-! ### Position lines -/

theorem posLine_length (isH : Bool) (r c n : Nat) : (posLine isH r c n).length = n := by
  simp [posLine]

theorem posLine_zip_mem (isH : Bool) (r c : Nat) (w : Word) (i : Nat) (hi : i < w.length) :
    ((if isH then (r, c + i) else (r + i, c)), w[i]) ∈ (posLine isH r c w.length).zip w := by
  have hzl : ((posLine isH r c w.length).zip w).length = w.length := by
    simp [List.length_zip, posLine_length]
  have hiz : i < ((posLine isH r c w.length).zip w).length := by omega
  have hpl : i < (posLine isH r c w.length).length := by
    rw [posLine_length]
    exact hi
  have hval : ((posLine isH r c w.length).zip w)[i] =
      ((if isH then (r, c + i) else (r + i, c)), w[i]) := by
    rw [List.getElem_zip]
    congr 1
    simp [posLine]
  rw [← hval]
  exact List.getElem_mem hiz

theorem mem_posLine_zip {isH : Bool} {r c : Nat} {w : Word} {q : (Nat × Nat) × Char}
    (hq : q ∈ (posLine isH r c w.length).zip w) :
    ∃ i, ∃ hi : i < w.length, q = ((if isH then (r, c + i) else (r + i, c)), w[i]) := by
  obtain ⟨i, hiz, hval⟩ := List.mem_iff_getElem.mp hq
  have hzl : ((posLine isH r c w.length).zip w).length = w.length := by
    simp [List.length_zip, posLine_length]
  have hi : i < w.length := by omega
  refine ⟨i, hi, ?_⟩
  rw [← hval, List.getElem_zip]
  congr 1
  simp [posLine]

/-! ### Inverting `canPlaceWord` and the run model -/

theorem noExtH_spec {b : Board} {row col len : Nat} (h : noExtH b row col len = true) :
    (col = 0 ∨ getL b row (col - 1) = none) ∧
    (15 ≤ col + len ∨ getL b row (col + len) = none) := by
  unfold noExtH at h
  rw [Bool.and_eq_true] at h
  constructor
  · by_cases h0 : 0 < col
    · right
      have := h.1
      rw [if_pos h0] at this
      exact Option.isNone_iff_eq_none.mp this
    · left
      omega
  · by_cases h0 : col + len < 15
    · right
      have := h.2
      rw [if_pos h0] at this
      exact Option.isNone_iff_eq_none.mp this
    · left
      omega

theorem noExtV_spec {b : Board} {row col len : Nat} (h : noExtV b row col len = true) :
    (row = 0 ∨ getL b (row - 1) col = none) ∧
    (15 ≤ row + len ∨ getL b (row + len) col = none) := by
  unfold noExtV at h
  rw [Bool.and_eq_true] at h
  constructor
  · by_cases h0 : 0 < row
    · right
      have := h.1
      rw [if_pos h0] at this
      exact Option.isNone_iff_eq_none.mp this
    · left
      omega
  · by_cases h0 : row + len < 15
    · right
      have := h.2
      rw [if_pos h0] at this
      exact Option.isNone_iff_eq_none.mp this
    · left
      omega

theorem canPlaceWord_H {ws : Word → Bool} {b : Board} {w : Word} {row col : Nat}
    (h : canPlaceWord ws b w row col true = true) :
    col + w.length ≤ 15 ∧
    (∀ i (hi : i < w.length),
        getL b row (col + i) = some w[i] ∨ getL b row (col + i) = none) ∧
    noExtH b row col w.length = true ∧
    (∀ i (hi : i < w.length), getL b row (col + i) = none →
        crossOkH ws b row (col + i) w[i] = true) := by
  unfold canPlaceWord at h
  by_cases h1 : 15 < col + w.length
  · rw [if_pos ⟨rfl, h1⟩] at h
    exact absurd h (by simp)
  rw [if_neg fun hh => h1 hh.2] at h
  rw [if_neg fun hh => hh.1 rfl] at h
  rw [Bool.and_eq_true, Bool.and_eq_true] at h
  obtain ⟨⟨hA, hB⟩, hC⟩ := h
  rw [List.all_eq_true] at hA hC
  refine ⟨by omega, ?_, ?_, ?_⟩
  · intro i hi
    have hmem := posLine_zip_mem true row col w i hi
    rw [if_pos rfl] at hmem
    have := hA _ hmem
    cases hg : getL b row (col + i) with
    | some ex =>
      rw [hg] at this
      simp only [decide_eq_true_eq] at this
      exact Or.inl (by rw [this])
    | none => exact Or.inr rfl
  · rw [if_pos rfl] at hB
    exact hB
  · intro i hi hnone
    have hmem := posLine_zip_mem true row col w i hi
    rw [if_pos rfl] at hmem
    have := hC _ hmem
    rw [hnone] at this
    simp only [Option.isNone_none, if_true, if_pos rfl] at this
    exact this

theorem canPlaceWord_V {ws : Word → Bool} {b : Board} {w : Word} {row col : Nat}
    (h : canPlaceWord ws b w row col false = true) :
    row + w.length ≤ 15 ∧
    (∀ i (hi : i < w.length),
        getL b (row + i) col = some w[i] ∨ getL b (row + i) col = none) ∧
    noExtV b row col w.length = true ∧
    (∀ i (hi : i < w.length), getL b (row + i) col = none →
        crossOkV ws b (row + i) col w[i] = true) := by
  unfold canPlaceWord at h
  rw [if_neg fun hh => Bool.false_ne_true hh.1] at h
  by_cases h1 : 15 < row + w.length
  · rw [if_pos ⟨fun hh => Bool.false_ne_true hh, h1⟩] at h
    exact absurd h (by simp)
  rw [if_neg fun hh => h1 hh.2] at h
  rw [Bool.and_eq_true, Bool.and_eq_true] at h
  obtain ⟨⟨hA, hB⟩, hC⟩ := h
  rw [List.all_eq_true] at hA hC
  refine ⟨by omega, ?_, ?_, ?_⟩
  · intro i hi
    have hmem := posLine_zip_mem false row col w i hi
    rw [if_neg Bool.false_ne_true] at hmem
    have := hA _ hmem
    cases hg : getL b (row + i) col with
    | some ex =>
      rw [hg] at this
      simp only [decide_eq_true_eq] at this
      exact Or.inl (by rw [this])
    | none => exact Or.inr rfl
  · rw [if_neg Bool.false_ne_true] at hB
    exact hB
  · intro i hi hnone
    have hmem := posLine_zip_mem false row col w i hi
    rw [if_neg Bool.false_ne_true] at hmem
    have := hC _ hmem
    rw [hnone] at this
    simp only [Option.isNone_none, if_true, if_neg Bool.false_ne_true] at this
    exact this

/-- Reading a word back from consecutive indices. -/
theorem filterMap_getElem_range (w : Word) :
    ∀ a, ((List.range' a w.length).filterMap fun y => w[y - a]?) = w := by
  induction w with
  | nil => intro a; simp
  | cons ch rest ih =>
    intro a
    rw [List.length_cons, List.range'_succ, List.filterMap_cons]
    rw [Nat.sub_self, List.getElem?_cons_zero]
    have hcongr : ∀ y ∈ List.range' (a + 1) rest.length,
        (ch :: rest)[y - a]? = rest[y - (a + 1)]? := by
      intro y hy
      have := List.mem_range'_1.mp hy
      have hya : y - a = (y - (a + 1)) + 1 := by omega
      rw [hya, List.getElem?_cons_succ]
    rw [List.filterMap_congr hcongr, ih (a + 1)]

theorem maxHRun_le15 {b : Board} {r a e : Nat} (h : maxHRun b r a e) : e ≤ 15 := by
  obtain ⟨hlt, hfill, -, -⟩ := h
  have hcell := hfill (e - 1) (by omega) (by omega)
  have hb := getL_bounds hcell
  omega

theorem maxVRun_le15 {b : Board} {c a e : Nat} (h : maxVRun b c a e) : e ≤ 15 := by
  obtain ⟨hlt, hfill, -, -⟩ := h
  have hcell := hfill (e - 1) (by omega) (by omega)
  have hb := getL_bounds hcell
  omega

/-- Two maximal runs through a common cell coincide. -/
theorem maxHRun_unique {b : Board} {r a1 e1 a2 e2 x : Nat}
    (h1 : maxHRun b r a1 e1) (h2 : maxHRun b r a2 e2)
    (hx1 : a1 ≤ x) (hx2 : x < e1) (hx3 : a2 ≤ x) (hx4 : x < e2) :
    a1 = a2 ∧ e1 = e2 := by
  obtain ⟨hlt1, hfill1, hs1, he1⟩ := h1
  obtain ⟨hlt2, hfill2, hs2, he2⟩ := h2
  constructor
  · by_contra hne
    rcases Nat.lt_or_ge a1 a2 with hl | hg
    · have hc : (getL b r (a2 - 1)).isSome = true := hfill1 (a2 - 1) (by omega) (by omega)
      rcases hs2 with h0 | hn
      · omega
      · rw [hn] at hc
        exact absurd hc (by simp)
    · have hgt : a2 < a1 := by omega
      have hc : (getL b r (a1 - 1)).isSome = true := hfill2 (a1 - 1) (by omega) (by omega)
      rcases hs1 with h0 | hn
      · omega
      · rw [hn] at hc
        exact absurd hc (by simp)
  · by_contra hne
    rcases Nat.lt_or_ge e1 e2 with hl | hg
    · have hc : (getL b r e1).isSome = true := hfill2 e1 (by omega) (by omega)
      rcases he1 with h15 | hn
      · have := getL_bounds hc
        omega
      · rw [hn] at hc
        exact absurd hc (by simp)
    · have hgt : e2 < e1 := by omega
      have hc : (getL b r e2).isSome = true := hfill1 e2 (by omega) (by omega)
      rcases he2 with h15 | hn
      · have := getL_bounds hc
        omega
      · rw [hn] at hc
        exact absurd hc (by simp)

/-- Runs only look at one row, so a board change elsewhere preserves them. -/
theorem maxHRun_congr {b b2 : Board} {r : Nat}
    (hrow : ∀ y, getL b2 r y = getL b r y) {a e : Nat} :
    maxHRun b2 r a e ↔ maxHRun b r a e := by
  unfold maxHRun
  simp only [hrow]

theorem hWordOf_congr {b b2 : Board} {r : Nat}
    (hrow : ∀ y, getL b2 r y = getL b r y) (a e : Nat) :
    hWordOf b2 r a e = hWordOf b r a e := by
  unfold hWordOf
  exact List.filterMap_congr fun y _ => hrow y

theorem maxVRun_congr {b b2 : Board} {c : Nat}
    (hcol : ∀ x, getL b2 x c = getL b x c) {a e : Nat} :
    maxVRun b2 c a e ↔ maxVRun b c a e := by
  unfold maxVRun
  simp only [hcol]

theorem vWordOf_congr {b b2 : Board} {c : Nat}
    (hcol : ∀ x, getL b2 x c = getL b x c) (a e : Nat) :
    vWordOf b2 c a e = vWordOf b c a e := by
  unfold vWordOf
  exact List.filterMap_congr fun x _ => hcol x

theorem transp_transp (b : Board) : transp (transp b) = b := rfl

theorem maxVRun_transp (b : Board) (c a e : Nat) :
    maxVRun b c a e ↔ maxHRun (transp b) c a e := by
  unfold maxVRun maxHRun
  simp only [getL_transp]

theorem vWordOf_transp (b : Board) (c a e : Nat) :
    vWordOf b c a e = hWordOf (transp b) c a e := by
  unfold vWordOf hWordOf
  exact (List.filterMap_congr fun x _ => (getL_transp b c x).symm)

theorem RunsValid_transp (ws : Word → Bool) (b : Board) :
    RunsValid ws (transp b) ↔ RunsValid ws b := by
  unfold RunsValid
  constructor
  · rintro ⟨hH, hV⟩
    constructor
    · intro r a e hrun hlen
      have hr2 : maxVRun (transp b) r a e := by
        rw [maxVRun_transp, transp_transp]
        exact hrun
      have := hV r a e hr2 hlen
      rwa [vWordOf_transp, transp_transp] at this
    · intro c a e hrun hlen
      have hr2 : maxHRun (transp b) c a e := (maxVRun_transp b c a e).mp hrun
      have := hH c a e hr2 hlen
      rwa [← vWordOf_transp] at this
  · rintro ⟨hH, hV⟩
    constructor
    · intro r a e hrun hlen
      have hr2 : maxVRun b r a e := (maxVRun_transp b r a e).mpr hrun
      have := hV r a e hr2 hlen
      rwa [vWordOf_transp] at this
    · intro c a e hrun hlen
      have hr2 : maxHRun b c a e := by
        have h3 := (maxVRun_transp (transp b) c a e).mp hrun
        rwa [transp_transp] at h3
      have := hH c a e hr2 hlen
      have hw : vWordOf (transp b) c a e = hWordOf b c a e := by
        rw [vWordOf_transp, transp_transp]
      rwa [hw]

/-- Preservation of the run invariant by a horizontal placement that passes
`canPlaceWord`: the placed segment becomes a maximal run spelling the word,
every other run either is untouched or is a cross run already checked. -/
theorem preserveH (ws : Word → Bool) (b : Board) (w : Word) (row col : Nat)
    (hcan : canPlaceWord ws b w row col true = true)
    (hrow : row < 15) (hws : ws w = true) (hinv : RunsValid ws b) :
    RunsValid ws (place b w row col true) := by
  obtain ⟨hbound, hmatch, hnoext, hcross⟩ := canPlaceWord_H hcan
  obtain ⟨hext1, hext2⟩ := noExtH_spec hnoext
  have hget : ∀ x y, getL (place b w row col true) x y =
      if x = row ∧ col ≤ y ∧ y < col + w.length then w[y - col]? else getL b x y :=
    getL_place_H b w row col hrow hbound
  generalize hb2def : place b w row col true = b2 at hget
  have hsegval : ∀ y, col ≤ y → y < col + w.length → getL b2 row y = w[y - col]? := by
    intro y h1 h2
    rw [hget row y, if_pos ⟨rfl, h1, h2⟩]
  have hseg : ∀ y, col ≤ y → y < col + w.length → (getL b2 row y).isSome = true := by
    intro y h1 h2
    rw [hsegval y h1 h2, List.getElem?_eq_getElem (by omega)]
    rfl
  have hout : ∀ x y, ¬(x = row ∧ col ≤ y ∧ y < col + w.length) →
      getL b2 x y = getL b x y := by
    intro x y hxy
    rw [hget x y, if_neg hxy]
  have hoth : ∀ x y, x ≠ row → getL b2 x y = getL b x y := fun x y hx =>
    hout x y fun hh => hx hh.1
  constructor
  · intro r a e hrun hlen
    by_cases hr : r = row
    · rw [hr] at hrun
      rw [hr]
      by_cases hint : ∃ x, a ≤ x ∧ x < e ∧ col ≤ x ∧ x < col + w.length
      · obtain ⟨x, hx1, hx2, hx3, hx4⟩ := hint
        have hsegrun : maxHRun b2 row col (col + w.length) := by
          refine ⟨by omega, fun y hy1 hy2 => hseg y hy1 hy2, ?_, ?_⟩
          · rcases hext1 with h0 | hn
            · exact Or.inl h0
            · by_cases hc0 : col = 0
              · exact Or.inl hc0
              · right
                rw [hout row (col - 1) (by omega)]
                exact hn
          · rcases hext2 with h15 | hn
            · exact Or.inl h15
            · right
              rw [hout row (col + w.length) (by omega)]
              exact hn
        have huniq := maxHRun_unique hrun hsegrun hx1 hx2 hx3 hx4
        rw [huniq.1, huniq.2]
        have hword : hWordOf b2 row col (col + w.length) = w := by
          unfold hWordOf
          rw [show col + w.length - col = w.length from by omega]
          rw [List.filterMap_congr fun y hy => ?side, filterMap_getElem_range w col]
          case side =>
            have hyr := List.mem_range'_1.mp hy
            exact hsegval y hyr.1 (by omega)
        rw [hword]
        exact hws
      · push_neg at hint
        have hcells : ∀ y, a ≤ y → y < e → ¬(col ≤ y ∧ y < col + w.length) := by
          intro y h1 h2 hcon
          have := hint y h1 h2 hcon.1
          omega
        have hcong : ∀ y, a ≤ y → y < e → getL b2 row y = getL b row y := fun y h1 h2 =>
          hout row y fun hh => hcells y h1 h2 ⟨hh.2.1, hh.2.2⟩
        obtain ⟨hlt, hfill, hsta, hend⟩ := hrun
        have hrun2 : maxHRun b row a e := by
          refine ⟨hlt, fun y h1 h2 => ?_, ?_, ?_⟩
          · rw [← hcong y h1 h2]
            exact hfill y h1 h2
          · rcases hsta with h0 | hn
            · exact Or.inl h0
            · right
              by_cases hin : col ≤ a - 1 ∧ a - 1 < col + w.length
              · exfalso
                have hsome := hseg (a - 1) hin.1 hin.2
                rw [hn] at hsome
                exact absurd hsome (by simp)
              · rw [← hout row (a - 1) fun hh => hin ⟨hh.2.1, hh.2.2⟩]
                exact hn
          · rcases hend with h15 | hn
            · exact Or.inl h15
            · right
              by_cases hin : col ≤ e ∧ e < col + w.length
              · exfalso
                have hsome := hseg e hin.1 hin.2
                rw [hn] at hsome
                exact absurd hsome (by simp)
              · rw [← hout row e fun hh => hin ⟨hh.2.1, hh.2.2⟩]
                exact hn
        have hword : hWordOf b2 row a e = hWordOf b row a e := by
          unfold hWordOf
          refine List.filterMap_congr fun y hy => ?_
          have hyr := List.mem_range'_1.mp hy
          exact hcong y hyr.1 (by omega)
        rw [hword]
        exact hinv.1 row a e hrun2 hlen
    · have hcong : ∀ y, getL b2 r y = getL b r y := fun y => hoth r y hr
      rw [hWordOf_congr hcong]
      exact hinv.1 r a e ((maxHRun_congr hcong).mp hrun) hlen
  · intro ci a e hrun hlen
    by_cases hci : col ≤ ci ∧ ci < col + w.length
    · have hilt : ci - col < w.length := by omega
      have hcieq : col + (ci - col) = ci := by omega
      rcases hmatch (ci - col) hilt with hre | hnew
      · rw [hcieq] at hre
        have hcong : ∀ x, getL b2 x ci = getL b x ci := by
          intro x
          by_cases hx : x = row
          · subst hx
            rw [hsegval ci hci.1 hci.2, hre, List.getElem?_eq_getElem (by omega)]
          · exact hoth x ci hx
        rw [vWordOf_congr hcong]
        exact hinv.2 ci a e ((maxVRun_congr hcong).mp hrun) hlen
      · rw [hcieq] at hnew
        have he15 : e ≤ 15 := maxVRun_le15 hrun
        obtain ⟨hlt, hfill, hsta, hend⟩ := hrun
        by_cases hrin : a ≤ row ∧ row < e
        · have hcellsb : ∀ x, a ≤ x → x < e → x ≠ row → (getL b x ci).isSome = true := by
            intro x h1 h2 hx
            rw [← hoth x ci hx]
            exact hfill x h1 h2
          have hsta2 : a = 0 ∨ getL b (a - 1) ci = none := by
            by_cases ha0 : a = 0
            · exact Or.inl ha0
            · rcases hsta with h0 | hn
              · exact Or.inl h0
              · right
                rw [← hoth (a - 1) ci (by omega)]
                exact hn
          have hend2 : e = 15 ∨ getL b e ci = none := by
            rcases hend with h15 | hn
            · left
              omega
            · right
              rw [← hoth e ci (by omega)]
              exact hn
          obtain ⟨hvs, hcw, hcwlen, hcp⟩ := vCross_spec b ci row (w[ci - col]) a e
            hrin.1 hrin.2 he15 hcellsb hsta2 hend2
          have hguard : (getL b (row - 1) ci).isSome = true ∨
              (getL b (row + 1) ci).isSome = true := by
            by_cases har : a < row
            · left
              rw [← hoth (row - 1) ci (by omega)]
              exact hfill (row - 1) (by omega) (by omega)
            · right
              rw [← hoth (row + 1) ci (by omega)]
              exact hfill (row + 1) (by omega) (by omega)
          have hcrossok := hcross (ci - col) hilt (by rw [hcieq]; exact hnew)
          rw [hcieq] at hcrossok
          unfold crossOkH at hcrossok
          rw [if_pos hguard] at hcrossok
          have hwscw : ws (vCrossWord b row ci (w[ci - col])) = true := by
            cases hws2 : ws (vCrossWord b row ci (w[ci - col])) with
            | true => rfl
            | false =>
              rw [if_pos ⟨by rw [hcwlen]; omega, hws2⟩] at hcrossok
              exact absurd hcrossok (by simp)
          have hword : vWordOf b2 ci a e = vCrossWord b row ci (w[ci - col]) := by
            rw [hcw]
            unfold vWordOf
            refine List.filterMap_congr fun x hx => ?_
            have hxr := List.mem_range'_1.mp hx
            by_cases hxrow : x = row
            · subst hxrow
              rw [hsegval ci hci.1 hci.2, if_pos rfl, List.getElem?_eq_getElem (by omega)]
            · rw [if_neg hxrow]
              exact hoth x ci hxrow
          rw [hword]
          exact hwscw
        · have hxne : ∀ x, a ≤ x → x < e → x ≠ row := by
            intro x h1 h2 hx
            exact hrin ⟨by omega, by omega⟩
          have hrun2 : maxVRun b ci a e := by
            refine ⟨hlt, fun x h1 h2 => ?_, ?_, ?_⟩
            · rw [← hoth x ci (hxne x h1 h2)]
              exact hfill x h1 h2
            · rcases hsta with h0 | hn
              · exact Or.inl h0
              · right
                by_cases hbr : a - 1 = row
                · exfalso
                  have hsome := hseg ci hci.1 hci.2
                  rw [hbr] at hn
                  rw [hn] at hsome
                  exact absurd hsome (by simp)
                · rw [← hoth (a - 1) ci hbr]
                  exact hn
            · rcases hend with h15 | hn
              · exact Or.inl h15
              · right
                by_cases hbr : e = row
                · exfalso
                  have hsome := hseg ci hci.1 hci.2
                  rw [hbr] at hn
                  rw [hn] at hsome
                  exact absurd hsome (by simp)
                · rw [← hoth e ci hbr]
                  exact hn
          have hword : vWordOf b2 ci a e = vWordOf b ci a e := by
            unfold vWordOf
            refine List.filterMap_congr fun x hx => ?_
            have hxr := List.mem_range'_1.mp hx
            exact hoth x ci (hxne x hxr.1 (by omega))
          rw [hword]
          exact hinv.2 ci a e hrun2 hlen
    · have hcong : ∀ x, getL b2 x ci = getL b x ci := fun x =>
        hout x ci fun hh => hci ⟨hh.2.1, hh.2.2⟩
      rw [vWordOf_congr hcong]
      exact hinv.2 ci a e ((maxVRun_congr hcong).mp hrun) hlen

theorem mem_posLine {isH : Bool} {r c n : Nat} {p : Nat × Nat} (hp : p ∈ posLine isH r c n) :
    ∃ i, i < n ∧ p = (if isH then (r, c + i) else (r + i, c)) := by
  unfold posLine at hp
  obtain ⟨i, hi, hpe⟩ := List.mem_map.mp hp
  exact ⟨i, List.mem_range.mp hi, hpe.symm⟩

theorem getL_empty (r c : Nat) : getL emptyBoard r c = none := by
  unfold getL emptyBoard
  by_cases h : r < 15 ∧ c < 15
  · rw [if_pos h]
  · rw [if_neg h]

theorem RunsValid_empty (ws : Word → Bool) : RunsValid ws emptyBoard := by
  constructor <;>
    · intro r a e hrun hlen
      have := hrun.2.1 a le_rfl hrun.1
      rw [getL_empty] at this
      exact absurd this (by simp)

theorem canPlaceWord_empty (ws : Word → Bool) (w : Word) (col : Nat)
    (hfit : col + w.length ≤ 15) :
    canPlaceWord ws emptyBoard w 7 col true = true := by
  unfold canPlaceWord
  rw [if_neg (by omega : ¬((true : Bool) = true ∧ 15 < col + w.length))]
  rw [if_neg fun hh => hh.1 rfl]
  rw [Bool.and_eq_true, Bool.and_eq_true]
  refine ⟨⟨?_, ?_⟩, ?_⟩
  · rw [List.all_eq_true]
    intro q hq
    simp [getL_empty]
  · rw [if_pos rfl]
    unfold noExtH
    simp [getL_empty]
  · rw [List.all_eq_true]
    intro q hq
    rw [if_pos (by simp [getL_empty]), if_pos rfl]
    unfold crossOkH
    rw [if_neg (by simp [getL_empty])]

/-! ### Transposition of the placement checks -/

theorem posLine_swap (r c n : Nat) :
    posLine false r c n = (posLine true c r n).map Prod.swap := by
  unfold posLine
  rw [List.map_map]
  refine List.map_congr_left fun i _ => ?_
  simp

theorem noExtV_transp (b : Board) (row col len : Nat) :
    noExtV b row col len = noExtH (transp b) col row len := by
  unfold noExtV noExtH
  simp only [getL_transp]

theorem hCrossWord_transp (b : Board) (r c : Nat) (ch : Char) :
    vCrossWord (transp b) c r ch = hCrossWord b r c ch := by
  unfold vCrossWord hCrossWord
  rw [vStart_transp, transp_transp, vCollect_transp, transp_transp]

theorem crossOkV_transp (ws : Word → Bool) (b : Board) (r c : Nat) (ch : Char) :
    crossOkV ws b r c ch = crossOkH ws (transp b) c r ch := by
  unfold crossOkV crossOkH
  rw [getL_transp, getL_transp, hCrossWord_transp]

theorem list_all_congr {α : Type} {p q : α → Bool} :
    ∀ l : List α, (∀ x ∈ l, p x = q x) → l.all p = l.all q := by
  intro l
  induction l with
  | nil => intro _; rfl
  | cons x xs ih =>
    intro h
    rw [List.all_cons, List.all_cons, h x (List.mem_cons_self x xs),
      ih fun y hy => h y (List.mem_cons_of_mem _ hy)]

theorem list_any_congr {α : Type} {p q : α → Bool} :
    ∀ l : List α, (∀ x ∈ l, p x = q x) → l.any p = l.any q := by
  intro l
  induction l with
  | nil => intro _; rfl
  | cons x xs ih =>
    intro h
    rw [List.any_cons, List.any_cons, h x (List.mem_cons_self x xs),
      ih fun y hy => h y (List.mem_cons_of_mem _ hy)]

theorem canPlaceWord_transp (ws : Word → Bool) (b : Board) (w : Word) (row col : Nat) :
    canPlaceWord ws b w row col false = canPlaceWord ws (transp b) w col row true := by
  unfold canPlaceWord
  rw [if_neg fun hh => Bool.false_ne_true hh.1]
  rw [if_neg (fun hh => hh.1 rfl : ¬(¬(true : Bool) = true ∧ 15 < col + w.length))]
  by_cases h1 : 15 < row + w.length
  · rw [if_pos (⟨Bool.false_ne_true, h1⟩ : ¬(false : Bool) = true ∧ 15 < row + w.length),
      if_pos (⟨rfl, h1⟩ : (true : Bool) = true ∧ 15 < row + w.length)]
  · rw [if_neg (fun hh => h1 hh.2 : ¬(¬(false : Bool) = true ∧ 15 < row + w.length)),
      if_neg (fun hh => h1 hh.2 : ¬((true : Bool) = true ∧ 15 < row + w.length))]
    rw [posLine_swap]
    rw [List.zip_map_left, List.all_map, List.all_map]
    simp only [Function.comp_def]
    have e1 : ∀ q : (Nat × Nat) × Char,
        (fun q : (Nat × Nat) × Char =>
            match getL b q.1.1 q.1.2 with
            | some ex => decide (ex = q.2)
            | none => true) (Prod.map Prod.swap id q) =
          (fun q : (Nat × Nat) × Char =>
            match getL (transp b) q.1.1 q.1.2 with
            | some ex => decide (ex = q.2)
            | none => true) q := by
      intro q
      obtain ⟨⟨x, y⟩, ch⟩ := q
      simp only [Prod.map, Prod.swap, id]
      rw [getL_transp]
    have e2 : ∀ q : (Nat × Nat) × Char,
        (fun q : (Nat × Nat) × Char =>
            if (getL b q.1.1 q.1.2).isNone = true then
              (if (false : Bool) = true then crossOkH ws b q.1.1 q.1.2 q.2
               else crossOkV ws b q.1.1 q.1.2 q.2)
            else true) (Prod.map Prod.swap id q) =
          (fun q : (Nat × Nat) × Char =>
            if (getL (transp b) q.1.1 q.1.2).isNone = true then
              (if (true : Bool) = true then crossOkH ws (transp b) q.1.1 q.1.2 q.2
               else crossOkV ws (transp b) q.1.1 q.1.2 q.2)
            else true) q := by
      intro q
      obtain ⟨⟨x, y⟩, ch⟩ := q
      simp only [Prod.map, Prod.swap, id, getL_transp]
      by_cases hn : (getL b y x).isNone = true
      · rw [if_pos hn, if_pos hn, if_neg Bool.false_ne_true, if_pos trivial]
        exact crossOkV_transp ws b y x ch
      · rw [if_neg hn, if_neg hn]
    rw [list_all_congr _ fun q _ => e1 q, list_all_congr _ fun q _ => e2 q, noExtV_transp]
    simp

theorem sharesLetter_transp (b : Board) (w : Word) (row col : Nat) :
    sharesLetter b w row col false = sharesLetter (transp b) w col row true := by
  unfold sharesLetter
  rw [posLine_swap, List.any_map]
  refine list_any_congr _ fun p _ => ?_
  obtain ⟨x, y⟩ := p
  simp only [Function.comp, Prod.swap]
  rw [getL_transp]

theorem sharesLetter_bounds_H {b : Board} {w : Word} {row col : Nat}
    (h : sharesLetter b w row col true = true) : row < 15 := by
  unfold sharesLetter at h
  rw [List.any_eq_true] at h
  obtain ⟨p, hp, hsome⟩ := h
  obtain ⟨i, hi, hpe⟩ := mem_posLine hp
  rw [if_pos rfl] at hpe
  subst hpe
  exact (getL_bounds hsome).1

/-- Vertical preservation, transported from the horizontal case. -/
theorem preserveV (ws : Word → Bool) (b : Board) (w : Word) (row col : Nat)
    (hcan : canPlaceWord ws b w row col false = true)
    (hcol : col < 15) (hws : ws w = true) (hinv : RunsValid ws b) :
    RunsValid ws (place b w row col false) := by
  rw [place_transp]
  rw [RunsValid_transp]
  rw [canPlaceWord_transp] at hcan
  exact preserveH ws (transp b) w col row hcan hcol hws ((RunsValid_transp ws b).mpr hinv)

/-- C2: every board the builder can commit has only lexicon members as its
maximal horizontal and vertical runs of length ≥ 2 — no latent invalid
word.  (The step-wise checks alone suffice; no post-build scan exists in the
source, and none is needed for this invariant.) -/
theorem C2_built_runs_valid (wl : List Word) (ws : Word → Bool) (b : Board)
    (hb : Built wl ws b) : RunsValid ws b := by
  induction hb with
  | first w hmem hws hfit =>
    exact preserveH ws emptyBoard w 7 (7 - w.length / 2)
      (canPlaceWord_empty ws w _ (by omega)) (by omega) hws (RunsValid_empty ws)
  | grow b w row col isH hb2 hmem hws hcan hshare ih =>
    cases isH with
    | true => exact preserveH ws b w row col hcan (sharesLetter_bounds_H hshare) hws ih
    | false =>
      rw [sharesLetter_transp] at hshare
      exact preserveV ws b w row col hcan (sharesLetter_bounds_H hshare) hws ih

/-- Witness for C2: the builder's first step on the one-word lexicon yields a
board whose runs are all valid. -/
theorem C2_built_runs_valid_witness :
    RunsValid wsCat (place emptyBoard ['C', 'A', 'T'] 7 6 true) :=
  C2_built_runs_valid wlCat wsCat _
    (Built.first ['C', 'A', 'T'] (by decide) (by decide) (by decide))

/-! ### The enumerator's loop invariants -/

theorem posLine_succ (isH : Bool) (r c n : Nat) :
    posLine isH r c (n + 1) =
      (r, c) :: posLine isH (if isH then r else r + 1) (if isH then c + 1 else c) n := by
  cases isH <;>
    simp only [posLine, List.range_succ_eq_map, List.map_cons, List.map_map, if_true,
      Bool.false_eq_true, if_false, Nat.add_zero] <;>
    exact congrArg _ (List.map_congr_left fun i _ => by simp [Function.comp]; omega)

/-- Everything `simLoop` guarantees on success: each cell of the line either
matches the word letter on the board or is empty; the final flags record the
presence of an occupied cell and of an empty cell; the letters consumed at
empty cells together with the leftover rack recount the initial rack. -/
theorem simLoop_some (b : Board) (isH : Bool) (w : Word) :
    ∀ (r c : Nat) (rem : List Char) (t u : Bool) (res : Bool × Bool × List Char),
      simLoop b isH r c w rem t u = some res →
      (∀ q ∈ (posLine isH r c w.length).zip w,
          getL b q.1.1 q.1.2 = some q.2 ∨ getL b q.1.1 q.1.2 = none) ∧
      res.1 = (t || ((posLine isH r c w.length).zip w).any fun q => (getL b q.1.1 q.1.2).isSome) ∧
      res.2.1 = (u || ((posLine isH r c w.length).zip w).any fun q => (getL b q.1.1 q.1.2).isNone) ∧
      ∀ ch : Char,
        ((((posLine isH r c w.length).zip w).filter fun q => (getL b q.1.1 q.1.2).isNone).map
            (fun q => q.2)).count ch + res.2.2.count ch = rem.count ch := by
  induction w with
  | nil =>
    intro r c rem t u res h
    simp only [simLoop, Option.some.injEq] at h
    subst h
    simp [posLine]
  | cons ch rest ih =>
    intro r c rem t u res h
    simp only [simLoop] at h
    rw [List.length_cons, posLine_succ] at *
    cases hg : getL b r c with
    | some ex =>
      rw [hg] at h
      dsimp only at h
      by_cases hex : ex = ch
      · rw [if_pos hex] at h
        subst hex
        obtain ⟨ih1, ih2, ih3, ih4⟩ :=
          ih (if isH then r else r + 1) (if isH then c + 1 else c) rem true u res h
        refine ⟨?_, ?_, ?_, ?_⟩
        · intro q hq
          rw [List.zip_cons_cons, List.mem_cons] at hq
          rcases hq with rfl | hq
          · exact Or.inl hg
          · exact ih1 q hq
        · rw [List.zip_cons_cons, List.any_cons]
          simp only [hg, Option.isSome_some, Bool.true_or, Bool.or_true]
          simpa using ih2
        · rw [List.zip_cons_cons, List.any_cons]
          simp only [hg, Option.isSome_some, Option.isNone_some, Bool.false_or]
          exact ih3
        · intro x
          rw [List.zip_cons_cons, List.filter_cons]
          simp only [hg, Option.isNone_some, Bool.false_eq_true, if_false]
          exact ih4 x
      · rw [if_neg hex] at h
        exact absurd h (by simp)
    | none =>
      rw [hg] at h
      dsimp only at h
      by_cases hcnt : 0 < rem.count ch
      · rw [if_pos hcnt] at h
        obtain ⟨ih1, ih2, ih3, ih4⟩ :=
          ih (if isH then r else r + 1) (if isH then c + 1 else c) (rem.erase ch) t true res h
        refine ⟨?_, ?_, ?_, ?_⟩
        · intro q hq
          rw [List.zip_cons_cons, List.mem_cons] at hq
          rcases hq with rfl | hq
          · exact Or.inr hg
          · exact ih1 q hq
        · rw [List.zip_cons_cons, List.any_cons]
          simp only [hg, Option.isSome_none, Bool.false_or]
          exact ih2
        · rw [List.zip_cons_cons, List.any_cons]
          simp only [hg, Option.isNone_none, Bool.true_or, Bool.or_true]
          simpa using ih3
        · intro x
          rw [List.zip_cons_cons, List.filter_cons]
          simp only [hg, Option.isNone_none, if_true]
          rw [List.map_cons, List.count_cons]
          have hx := ih4 x
          by_cases hxc : x = ch
          · subst hxc
            rw [List.count_erase_self] at hx
            simp only [beq_self_eq_true, if_true]
            omega
          · rw [List.count_erase_of_ne hxc] at hx
            rw [show (ch == x) = false from beq_eq_false_iff_ne.mpr (Ne.symm hxc)]
            simp only [Bool.false_eq_true, if_false]
            omega
      · rw [if_neg hcnt] at h
        exact absurd h (by simp)

/-- Inversion of a successful `tryPlace`: the play's fields and every check
the enumerator performed. -/
theorem tryPlace_eq_some {ws : Word → Bool} {b : Board} {rack : List Char}
    {pu : PremMap} {w : Word} {isH : Bool} {sr sc : Nat} {p : Play}
    (h : tryPlace ws b rack pu w isH sr sc = some p) :
    p = ⟨w, sr, sc, isH, scorePlay w (posLine isH sr sc w.length) b pu isH,
          posLine isH sr sc w.length⟩ ∧
    2 ≤ w.length ∧
    (isH = true → sc + w.length ≤ 15) ∧ (isH = false → sr + w.length ≤ 15) ∧
    (∃ rem, simLoop b isH sr sc w rack false false = some (true, true, rem)) ∧
    (if isH then noExtH b sr sc w.length else noExtV b sr sc w.length) = true ∧
    ((posLine isH sr sc w.length).zip w).all
        (fun q =>
          if (getL b q.1.1 q.1.2).isNone then
            (if isH then crossOkH ws b q.1.1 q.1.2 q.2 else crossOkV ws b q.1.1 q.1.2 q.2)
          else true) = true := by
  unfold tryPlace at h
  by_cases h1 : w.length < 2
  · rw [if_pos h1] at h
    exact absurd h (by simp)
  rw [if_neg h1] at h
  by_cases h2 : isH = true ∧ 15 < sc + w.length
  · rw [if_pos h2] at h
    exact absurd h (by simp)
  rw [if_neg h2] at h
  by_cases h3 : (¬ isH = true) ∧ 15 < sr + w.length
  · rw [if_pos h3] at h
    exact absurd h (by simp)
  rw [if_neg h3] at h
  cases hsim : simLoop b isH sr sc w rack false false with
  | none =>
    rw [hsim] at h
    exact absurd h (by simp)
  | some tur =>
    rw [hsim] at h
    obtain ⟨t, u, rem⟩ := tur
    dsimp only at h
    by_cases h4 : t = false ∨ u = false
    · rw [if_pos h4] at h
      exact absurd h (by simp)
    rw [if_neg h4] at h
    push_neg at h4
    obtain ⟨ht, hu⟩ := h4
    have ht2 : t = true := by cases t <;> simp_all
    have hu2 : u = true := by cases u <;> simp_all
    subst ht2
    subst hu2
    by_cases h5 : (if isH then noExtH b sr sc w.length else noExtV b sr sc w.length) = false
    · rw [if_pos h5] at h
      exact absurd h (by simp)
    rw [if_neg h5] at h
    by_cases h6 : ((posLine isH sr sc w.length).zip w).all
        (fun q =>
          if (getL b q.1.1 q.1.2).isNone then
            (if isH then crossOkH ws b q.1.1 q.1.2 q.2 else crossOkV ws b q.1.1 q.1.2 q.2)
          else true) = false
    · rw [if_pos h6] at h
      exact absurd h (by simp)
    rw [if_neg h6] at h
    refine ⟨(Option.some.inj h).symm, by omega, ?_, ?_, ⟨rem, rfl⟩, ?_, ?_⟩
    · intro hh
      rcases Nat.lt_or_ge (sc + w.length) 16 with hlt | hge
      · omega
      · exact absurd ⟨hh, by omega⟩ h2
    · intro hh
      rcases Nat.lt_or_ge (sr + w.length) 16 with hlt | hge
      · omega
      · refine absurd ⟨by simp [hh], by omega⟩ h3
    · cases hne : (if isH then noExtH b sr sc w.length else noExtV b sr sc w.length)
      · exact absurd hne h5
      · rfl
    · cases hca : ((posLine isH sr sc w.length).zip w).all
          (fun q =>
            if (getL b q.1.1 q.1.2).isNone then
              (if isH then crossOkH ws b q.1.1 q.1.2 q.2 else crossOkV ws b q.1.1 q.1.2 q.2)
            else true)
      · exact absurd hca h6
      · rfl

theorem dedupPlays_subset :
    ∀ (l : List Play) (seen : List (Word × Nat × Nat × Bool)) (p : Play),
      p ∈ dedupPlays l seen → p ∈ l := by
  intro l
  induction l with
  | nil => intro seen p h; simp [dedupPlays] at h
  | cons q rest ih =>
    intro seen p h
    rw [dedupPlays] at h
    by_cases hk : playKey q ∈ seen
    · rw [if_pos hk] at h
      exact List.mem_cons_of_mem _ (ih _ _ h)
    · rw [if_neg hk] at h
      rcases List.mem_cons.mp h with rfl | h2
      · exact List.mem_cons_self _ _
      · exact List.mem_cons_of_mem _ (ih _ _ h2)

/-- A play in the enumerator's output comes from a successful `tryPlace` at
some word of the list, orientation and start cell. -/
theorem mem_findAllValidPlays {wl : List Word} {ws : Word → Bool} {b : Board}
    {rack : List Char} {pu : PremMap} {p : Play}
    (hp : p ∈ findAllValidPlays wl ws b rack pu) :
    ∃ w ∈ wl, ∃ isH sr sc, tryPlace ws b rack pu w isH sr sc = some p := by
  have hp2 : p ∈ findAllValidPlaysRaw wl ws b rack pu :=
    dedupPlays_subset _ _ _ hp
  simp only [findAllValidPlaysRaw, List.mem_flatMap, List.mem_filterMap,
    List.mem_range] at hp2
  obtain ⟨w, hw, isH, hisH, sr, hsr, sc, hsc, htp⟩ := hp2
  exact ⟨w, hw, isH, sr, sc, htp⟩

/-- C5: the multiset of letters at a returned play's newly placed positions
never uses a letter more often than the rack contains it. -/
theorem C5_rack_submultiset (wl : List Word) (ws : Word → Bool) (b : Board)
    (rack : List Char) (pu : PremMap) (p : Play)
    (hp : p ∈ findAllValidPlays wl ws b rack pu) (ch : Char) :
    ((newTilesOf b p).map fun q => q.2).count ch ≤ rack.count ch := by
  obtain ⟨w, hw, isH, sr, sc, htp⟩ := mem_findAllValidPlays hp
  obtain ⟨hpEq, -, -, -, ⟨rem, hsim⟩, -, -⟩ := tryPlace_eq_some htp
  have hcount := (simLoop_some b isH w sr sc rack false false _ hsim).2.2.2 ch
  rw [hpEq]
  simp only [newTilesOf]
  omega

/-- Witness for C5: the vertical AT play through the center A uses one T,
available in the rack. -/
theorem C5_rack_submultiset_witness :
    ((newTilesOf b1 p1).map fun q => q.2).count 'T' ≤ (['T'] : List Char).count 'T' :=
  C5_rack_submultiset wl1 ws1 b1 ['T'] emptyPU p1 (by decide) 'T'

/-- C6: every returned play reuses at least one existing board tile and
places at least one new tile. -/
theorem C6_touches_and_places (wl : List Word) (ws : Word → Bool) (b : Board)
    (rack : List Char) (pu : PremMap) (p : Play)
    (hp : p ∈ findAllValidPlays wl ws b rack pu) :
    (∃ q ∈ p.positions, (getL b q.1 q.2).isSome = true) ∧
    (∃ q ∈ p.positions, getL b q.1 q.2 = none) := by
  obtain ⟨w, hw, isH, sr, sc, htp⟩ := mem_findAllValidPlays hp
  obtain ⟨hpEq, -, -, -, ⟨rem, hsim⟩, -, -⟩ := tryPlace_eq_some htp
  obtain ⟨-, h2, h3, -⟩ := simLoop_some b isH w sr sc rack false false _ hsim
  rw [Bool.false_or] at h2 h3
  constructor
  · obtain ⟨q, hq, hq2⟩ := List.any_eq_true.mp h2.symm
    refine ⟨q.1, ?_, hq2⟩
    rw [hpEq]
    exact (List.of_mem_zip hq).1
  · obtain ⟨q, hq, hq2⟩ := List.any_eq_true.mp h3.symm
    refine ⟨q.1, ?_, ?_⟩
    · rw [hpEq]
      exact (List.of_mem_zip hq).1
    · exact Option.isNone_iff_eq_none.mp hq2

/-- Witness for C6 at the concrete AT play. -/
theorem C6_touches_and_places_witness :
    (∃ q ∈ p1.positions, (getL b1 q.1 q.2).isSome = true) ∧
    (∃ q ∈ p1.positions, getL b1 q.1 q.2 = none) :=
  C6_touches_and_places wl1 ws1 b1 ['T'] emptyPU p1 (by decide)

/-- Witness for C3 at the empty lexicon and a concrete scenario and
placement. -/
theorem C3_empty_lexicon_fails_closed_witness :
    ¬ scenarioPossible wl1 wsEmpty s0 ∧
    (validatePlacement wsEmpty emptyBoard [((7, 7), 'A'), ((7, 8), 'B')] emptyPU).isOk
      = false :=
  ⟨(C3_empty_lexicon_fails_closed wl1 wsEmpty fun _ => rfl).1 s0,
   (C3_empty_lexicon_fails_closed wl1 wsEmpty fun _ => rfl).2 _ _ _⟩

/-! ### Generic list facts used by the round-trip proof -/

theorem foldl_min_le_init : ∀ (l : List Nat) (d : Nat), l.foldl min d ≤ d := by
  intro l
  induction l with
  | nil => intro d; exact le_rfl
  | cons x xs ih =>
    intro d
    exact le_trans (ih (min d x)) (min_le_left d x)

theorem foldl_min_le_mem : ∀ (l : List Nat) (d x : Nat), x ∈ l → l.foldl min d ≤ x := by
  intro l
  induction l with
  | nil => intro d x h; exact absurd h (List.not_mem_nil x)
  | cons y ys ih =>
    intro d x h
    rcases List.mem_cons.mp h with rfl | h2
    · exact le_trans (foldl_min_le_init ys (min d x)) (min_le_right d x)
    · exact ih (min d y) x h2

theorem le_foldl_min : ∀ (l : List Nat) (d m : Nat), m ≤ d → (∀ x ∈ l, m ≤ x) →
    m ≤ l.foldl min d := by
  intro l
  induction l with
  | nil => intro d m h _; exact h
  | cons y ys ih =>
    intro d m h hall
    exact ih (min d y) m (le_min h (hall y (List.mem_cons_self y ys))) fun x hx =>
      hall x (List.mem_cons_of_mem y hx)

theorem foldl_max_init_le : ∀ (l : List Nat) (d : Nat), d ≤ l.foldl max d := by
  intro l
  induction l with
  | nil => intro d; exact le_rfl
  | cons x xs ih =>
    intro d
    exact le_trans (le_max_left d x) (ih (max d x))

theorem foldl_max_mem_le : ∀ (l : List Nat) (d x : Nat), x ∈ l → x ≤ l.foldl max d := by
  intro l
  induction l with
  | nil => intro d x h; exact absurd h (List.not_mem_nil x)
  | cons y ys ih =>
    intro d x h
    rcases List.mem_cons.mp h with rfl | h2
    · exact le_trans (le_max_right d x) (foldl_max_init_le ys (max d x))
    · exact ih (max d y) x h2

theorem foldl_max_le : ∀ (l : List Nat) (d m : Nat), d ≤ m → (∀ x ∈ l, x ≤ m) →
    l.foldl max d ≤ m := by
  intro l
  induction l with
  | nil => intro d m h _; exact h
  | cons y ys ih =>
    intro d m h hall
    exact ih (max d y) m (max_le h (hall y (List.mem_cons_self y ys))) fun x hx =>
      hall x (List.mem_cons_of_mem y hx)

theorem filterMap_eq_map_of_eq_some {α β : Type} (f : α → Option β) (g : α → β) :
    ∀ l : List α, (∀ x ∈ l, f x = some (g x)) → l.filterMap f = l.map g := by
  intro l
  induction l with
  | nil => intro _; rfl
  | cons x xs ih =>
    intro h
    rw [List.filterMap_cons, h x (List.mem_cons_self x xs)]
    dsimp only
    rw [List.map_cons, ih fun y hy => h y (List.mem_cons_of_mem x hy)]

theorem foldl_if_add_eq {α : Type} (P : α → Bool) (f : α → Nat) :
    ∀ (l : List α) (acc : Nat),
      l.foldl (fun a x => if P x = true then a + f x else a) acc =
        acc + ((l.filter P).map f).sum := by
  intro l
  induction l with
  | nil => intro acc; simp
  | cons x xs ih =>
    intro acc
    rw [List.foldl_cons, List.filter_cons]
    by_cases hx : P x = true
    · rw [if_pos hx, if_pos hx, ih, List.map_cons, List.sum_cons]
      omega
    · rw [if_neg hx, if_neg hx, ih]

theorem filter_range_singleton (q : Nat → Bool) :
    ∀ (n a x0 : Nat), a ≤ x0 → x0 < a + n →
      (∀ x, a ≤ x → x < a + n → (q x = true ↔ x = x0)) →
      (List.range' a n).filter q = [x0] := by
  intro n
  induction n with
  | zero => intro a x0 h1 h2 _; omega
  | succ k ih =>
    intro a x0 h1 h2 hiff
    rw [List.range'_succ, List.filter_cons]
    by_cases hax : a = x0
    · subst hax
      rw [if_pos ((hiff a le_rfl (by omega)).mpr rfl)]
      have hnil : (List.range' (a + 1) k).filter q = [] := by
        refine List.filter_eq_nil_iff.mpr fun x hx hq => ?_
        have hb := List.mem_range'_1.mp hx
        have := (hiff x (by omega) (by omega)).mp hq
        omega
      rw [hnil]
    · rw [if_neg fun hq => hax ((hiff a le_rfl (by omega)).mp hq)]
      exact ih (a + 1) x0 (by omega) (by omega) fun x hx1 hx2 =>
        hiff x (by omega) (by omega)

theorem map_getD_range (d : Char) :
    ∀ (w : Word) (a : Nat),
      (List.range' a w.length).map (fun y => w.getD (y - a) d) = w := by
  intro w
  induction w with
  | nil => intro a; rfl
  | cons ch rest ih =>
    intro a
    rw [List.length_cons, List.range'_succ, List.map_cons]
    have hcongr : ∀ y ∈ List.range' (a + 1) rest.length,
        (ch :: rest).getD (y - a) d = rest.getD (y - (a + 1)) d := by
      intro y hy
      have hb := List.mem_range'_1.mp hy
      have hsub : y - a = (y - (a + 1)) + 1 := by omega
      rw [hsub, List.getD_cons_succ]
    rw [List.map_congr_left hcongr, ih (a + 1), Nat.sub_self, List.getD_cons_zero]

theorem posLine_H_range (r c n : Nat) :
    posLine true r c n = (List.range' c n).map fun y => (r, y) := by
  rw [List.range'_eq_map_range, List.map_map]
  simp only [posLine, if_true]
  refine List.map_congr_left fun i _ => ?_
  simp [Function.comp_def]

theorem posLine_V_range (r c n : Nat) :
    posLine false r c n = (List.range' r n).map fun x => (x, c) := by
  rw [List.range'_eq_map_range, List.map_map]
  simp only [posLine, Bool.false_eq_true, if_false]
  refine List.map_congr_left fun i _ => ?_
  simp [Function.comp_def]

theorem dedup_const {α : Type} [DecidableEq α] (a : α) :
    ∀ l : List α, l ≠ [] → (∀ x ∈ l, x = a) → l.dedup = [a] := by
  intro l
  induction l with
  | nil => intro h _; exact absurd rfl h
  | cons x xs ih =>
    intro _ hall
    have hx : x = a := hall x (List.mem_cons_self x xs)
    subst hx
    cases xs with
    | nil => rw [List.dedup_cons_of_not_mem (List.not_mem_nil x), List.dedup_nil]
    | cons y ys =>
      have hmem : x ∈ y :: ys := by
        rw [← hall y (List.mem_cons_of_mem x (List.mem_cons_self y ys))]
        exact List.mem_cons_self y ys
      rw [List.dedup_cons_of_mem hmem]
      exact ih (by simp) fun z hz => hall z (List.mem_cons_of_mem x hz)

/-! ### Unconditional characterizations of the four walk loops -/

theorem vStart_spec (b : Board) (c : Nat) :
    ∀ r, vStart b c r ≤ r ∧
      (∀ x, vStart b c r ≤ x → x < r → (getL b x c).isSome = true) ∧
      (vStart b c r = 0 ∨ getL b (vStart b c r - 1) c = none) := by
  intro r
  induction r with
  | zero =>
    exact ⟨le_rfl, fun x h1 h2 => absurd h2 (by omega), Or.inl rfl⟩
  | succ k ih =>
    by_cases hk : (getL b k c).isSome = true
    · have hred : vStart b c (k + 1) = vStart b c k := by
        simp only [vStart, hk, if_true]
      rw [hred]
      obtain ⟨ih1, ih2, ih3⟩ := ih
      refine ⟨by omega, fun x h1 h2 => ?_, ih3⟩
      rcases Nat.lt_or_ge x k with h | h
      · exact ih2 x h1 h
      · have hxk : x = k := by omega
        rw [hxk]
        exact hk
    · have hk2 : getL b k c = none := Option.not_isSome_iff_eq_none.mp hk
      have hred : vStart b c (k + 1) = k + 1 := by
        simp [vStart, hk2]
      rw [hred]
      refine ⟨le_rfl, fun x h1 h2 => absurd h1 (by omega), Or.inr ?_⟩
      simpa using hk2

theorem hStart_spec (b : Board) (r : Nat) :
    ∀ c, hStart b r c ≤ c ∧
      (∀ y, hStart b r c ≤ y → y < c → (getL b r y).isSome = true) ∧
      (hStart b r c = 0 ∨ getL b r (hStart b r c - 1) = none) := by
  intro c
  induction c with
  | zero =>
    exact ⟨le_rfl, fun y h1 h2 => absurd h2 (by omega), Or.inl rfl⟩
  | succ k ih =>
    by_cases hk : (getL b r k).isSome = true
    · have hred : hStart b r (k + 1) = hStart b r k := by
        simp only [hStart, hk, if_true]
      rw [hred]
      obtain ⟨ih1, ih2, ih3⟩ := ih
      refine ⟨by omega, fun y h1 h2 => ?_, ih3⟩
      rcases Nat.lt_or_ge y k with h | h
      · exact ih2 y h1 h
      · have hyk : y = k := by omega
        rw [hyk]
        exact hk
    · have hk2 : getL b r k = none := Option.not_isSome_iff_eq_none.mp hk
      have hred : hStart b r (k + 1) = k + 1 := by
        simp [hStart, hk2]
      rw [hred]
      refine ⟨le_rfl, fun y h1 h2 => absurd h1 (by omega), Or.inr ?_⟩
      simpa using hk2

theorem extendR_spec (b : Board) (row : Nat) :
    ∀ fuel c, 14 ≤ c + fuel → c ≤ 14 →
      c ≤ extendR b row c fuel ∧ extendR b row c fuel ≤ 14 ∧
      (∀ y, c < y → y ≤ extendR b row c fuel → (getL b row y).isSome = true) ∧
      (extendR b row c fuel = 14 ∨ getL b row (extendR b row c fuel + 1) = none) := by
  intro fuel
  induction fuel with
  | zero =>
    intro c h1 h2
    have hc : c = 14 := by omega
    subst hc
    rw [show extendR b row 14 0 = 14 from rfl]
    exact ⟨le_rfl, le_rfl, fun y hy1 hy2 => absurd hy2 (by omega), Or.inl rfl⟩
  | succ k ih =>
    intro c h1 h2
    by_cases hg : c < 14 ∧ (getL b row (c + 1)).isSome = true
    · have hred : extendR b row c (k + 1) = extendR b row (c + 1) k := by
        simp only [extendR, if_pos hg]
      rw [hred]
      obtain ⟨ih1, ih2, ih3, ih4⟩ := ih (c + 1) (by omega) (by omega)
      refine ⟨by omega, ih2, fun y hy1 hy2 => ?_, ih4⟩
      rcases Nat.eq_or_lt_of_le (show c + 1 ≤ y from by omega) with heq | hlt
      · rw [← heq]
        exact hg.2
      · exact ih3 y hlt hy2
    · have hred : extendR b row c (k + 1) = c := by
        simp only [extendR, if_neg hg]
      rw [hred]
      refine ⟨le_rfl, h2, fun y hy1 hy2 => absurd hy1 (by omega), ?_⟩
      by_cases hc14 : c = 14
      · exact Or.inl hc14
      · right
        have hns : ¬ (getL b row (c + 1)).isSome = true := fun hs => hg ⟨by omega, hs⟩
        exact Option.not_isSome_iff_eq_none.mp hns

theorem extendD_spec (b : Board) (col : Nat) :
    ∀ fuel r, 14 ≤ r + fuel → r ≤ 14 →
      r ≤ extendD b col r fuel ∧ extendD b col r fuel ≤ 14 ∧
      (∀ x, r < x → x ≤ extendD b col r fuel → (getL b x col).isSome = true) ∧
      (extendD b col r fuel = 14 ∨ getL b (extendD b col r fuel + 1) col = none) := by
  intro fuel
  induction fuel with
  | zero =>
    intro r h1 h2
    have hr : r = 14 := by omega
    subst hr
    rw [show extendD b col 14 0 = 14 from rfl]
    exact ⟨le_rfl, le_rfl, fun x hx1 hx2 => absurd hx2 (by omega), Or.inl rfl⟩
  | succ k ih =>
    intro r h1 h2
    by_cases hg : r < 14 ∧ (getL b (r + 1) col).isSome = true
    · have hred : extendD b col r (k + 1) = extendD b col (r + 1) k := by
        simp only [extendD, if_pos hg]
      rw [hred]
      obtain ⟨ih1, ih2, ih3, ih4⟩ := ih (r + 1) (by omega) (by omega)
      refine ⟨by omega, ih2, fun x hx1 hx2 => ?_, ih4⟩
      rcases Nat.eq_or_lt_of_le (show r + 1 ≤ x from by omega) with heq | hlt
      · rw [← heq]
        exact hg.2
      · exact ih3 x hlt hx2
    · have hred : extendD b col r (k + 1) = r := by
        simp only [extendD, if_neg hg]
      rw [hred]
      refine ⟨le_rfl, h2, fun x hx1 hx2 => absurd hx1 (by omega), ?_⟩
      by_cases hr14 : r = 14
      · exact Or.inl hr14
      · right
        have hns : ¬ (getL b (r + 1) col).isSome = true := fun hs => hg ⟨by omega, hs⟩
        exact Option.not_isSome_iff_eq_none.mp hns

/-! ### The new-tiles map handed back to the validator -/

theorem mem_newTilesAt_H {b : Board} {w : Word} {sr sc : Nat} {q : (Nat × Nat) × Char} :
    q ∈ newTilesAt b w true sr sc ↔
      ∃ i, i < w.length ∧ getL b sr (sc + i) = none ∧
        q = ((sr, sc + i), w.getD i 'A') := by
  constructor
  · intro hq
    obtain ⟨hmem, hnone⟩ := List.mem_filter.mp hq
    obtain ⟨i, hi, hval⟩ := mem_posLine_zip hmem
    rw [if_pos rfl] at hval
    subst hval
    refine ⟨i, hi, Option.isNone_iff_eq_none.mp hnone, ?_⟩
    rw [List.getD_eq_getElem w 'A' hi]
  · rintro ⟨i, hi, hnone, hval⟩
    subst hval
    refine List.mem_filter.mpr ⟨?_, ?_⟩
    · have hm := posLine_zip_mem true sr sc w i hi
      rw [if_pos rfl] at hm
      rw [List.getD_eq_getElem w 'A' hi]
      exact hm
    · simp [hnone]

theorem mem_newTilesAt_V {b : Board} {w : Word} {sr sc : Nat} {q : (Nat × Nat) × Char} :
    q ∈ newTilesAt b w false sr sc ↔
      ∃ i, i < w.length ∧ getL b (sr + i) sc = none ∧
        q = ((sr + i, sc), w.getD i 'A') := by
  constructor
  · intro hq
    obtain ⟨hmem, hnone⟩ := List.mem_filter.mp hq
    obtain ⟨i, hi, hval⟩ := mem_posLine_zip hmem
    rw [if_neg Bool.false_ne_true] at hval
    subst hval
    refine ⟨i, hi, Option.isNone_iff_eq_none.mp hnone, ?_⟩
    rw [List.getD_eq_getElem w 'A' hi]
  · rintro ⟨i, hi, hnone, hval⟩
    subst hval
    refine List.mem_filter.mpr ⟨?_, ?_⟩
    · have hm := posLine_zip_mem false sr sc w i hi
      rw [if_neg Bool.false_ne_true] at hm
      rw [List.getD_eq_getElem w 'A' hi]
      exact hm
    · simp [hnone]

theorem lookupP_newTilesAt_H_none {b : Board} {w : Word} {sr sc r c : Nat}
    (h : r ≠ sr ∨ c < sc ∨ sc + w.length ≤ c ∨ (getL b sr c).isSome = true) :
    lookupP (newTilesAt b w true sr sc) r c = none := by
  have hfind : (newTilesAt b w true sr sc).find? (fun q => decide (q.1 = (r, c))) = none := by
    refine List.find?_eq_none.mpr fun q hq hpred => ?_
    obtain ⟨i, hi, hnone, hval⟩ := mem_newTilesAt_H.mp hq
    have hp2 : (sr, sc + i) = (r, c) := by
      rw [hval] at hpred
      simpa using hpred
    rw [Prod.mk.injEq] at hp2
    obtain ⟨h1, h2⟩ := hp2
    rcases h with hh | hh | hh | hh
    · exact hh h1.symm
    · omega
    · omega
    · rw [h2] at hnone
      rw [hnone] at hh
      exact absurd hh (by simp)
  unfold lookupP
  rw [hfind]
  rfl

theorem lookupP_newTilesAt_H_some {b : Board} {w : Word} {sr sc i : Nat}
    (hi : i < w.length) (hnone : getL b sr (sc + i) = none) :
    lookupP (newTilesAt b w true sr sc) sr (sc + i) = some (w.getD i 'A') := by
  have hmem : ((sr, sc + i), w.getD i 'A') ∈ newTilesAt b w true sr sc :=
    mem_newTilesAt_H.mpr ⟨i, hi, hnone, rfl⟩
  have hsome :
      ((newTilesAt b w true sr sc).find? fun q => decide (q.1 = (sr, sc + i))).isSome
        = true :=
    List.find?_isSome.mpr ⟨_, hmem, by simp⟩
  obtain ⟨q, hq⟩ := Option.isSome_iff_exists.mp hsome
  have hqpred : q.1 = (sr, sc + i) := by
    have := List.find?_some hq
    simpa using this
  obtain ⟨j, hj, hjnone, hjval⟩ := mem_newTilesAt_H.mp (List.mem_of_find?_eq_some hq)
  have hji : j = i := by
    have hp2 : (sr, sc + j) = (sr, sc + i) := by
      rw [hjval] at hqpred
      exact hqpred
    rw [Prod.mk.injEq] at hp2
    omega
  unfold lookupP
  rw [hq, hjval, hji]
  rfl

theorem lookupP_newTilesAt_V_none {b : Board} {w : Word} {sr sc r c : Nat}
    (h : c ≠ sc ∨ r < sr ∨ sr + w.length ≤ r ∨ (getL b r sc).isSome = true) :
    lookupP (newTilesAt b w false sr sc) r c = none := by
  have hfind : (newTilesAt b w false sr sc).find? (fun q => decide (q.1 = (r, c))) = none := by
    refine List.find?_eq_none.mpr fun q hq hpred => ?_
    obtain ⟨i, hi, hnone, hval⟩ := mem_newTilesAt_V.mp hq
    have hp2 : (sr + i, sc) = (r, c) := by
      rw [hval] at hpred
      simpa using hpred
    rw [Prod.mk.injEq] at hp2
    obtain ⟨h1, h2⟩ := hp2
    rcases h with hh | hh | hh | hh
    · exact hh h2.symm
    · omega
    · omega
    · rw [h1] at hnone
      rw [hnone] at hh
      exact absurd hh (by simp)
  unfold lookupP
  rw [hfind]
  rfl

theorem lookupP_newTilesAt_V_some {b : Board} {w : Word} {sr sc i : Nat}
    (hi : i < w.length) (hnone : getL b (sr + i) sc = none) :
    lookupP (newTilesAt b w false sr sc) (sr + i) sc = some (w.getD i 'A') := by
  have hmem : ((sr + i, sc), w.getD i 'A') ∈ newTilesAt b w false sr sc :=
    mem_newTilesAt_V.mpr ⟨i, hi, hnone, rfl⟩
  have hsome :
      ((newTilesAt b w false sr sc).find? fun q => decide (q.1 = (sr + i, sc))).isSome
        = true :=
    List.find?_isSome.mpr ⟨_, hmem, by simp⟩
  obtain ⟨q, hq⟩ := Option.isSome_iff_exists.mp hsome
  have hqpred : q.1 = (sr + i, sc) := by
    have := List.find?_some hq
    simpa using this
  obtain ⟨j, hj, hjnone, hjval⟩ := mem_newTilesAt_V.mp (List.mem_of_find?_eq_some hq)
  have hji : j = i := by
    have hp2 : (sr + j, sc) = (sr + i, sc) := by
      rw [hjval] at hqpred
      exact hqpred
    rw [Prod.mk.injEq] at hp2
    omega
  unfold lookupP
  rw [hq, hjval, hji]
  rfl

theorem mergedH_read {b : Board} {w : Word} {sr sc : Nat}
    (hcell : ∀ i, i < w.length →
      getL b sr (sc + i) = some (w.getD i 'A') ∨ getL b sr (sc + i) = none)
    (i : Nat) (hi : i < w.length) :
    (lookupP (newTilesAt b w true sr sc) sr (sc + i)).or (getL b sr (sc + i)) =
      some (w.getD i 'A') := by
  rcases hcell i hi with hs | hn
  · rw [lookupP_newTilesAt_H_none (Or.inr (Or.inr (Or.inr (by rw [hs]; rfl))))]
    rw [Option.none_or, hs]
  · rw [lookupP_newTilesAt_H_some hi hn]
    rfl

theorem mergedV_read {b : Board} {w : Word} {sr sc : Nat}
    (hcell : ∀ i, i < w.length →
      getL b (sr + i) sc = some (w.getD i 'A') ∨ getL b (sr + i) sc = none)
    (i : Nat) (hi : i < w.length) :
    (lookupP (newTilesAt b w false sr sc) (sr + i) sc).or (getL b (sr + i) sc) =
      some (w.getD i 'A') := by
  rcases hcell i hi with hs | hn
  · rw [lookupP_newTilesAt_V_none (Or.inr (Or.inr (Or.inr (by rw [hs]; rfl))))]
    rw [Option.none_or, hs]
  · rw [lookupP_newTilesAt_V_some hi hn]
    rfl

/-! ### What a passing cross-word check guarantees -/

theorem crossOkH_notbad {ws : Word → Bool} {b : Board} {r c : Nat} {ch : Char}
    (hr : r < 15) (h : crossOkH ws b r c ch = true) :
    ¬ (1 < (vCrossWord b r c ch).length ∧ ws (vCrossWord b r c ch) = false) := by
  unfold crossOkH at h
  by_cases hg : (getL b (r - 1) c).isSome = true ∨ (getL b (r + 1) c).isSome = true
  · rw [if_pos hg] at h
    by_cases hbad : 1 < (vCrossWord b r c ch).length ∧ ws (vCrossWord b r c ch) = false
    · rw [if_pos hbad] at h
      exact absurd h (by simp)
    · exact hbad
  · push_neg at hg
    obtain ⟨hup, hdn⟩ := hg
    have hlen := (vCross_spec b c r ch r (r + 1) le_rfl (by omega) (by omega)
      (fun x hx1 hx2 hx3 => absurd (show x = r by omega) hx3) ?hs ?he).2.2.1
    case hs =>
      by_cases hr0 : r = 0
      · exact Or.inl hr0
      · exact Or.inr (Option.not_isSome_iff_eq_none.mp hup)
    case he =>
      exact Or.inr (Option.not_isSome_iff_eq_none.mp hdn)
    rintro ⟨h1, -⟩
    omega

theorem crossOkV_notbad {ws : Word → Bool} {b : Board} {r c : Nat} {ch : Char}
    (hc : c < 15) (h : crossOkV ws b r c ch = true) :
    ¬ (1 < (hCrossWord b r c ch).length ∧ ws (hCrossWord b r c ch) = false) := by
  unfold crossOkV at h
  by_cases hg : (getL b r (c - 1)).isSome = true ∨ (getL b r (c + 1)).isSome = true
  · rw [if_pos hg] at h
    by_cases hbad : 1 < (hCrossWord b r c ch).length ∧ ws (hCrossWord b r c ch) = false
    · rw [if_pos hbad] at h
      exact absurd h (by simp)
    · exact hbad
  · push_neg at hg
    obtain ⟨hlf, hrt⟩ := hg
    have hlen := (hCross_spec b r c ch c (c + 1) le_rfl (by omega) (by omega)
      (fun y hy1 hy2 hy3 => absurd (show y = c by omega) hy3) ?hs ?he).2.2.1
    case hs =>
      by_cases hc0 : c = 0
      · exact Or.inl hc0
      · exact Or.inr (Option.not_isSome_iff_eq_none.mp hlf)
    case he =>
      exact Or.inr (Option.not_isSome_iff_eq_none.mp hrt)
    rintro ⟨h1, -⟩
    omega

/-! ### The validator's cross-word scan -/

theorem firstBadCross_eq_none {ws : Word → Bool} {b : Board} {isH : Bool} :
    ∀ wp : Placed,
      (∀ q ∈ wp, getL b q.1.1 q.1.2 = none →
        ¬ (1 < (crossWordAt b isH q.1.1 q.1.2 q.2).length ∧
           ws (crossWordAt b isH q.1.1 q.1.2 q.2) = false)) →
      firstBadCross ws b isH wp = none := by
  intro wp
  induction wp with
  | nil => intro _; rfl
  | cons q rest ih =>
    intro h
    simp only [firstBadCross]
    by_cases hs : (getL b q.1.1 q.1.2).isSome = true
    · rw [if_pos hs]
      exact ih fun x hx => h x (List.mem_cons_of_mem q hx)
    · rw [if_neg hs]
      rw [if_neg (h q (List.mem_cons_self q rest) (Option.not_isSome_iff_eq_none.mp hs))]
      exact ih fun x hx => h x (List.mem_cons_of_mem q hx)

/-! ### The successful path through `finishValidation` -/

theorem finishValidation_ok (ws : Word → Bool) (b : Board) (placed : Placed)
    (pu : PremMap) (isH : Bool) (wp : Placed)
    (h2 : 2 ≤ wp.length)
    (hw : ws (wp.map fun q => q.2) = true)
    (ht : (wp.any fun q => (getL b q.1.1 q.1.2).isSome) = true)
    (hbc : firstBadCross ws b isH wp = none) :
    finishValidation ws b placed pu isH wp =
      .ok (wp.map fun q => q.2) (wp.map fun q => q.1) isH
        (scorePlay (wp.map fun q => q.2) (wp.map fun q => q.1) b pu isH) := by
  simp only [finishValidation]
  rw [if_neg (show ¬ wp.length < 2 from by omega)]
  rw [if_neg (show ¬ ws (wp.map fun q => q.2) = false from by simp [hw])]
  rw [if_neg (show ¬ ((wp.any fun q => (getL b q.1.1 q.1.2).isSome) = false ∧
    formsCross ws b isH wp = false) from by simp [ht])]
  rw [hbc]

/-! ### Extracting a play back out of the board in its own orientation -/

theorem extractH_of_H_line {b : Board} {w : Word} {sr sc i0 : Nat}
    (hsc : sc + w.length ≤ 15) (hi0 : i0 < w.length)
    (hcell : ∀ i, i < w.length →
      getL b sr (sc + i) = some (w.getD i 'A') ∨ getL b sr (sc + i) = none)
    (hleft : sc = 0 ∨ getL b sr (sc - 1) = none)
    (hright : 15 ≤ sc + w.length ∨ getL b sr (sc + w.length) = none) :
    extractH b (newTilesAt b w true sr sc)
        ((newTilesAt b w true sr sc).map fun q => q.1) sr (sc + i0) =
      some ((List.range' sc w.length).map fun y => ((sr, y), w.getD (y - sc) 'A')) := by
  have hcol : ∀ y ∈ (((newTilesAt b w true sr sc).map fun q => q.1).map fun p => p.2),
      sc ≤ y ∧ y < sc + w.length ∧ getL b sr y = none := by
    intro y hy
    rw [List.map_map] at hy
    obtain ⟨q, hq, hqy⟩ := List.mem_map.mp hy
    obtain ⟨i, hi, hnone, hval⟩ := mem_newTilesAt_H.mp hq
    subst hval
    have hy2 : sc + i = y := hqy
    refine ⟨by omega, by omega, ?_⟩
    rw [← hy2]
    exact hnone
  have hnew : ∀ j, sc ≤ j → j < sc + w.length → getL b sr j = none →
      j ∈ (((newTilesAt b w true sr sc).map fun q => q.1).map fun p => p.2) := by
    intro j hj1 hj2 hjn
    have hmem : ((sr, j), w.getD (j - sc) 'A') ∈ newTilesAt b w true sr sc := by
      refine mem_newTilesAt_H.mpr ⟨j - sc, by omega, ?_, ?_⟩
      · rw [show sc + (j - sc) = j from by omega]
        exact hjn
      · rw [show sc + (j - sc) = j from by omega]
    rw [List.map_map]
    exact List.mem_map.mpr ⟨_, hmem, rfl⟩
  have hminb : sc ≤ (((newTilesAt b w true sr sc).map fun q => q.1).map
      fun p => p.2).foldl min (sc + i0) :=
    le_foldl_min _ _ _ (by omega) fun y hy => (hcol y hy).1
  have hminu : (((newTilesAt b w true sr sc).map fun q => q.1).map
      fun p => p.2).foldl min (sc + i0) ≤ sc + i0 :=
    foldl_min_le_init _ _
  have hmaxl : sc + i0 ≤ (((newTilesAt b w true sr sc).map fun q => q.1).map
      fun p => p.2).foldl max (sc + i0) :=
    foldl_max_init_le _ _
  have hmaxu : (((newTilesAt b w true sr sc).map fun q => q.1).map
      fun p => p.2).foldl max (sc + i0) ≤ sc + w.length - 1 :=
    foldl_max_le _ _ _ (by omega) fun y hy => by
      have := hcol y hy
      omega
  have hstart_eq : hStart b sr ((((newTilesAt b w true sr sc).map fun q => q.1).map
      fun p => p.2).foldl min (sc + i0)) = sc := by
    refine hStart_eq b sr sc _ hminb (fun y hy1 hy2 => ?_) hleft
    rcases hcell (y - sc) (by omega) with hs | hn
    · rw [show sc + (y - sc) = y from by omega] at hs
      rw [hs]
      rfl
    · rw [show sc + (y - sc) = y from by omega] at hn
      exact absurd (foldl_min_le_mem _ (sc + i0) y (hnew y hy1 (by omega) hn)) (by omega)
  have hext_eq : extendR b sr ((((newTilesAt b w true sr sc).map fun q => q.1).map
      fun p => p.2).foldl max (sc + i0)) 15 = sc + w.length - 1 := by
    refine extendR_eq b sr 15 _ (sc + w.length - 1) (by omega) (by omega) (by omega)
      (fun y hy1 hy2 => ?_) ?_
    · rcases hcell (y - sc) (by omega) with hs | hn
      · rw [show sc + (y - sc) = y from by omega] at hs
        rw [hs]
        rfl
      · rw [show sc + (y - sc) = y from by omega] at hn
        exact absurd (foldl_max_mem_le _ (sc + i0) y (hnew y (by omega) (by omega) hn)) (by omega)
    · rcases hright with h15 | hnone
      · exact Or.inl (by omega)
      · right
        rw [show sc + w.length - 1 + 1 = sc + w.length from by omega]
        exact hnone
  simp only [extractH]
  rw [hstart_eq, hext_eq]
  rw [show sc + w.length - 1 + 1 - sc = w.length from by omega]
  refine collectH_eq b _ sr w.length sc _ fun y hy1 hy2 => ?_
  have := mergedH_read hcell (y - sc) (by omega)
  rw [show sc + (y - sc) = y from by omega] at this
  exact this

theorem extractV_of_V_line {b : Board} {w : Word} {sr sc i0 : Nat}
    (hsr : sr + w.length ≤ 15) (hi0 : i0 < w.length)
    (hcell : ∀ i, i < w.length →
      getL b (sr + i) sc = some (w.getD i 'A') ∨ getL b (sr + i) sc = none)
    (hup : sr = 0 ∨ getL b (sr - 1) sc = none)
    (hdown : 15 ≤ sr + w.length ∨ getL b (sr + w.length) sc = none) :
    extractV b (newTilesAt b w false sr sc)
        ((newTilesAt b w false sr sc).map fun q => q.1) (sr + i0) sc =
      some ((List.range' sr w.length).map fun x => ((x, sc), w.getD (x - sr) 'A')) := by
  have hrow : ∀ x ∈ (((newTilesAt b w false sr sc).map fun q => q.1).map fun p => p.1),
      sr ≤ x ∧ x < sr + w.length ∧ getL b x sc = none := by
    intro x hx
    rw [List.map_map] at hx
    obtain ⟨q, hq, hqx⟩ := List.mem_map.mp hx
    obtain ⟨i, hi, hnone, hval⟩ := mem_newTilesAt_V.mp hq
    subst hval
    have hx2 : sr + i = x := hqx
    refine ⟨by omega, by omega, ?_⟩
    rw [← hx2]
    exact hnone
  have hnew : ∀ j, sr ≤ j → j < sr + w.length → getL b j sc = none →
      j ∈ (((newTilesAt b w false sr sc).map fun q => q.1).map fun p => p.1) := by
    intro j hj1 hj2 hjn
    have hmem : ((j, sc), w.getD (j - sr) 'A') ∈ newTilesAt b w false sr sc := by
      refine mem_newTilesAt_V.mpr ⟨j - sr, by omega, ?_, ?_⟩
      · rw [show sr + (j - sr) = j from by omega]
        exact hjn
      · rw [show sr + (j - sr) = j from by omega]
    rw [List.map_map]
    exact List.mem_map.mpr ⟨_, hmem, rfl⟩
  have hminb : sr ≤ (((newTilesAt b w false sr sc).map fun q => q.1).map
      fun p => p.1).foldl min (sr + i0) :=
    le_foldl_min _ _ _ (by omega) fun x hx => (hrow x hx).1
  have hminu : (((newTilesAt b w false sr sc).map fun q => q.1).map
      fun p => p.1).foldl min (sr + i0) ≤ sr + i0 :=
    foldl_min_le_init _ _
  have hmaxl : sr + i0 ≤ (((newTilesAt b w false sr sc).map fun q => q.1).map
      fun p => p.1).foldl max (sr + i0) :=
    foldl_max_init_le _ _
  have hmaxu : (((newTilesAt b w false sr sc).map fun q => q.1).map
      fun p => p.1).foldl max (sr + i0) ≤ sr + w.length - 1 :=
    foldl_max_le _ _ _ (by omega) fun x hx => by
      have := hrow x hx
      omega
  have hstart_eq : vStart b sc ((((newTilesAt b w false sr sc).map fun q => q.1).map
      fun p => p.1).foldl min (sr + i0)) = sr := by
    refine vStart_eq b sc sr _ hminb (fun x hx1 hx2 => ?_) hup
    rcases hcell (x - sr) (by omega) with hs | hn
    · rw [show sr + (x - sr) = x from by omega] at hs
      rw [hs]
      rfl
    · rw [show sr + (x - sr) = x from by omega] at hn
      exact absurd (foldl_min_le_mem _ (sr + i0) x (hnew x hx1 (by omega) hn)) (by omega)
  have hext_eq : extendD b sc ((((newTilesAt b w false sr sc).map fun q => q.1).map
      fun p => p.1).foldl max (sr + i0)) 15 = sr + w.length - 1 := by
    refine extendD_eq b sc 15 _ (sr + w.length - 1) (by omega) (by omega) (by omega)
      (fun x hx1 hx2 => ?_) ?_
    · rcases hcell (x - sr) (by omega) with hs | hn
      · rw [show sr + (x - sr) = x from by omega] at hs
        rw [hs]
        rfl
      · rw [show sr + (x - sr) = x from by omega] at hn
        exact absurd (foldl_max_mem_le _ (sr + i0) x (hnew x (by omega) (by omega) hn)) (by omega)
    · rcases hdown with h15 | hnone
      · exact Or.inl (by omega)
      · right
        rw [show sr + w.length - 1 + 1 = sr + w.length from by omega]
        exact hnone
  simp only [extractV]
  rw [hstart_eq, hext_eq]
  rw [show sr + w.length - 1 + 1 - sr = w.length from by omega]
  refine collectV_eq b _ sc w.length sr _ fun x hx1 hx2 => ?_
  have := mergedV_read hcell (x - sr) (by omega)
  rw [show sr + (x - sr) = x from by omega] at this
  exact this

/-! ### Extracting the perpendicular run through a single new tile -/

theorem extractV_of_H_single {b : Board} {w : Word} {sr sc i1 : Nat}
    {coords : List (Nat × Nat)}
    (hsr : sr < 15) (hi1 : i1 < w.length)
    (hnone1 : getL b sr (sc + i1) = none)
    (hrows : ∀ p ∈ coords, p.1 = sr) :
    extractV b (newTilesAt b w true sr sc) coords sr (sc + i1) =
      some ((List.range' (vStart b (sc + i1) sr)
          (extendD b (sc + i1) sr 15 + 1 - vStart b (sc + i1) sr)).map
        fun x => ((x, sc + i1),
          if x = sr then w.getD i1 'A' else (getL b x (sc + i1)).getD 'A')) := by
  obtain ⟨ha1, hfillup, hup⟩ := vStart_spec b (sc + i1) sr
  obtain ⟨hd1, hd14, hfilldn, hdn⟩ := extendD_spec b (sc + i1) 15 sr (by omega) (by omega)
  have hallr : ∀ y ∈ coords.map fun p => p.1, sr ≤ y := by
    intro y hy
    obtain ⟨p, hp, hpy⟩ := List.mem_map.mp hy
    rw [← hpy, hrows p hp]
  have hallr2 : ∀ y ∈ coords.map fun p => p.1, y ≤ sr := by
    intro y hy
    obtain ⟨p, hp, hpy⟩ := List.mem_map.mp hy
    rw [← hpy, hrows p hp]
  have hmin : (coords.map fun p => p.1).foldl min sr = sr :=
    le_antisymm (foldl_min_le_init _ _) (le_foldl_min _ _ _ le_rfl hallr)
  have hmax : (coords.map fun p => p.1).foldl max sr = sr :=
    le_antisymm (foldl_max_le _ _ _ le_rfl hallr2) (foldl_max_init_le _ _)
  simp only [extractV]
  rw [hmin, hmax]
  refine collectV_eq b _ (sc + i1)
    (extendD b (sc + i1) sr 15 + 1 - vStart b (sc + i1) sr) (vStart b (sc + i1) sr) _
    fun x hx1 hx2 => ?_
  have hx2b : x ≤ extendD b (sc + i1) sr 15 := by omega
  by_cases hxs : x = sr
  · subst hxs
    rw [lookupP_newTilesAt_H_some hi1 hnone1]
    rw [if_pos rfl]
    rfl
  · rw [lookupP_newTilesAt_H_none (Or.inl hxs), Option.none_or]
    have hsome : (getL b x (sc + i1)).isSome = true := by
      rcases Nat.lt_or_ge x sr with hlt | hge
      · exact hfillup x hx1 hlt
      · exact hfilldn x (by omega) hx2b
    obtain ⟨L, hL⟩ := Option.isSome_iff_exists.mp hsome
    rw [hL, if_neg hxs]
    rfl

theorem extractH_of_V_single {b : Board} {w : Word} {sr sc i1 : Nat}
    {coords : List (Nat × Nat)}
    (hsc : sc < 15) (hi1 : i1 < w.length)
    (hnone1 : getL b (sr + i1) sc = none)
    (hcols : ∀ p ∈ coords, p.2 = sc) :
    extractH b (newTilesAt b w false sr sc) coords (sr + i1) sc =
      some ((List.range' (hStart b (sr + i1) sc)
          (extendR b (sr + i1) sc 15 + 1 - hStart b (sr + i1) sc)).map
        fun y => (((sr + i1), y),
          if y = sc then w.getD i1 'A' else (getL b (sr + i1) y).getD 'A')) := by
  obtain ⟨ha1, hfilllf, hlf⟩ := hStart_spec b (sr + i1) sc
  obtain ⟨hd1, hd14, hfillrt, hrt⟩ := extendR_spec b (sr + i1) 15 sc (by omega) (by omega)
  have hallc : ∀ y ∈ coords.map fun p => p.2, sc ≤ y := by
    intro y hy
    obtain ⟨p, hp, hpy⟩ := List.mem_map.mp hy
    rw [← hpy, hcols p hp]
  have hallc2 : ∀ y ∈ coords.map fun p => p.2, y ≤ sc := by
    intro y hy
    obtain ⟨p, hp, hpy⟩ := List.mem_map.mp hy
    rw [← hpy, hcols p hp]
  have hmin : (coords.map fun p => p.2).foldl min sc = sc :=
    le_antisymm (foldl_min_le_init _ _) (le_foldl_min _ _ _ le_rfl hallc)
  have hmax : (coords.map fun p => p.2).foldl max sc = sc :=
    le_antisymm (foldl_max_le _ _ _ le_rfl hallc2) (foldl_max_init_le _ _)
  simp only [extractH]
  rw [hmin, hmax]
  refine collectH_eq b _ (sr + i1)
    (extendR b (sr + i1) sc 15 + 1 - hStart b (sr + i1) sc) (hStart b (sr + i1) sc) _
    fun y hy1 hy2 => ?_
  have hy2b : y ≤ extendR b (sr + i1) sc 15 := by omega
  by_cases hys : y = sc
  · subst hys
    rw [lookupP_newTilesAt_V_some hi1 hnone1]
    rw [if_pos rfl]
    rfl
  · rw [lookupP_newTilesAt_V_none (Or.inl hys), Option.none_or]
    have hsome : (getL b (sr + i1) y).isSome = true := by
      rcases Nat.lt_or_ge y sc with hlt | hge
      · exact hfilllf y hy1 hlt
      · exact hfillrt y (by omega) hy2b
    obtain ⟨L, hL⟩ := Option.isSome_iff_exists.mp hsome
    rw [hL, if_neg hys]
    rfl

/-! ### Scoring a play with a single newly placed cell -/

theorem scorePlay_one_new (b : Board) (pu : PremMap) (isH : Bool) (w : Word)
    (ps : List (Nat × Nat)) (rc : Nat × Nat) (ch : Char)
    (hzip : (ps.zip w).filter (fun q => (getL b q.1.1 q.1.2).isNone) = [(rc, ch)])
    (hpos : ps.filter (fun p => (getL b p.1 p.2).isNone) = [rc]) :
    scorePlay w ps b pu isH =
      scoreOneWord w ps b pu +
        (if isH then crossScoreH b pu rc.1 rc.2 ch else crossScoreV b pu rc.1 rc.2 ch) := by
  simp only [scorePlay, scorePlayBase]
  rw [foldl_if_add_eq (fun q => (getL b q.1.1 q.1.2).isNone)
    (fun q => if isH then crossScoreH b pu q.1.1 q.1.2 q.2
              else crossScoreV b pu q.1.1 q.1.2 q.2) (ps.zip w) 0]
  rw [hzip, hpos]
  simp

/-! ### The orientation swap of the ambiguous single-tile branch preserves
the score (horizontal play validated as its vertical cross run) -/

theorem score_swap_H {b : Board} {pu : PremMap} {w : Word} {sr sc i1 : Nat}
    (h2 : 2 ≤ w.length) (hsc15 : sc + w.length ≤ 15) (hsr : sr < 15)
    (hi1 : i1 < w.length) (hnone1 : getL b sr (sc + i1) = none)
    (hfillothers : ∀ i, i < w.length → i ≠ i1 →
      getL b sr (sc + i) = some (w.getD i 'A'))
    (hleft : sc = 0 ∨ getL b sr (sc - 1) = none)
    (hright : 15 ≤ sc + w.length ∨ getL b sr (sc + w.length) = none)
    (hlong : 1 < (vCrossWord b sr (sc + i1) (w.getD i1 'A')).length) :
    scorePlay (vCrossWord b sr (sc + i1) (w.getD i1 'A'))
        (vCrossPos b sr (sc + i1) (w.getD i1 'A')) b pu false =
      scorePlay w (posLine true sr sc w.length) b pu true := by
  obtain ⟨ha1, hfillup, hup⟩ := vStart_spec b (sc + i1) sr
  obtain ⟨hd1, hd14, hfilldn, hdn⟩ := extendD_spec b (sc + i1) 15 sr (by omega) (by omega)
  obtain ⟨hvs, hvcwFM, hvlen, hvpos⟩ := vCross_spec b (sc + i1) sr (w.getD i1 'A')
    (vStart b (sc + i1) sr) (extendD b (sc + i1) sr 15 + 1) ha1 (by omega) (by omega)
    (fun x hx1 hx2 hx3 => by
      rcases Nat.lt_or_ge x sr with hlt | hge
      · exact hfillup x hx1 hlt
      · exact hfilldn x (by omega) (by omega))
    hup
    (by
      rcases hdn with h14 | hn
      · exact Or.inl (by omega)
      · exact Or.inr hn)
  obtain ⟨hhs, hhcwFM, hhlen, hhps⟩ := hCross_spec b sr (sc + i1) (w.getD i1 'A')
    sc (sc + w.length) (by omega) (by omega) (by omega)
    (fun y hy1 hy2 hy3 => by
      have hs := hfillothers (y - sc) (by omega) (by omega)
      rw [show sc + (y - sc) = y from by omega] at hs
      rw [hs]
      rfl)
    hleft
    (by
      rcases hright with h15 | hn
      · exact Or.inl (by omega)
      · exact Or.inr hn)
  have hhcw : hCrossWord b sr (sc + i1) (w.getD i1 'A') = w := by
    rw [hhcwFM]
    have hfm : ∀ y ∈ List.range' sc (sc + w.length - sc),
        (if y = sc + i1 then some (w.getD i1 'A') else getL b sr y) =
          some (w.getD (y - sc) 'A') := by
      intro y hy
      have hb := List.mem_range'_1.mp hy
      by_cases hys : y = sc + i1
      · rw [if_pos hys, hys, show sc + i1 - sc = i1 from by omega]
      · rw [if_neg hys]
        have hs := hfillothers (y - sc) (by omega) (by omega)
        rw [show sc + (y - sc) = y from by omega] at hs
        exact hs
    rw [filterMap_eq_map_of_eq_some _ _ _ hfm]
    rw [show sc + w.length - sc = w.length from by omega]
    exact map_getD_range 'A' w sc
  have hhposP : hCrossPos b sr (sc + i1) (w.getD i1 'A') = posLine true sr sc w.length := by
    rw [hhps, show sc + w.length - sc = w.length from by omega]
    exact (posLine_H_range sr sc w.length).symm
  have hvcwMap : vCrossWord b sr (sc + i1) (w.getD i1 'A') =
      (List.range' (vStart b (sc + i1) sr)
        (extendD b (sc + i1) sr 15 + 1 - vStart b (sc + i1) sr)).map
      fun x => if x = sr then w.getD i1 'A' else (getL b x (sc + i1)).getD 'A' := by
    rw [hvcwFM]
    refine filterMap_eq_map_of_eq_some _ _ _ fun x hx => ?_
    have hb := List.mem_range'_1.mp hx
    by_cases hxs : x = sr
    · rw [if_pos hxs, if_pos hxs]
    · rw [if_neg hxs, if_neg hxs]
      have hsome : (getL b x (sc + i1)).isSome = true := by
        rcases Nat.lt_or_ge x sr with hlt | hge
        · exact hfillup x hb.1 hlt
        · exact hfilldn x (by omega) (by omega)
      obtain ⟨L, hL⟩ := Option.isSome_iff_exists.mp hsome
      rw [hL]
      rfl
  have hiffV : ∀ x, vStart b (sc + i1) sr ≤ x →
      x < vStart b (sc + i1) sr + (extendD b (sc + i1) sr 15 + 1 - vStart b (sc + i1) sr) →
      ((getL b x (sc + i1)).isNone = true ↔ x = sr) := by
    intro x hx1 hx2
    constructor
    · intro hxe
      by_contra hxs
      have hsome : (getL b x (sc + i1)).isSome = true := by
        rcases Nat.lt_or_ge x sr with hlt | hge
        · exact hfillup x hx1 hlt
        · exact hfilldn x (by omega) (by omega)
      rw [Option.isNone_iff_eq_none.mp hxe] at hsome
      exact absurd hsome (by simp)
    · intro hxs
      rw [hxs, hnone1]
      rfl
  have hiffH : ∀ y, sc ≤ y → y < sc + w.length →
      ((getL b sr y).isNone = true ↔ y = sc + i1) := by
    intro y hy1 hy2
    constructor
    · intro hye
      by_contra hys
      have hs := hfillothers (y - sc) (by omega) (by omega)
      rw [show sc + (y - sc) = y from by omega] at hs
      rw [hs] at hye
      exact absurd hye (by simp)
    · intro hys
      rw [hys, hnone1]
      rfl
  have hzipV : ((vCrossPos b sr (sc + i1) (w.getD i1 'A')).zip
        (vCrossWord b sr (sc + i1) (w.getD i1 'A'))).filter
      (fun q => (getL b q.1.1 q.1.2).isNone) = [((sr, sc + i1), w.getD i1 'A')] := by
    rw [hvpos, hvcwMap, List.zip_map', List.filter_map]
    simp only [Function.comp_def]
    rw [filter_range_singleton _ _ _ sr (by omega) (by omega)
      (fun x hx1 hx2 => hiffV x hx1 hx2)]
    simp
  have hposV : (vCrossPos b sr (sc + i1) (w.getD i1 'A')).filter
      (fun p => (getL b p.1 p.2).isNone) = [(sr, sc + i1)] := by
    rw [hvpos, List.filter_map]
    simp only [Function.comp_def]
    rw [filter_range_singleton _ _ _ sr (by omega) (by omega)
      (fun x hx1 hx2 => hiffV x hx1 hx2)]
    simp only [List.map_cons, List.map_nil]
  have hz : (posLine true sr sc w.length).zip w =
      (List.range' sc w.length).map fun y => ((sr, y), w.getD (y - sc) 'A') := by
    have h1 : (posLine true sr sc w.length).zip w =
        ((List.range' sc w.length).map fun y => (sr, y)).zip
          ((List.range' sc w.length).map fun y => w.getD (y - sc) 'A') := by
      rw [posLine_H_range, map_getD_range]
    rw [h1, List.zip_map']
  have hzipH : ((posLine true sr sc w.length).zip w).filter
      (fun q => (getL b q.1.1 q.1.2).isNone) = [((sr, sc + i1), w.getD i1 'A')] := by
    rw [hz, List.filter_map]
    simp only [Function.comp_def]
    rw [filter_range_singleton _ _ _ (sc + i1) (by omega) (by omega)
      (fun y hy1 hy2 => hiffH y hy1 hy2)]
    simp only [List.map_cons, List.map_nil]
    rw [show sc + i1 - sc = i1 from by omega]
  have hposH : (posLine true sr sc w.length).filter
      (fun p => (getL b p.1 p.2).isNone) = [(sr, sc + i1)] := by
    rw [posLine_H_range, List.filter_map]
    simp only [Function.comp_def]
    rw [filter_range_singleton _ _ _ (sc + i1) (by omega) (by omega)
      (fun y hy1 hy2 => hiffH y hy1 hy2)]
    simp only [List.map_cons, List.map_nil]
  rw [scorePlay_one_new b pu false (vCrossWord b sr (sc + i1) (w.getD i1 'A'))
    (vCrossPos b sr (sc + i1) (w.getD i1 'A')) (sr, sc + i1) (w.getD i1 'A') hzipV hposV]
  rw [scorePlay_one_new b pu true w (posLine true sr sc w.length)
    (sr, sc + i1) (w.getD i1 'A') hzipH hposH]
  simp only [if_true, Bool.false_eq_true, if_false]
  simp only [crossScoreV, crossScoreH]
  rw [hhcw, hhposP, if_pos (show 1 < w.length from by omega), if_pos hlong]
  exact Nat.add_comm _ _

/-- Mirror of `score_swap_H`: a vertical play validated as its horizontal
cross run keeps its score. -/
theorem score_swap_V {b : Board} {pu : PremMap} {w : Word} {sr sc i1 : Nat}
    (h2 : 2 ≤ w.length) (hsr15 : sr + w.length ≤ 15) (hsc : sc < 15)
    (hi1 : i1 < w.length) (hnone1 : getL b (sr + i1) sc = none)
    (hfillothers : ∀ i, i < w.length → i ≠ i1 →
      getL b (sr + i) sc = some (w.getD i 'A'))
    (hup : sr = 0 ∨ getL b (sr - 1) sc = none)
    (hdown : 15 ≤ sr + w.length ∨ getL b (sr + w.length) sc = none)
    (hlong : 1 < (hCrossWord b (sr + i1) sc (w.getD i1 'A')).length) :
    scorePlay (hCrossWord b (sr + i1) sc (w.getD i1 'A'))
        (hCrossPos b (sr + i1) sc (w.getD i1 'A')) b pu true =
      scorePlay w (posLine false sr sc w.length) b pu false := by
  obtain ⟨ha1, hfilllf, hlf⟩ := hStart_spec b (sr + i1) sc
  obtain ⟨hd1, hd14, hfillrt, hrt⟩ := extendR_spec b (sr + i1) 15 sc (by omega) (by omega)
  obtain ⟨hhs, hhcwFM, hhlen, hhps⟩ := hCross_spec b (sr + i1) sc (w.getD i1 'A')
    (hStart b (sr + i1) sc) (extendR b (sr + i1) sc 15 + 1) ha1 (by omega) (by omega)
    (fun y hy1 hy2 hy3 => by
      rcases Nat.lt_or_ge y sc with hlt | hge
      · exact hfilllf y hy1 hlt
      · exact hfillrt y (by omega) (by omega))
    hlf
    (by
      rcases hrt with h14 | hn
      · exact Or.inl (by omega)
      · exact Or.inr hn)
  obtain ⟨hvs, hvcwFM, hvlen, hvps⟩ := vCross_spec b sc (sr + i1) (w.getD i1 'A')
    sr (sr + w.length) (by omega) (by omega) (by omega)
    (fun x hx1 hx2 hx3 => by
      have hs := hfillothers (x - sr) (by omega) (by omega)
      rw [show sr + (x - sr) = x from by omega] at hs
      rw [hs]
      rfl)
    hup
    (by
      rcases hdown with h15 | hn
      · exact Or.inl (by omega)
      · exact Or.inr hn)
  have hvcw : vCrossWord b (sr + i1) sc (w.getD i1 'A') = w := by
    rw [hvcwFM]
    have hfm : ∀ x ∈ List.range' sr (sr + w.length - sr),
        (if x = sr + i1 then some (w.getD i1 'A') else getL b x sc) =
          some (w.getD (x - sr) 'A') := by
      intro x hx
      have hb := List.mem_range'_1.mp hx
      by_cases hxs : x = sr + i1
      · rw [if_pos hxs, hxs, show sr + i1 - sr = i1 from by omega]
      · rw [if_neg hxs]
        have hs := hfillothers (x - sr) (by omega) (by omega)
        rw [show sr + (x - sr) = x from by omega] at hs
        exact hs
    rw [filterMap_eq_map_of_eq_some _ _ _ hfm]
    rw [show sr + w.length - sr = w.length from by omega]
    exact map_getD_range 'A' w sr
  have hvposP : vCrossPos b (sr + i1) sc (w.getD i1 'A') = posLine false sr sc w.length := by
    rw [hvps, show sr + w.length - sr = w.length from by omega]
    exact (posLine_V_range sr sc w.length).symm
  have hhcwMap : hCrossWord b (sr + i1) sc (w.getD i1 'A') =
      (List.range' (hStart b (sr + i1) sc)
        (extendR b (sr + i1) sc 15 + 1 - hStart b (sr + i1) sc)).map
      fun y => if y = sc then w.getD i1 'A' else (getL b (sr + i1) y).getD 'A' := by
    rw [hhcwFM]
    refine filterMap_eq_map_of_eq_some _ _ _ fun y hy => ?_
    have hb := List.mem_range'_1.mp hy
    by_cases hys : y = sc
    · rw [if_pos hys, if_pos hys]
    · rw [if_neg hys, if_neg hys]
      have hsome : (getL b (sr + i1) y).isSome = true := by
        rcases Nat.lt_or_ge y sc with hlt | hge
        · exact hfilllf y hb.1 hlt
        · exact hfillrt y (by omega) (by omega)
      obtain ⟨L, hL⟩ := Option.isSome_iff_exists.mp hsome
      rw [hL]
      rfl
  have hiffH : ∀ y, hStart b (sr + i1) sc ≤ y →
      y < hStart b (sr + i1) sc + (extendR b (sr + i1) sc 15 + 1 - hStart b (sr + i1) sc) →
      ((getL b (sr + i1) y).isNone = true ↔ y = sc) := by
    intro y hy1 hy2
    constructor
    · intro hye
      by_contra hys
      have hsome : (getL b (sr + i1) y).isSome = true := by
        rcases Nat.lt_or_ge y sc with hlt | hge
        · exact hfilllf y hy1 hlt
        · exact hfillrt y (by omega) (by omega)
      rw [Option.isNone_iff_eq_none.mp hye] at hsome
      exact absurd hsome (by simp)
    · intro hys
      rw [hys, hnone1]
      rfl
  have hiffV : ∀ x, sr ≤ x → x < sr + w.length →
      ((getL b x sc).isNone = true ↔ x = sr + i1) := by
    intro x hx1 hx2
    constructor
    · intro hxe
      by_contra hxs
      have hs := hfillothers (x - sr) (by omega) (by omega)
      rw [show sr + (x - sr) = x from by omega] at hs
      rw [hs] at hxe
      exact absurd hxe (by simp)
    · intro hxs
      rw [hxs, hnone1]
      rfl
  have hzipHp : ((hCrossPos b (sr + i1) sc (w.getD i1 'A')).zip
        (hCrossWord b (sr + i1) sc (w.getD i1 'A'))).filter
      (fun q => (getL b q.1.1 q.1.2).isNone) = [((sr + i1, sc), w.getD i1 'A')] := by
    rw [hhps, hhcwMap, List.zip_map', List.filter_map]
    simp only [Function.comp_def]
    rw [filter_range_singleton _ _ _ sc (by omega) (by omega)
      (fun y hy1 hy2 => hiffH y hy1 hy2)]
    simp
  have hposHp : (hCrossPos b (sr + i1) sc (w.getD i1 'A')).filter
      (fun p => (getL b p.1 p.2).isNone) = [(sr + i1, sc)] := by
    rw [hhps, List.filter_map]
    simp only [Function.comp_def]
    rw [filter_range_singleton _ _ _ sc (by omega) (by omega)
      (fun y hy1 hy2 => hiffH y hy1 hy2)]
    simp only [List.map_cons, List.map_nil]
  have hz : (posLine false sr sc w.length).zip w =
      (List.range' sr w.length).map fun x => ((x, sc), w.getD (x - sr) 'A') := by
    have h1 : (posLine false sr sc w.length).zip w =
        ((List.range' sr w.length).map fun x => (x, sc)).zip
          ((List.range' sr w.length).map fun x => w.getD (x - sr) 'A') := by
      rw [posLine_V_range, map_getD_range]
    rw [h1, List.zip_map']
  have hzipV : ((posLine false sr sc w.length).zip w).filter
      (fun q => (getL b q.1.1 q.1.2).isNone) = [((sr + i1, sc), w.getD i1 'A')] := by
    rw [hz, List.filter_map]
    simp only [Function.comp_def]
    rw [filter_range_singleton _ _ _ (sr + i1) (by omega) (by omega)
      (fun x hx1 hx2 => hiffV x hx1 hx2)]
    simp only [List.map_cons, List.map_nil]
    rw [show sr + i1 - sr = i1 from by omega]
  have hposV : (posLine false sr sc w.length).filter
      (fun p => (getL b p.1 p.2).isNone) = [(sr + i1, sc)] := by
    rw [posLine_V_range, List.filter_map]
    simp only [Function.comp_def]
    rw [filter_range_singleton _ _ _ (sr + i1) (by omega) (by omega)
      (fun x hx1 hx2 => hiffV x hx1 hx2)]
    simp only [List.map_cons, List.map_nil]
  rw [scorePlay_one_new b pu true (hCrossWord b (sr + i1) sc (w.getD i1 'A'))
    (hCrossPos b (sr + i1) sc (w.getD i1 'A')) (sr + i1, sc) (w.getD i1 'A') hzipHp hposHp]
  rw [scorePlay_one_new b pu false w (posLine false sr sc w.length)
    (sr + i1, sc) (w.getD i1 'A') hzipV hposV]
  simp only [if_true, Bool.false_eq_true, if_false]
  simp only [crossScoreV, crossScoreH]
  rw [hvcw, hvposP, if_pos (show 1 < w.length from by omega), if_pos hlong]
  exact Nat.add_comm _ _

/-! ### Finishing validation of a play re-extracted in its own orientation -/

theorem finish_H_line {ws : Word → Bool} {b : Board} {pu : PremMap} {w : Word}
    {sr sc : Nat} (placed : Placed)
    (h2 : 2 ≤ w.length) (hsc15 : sc + w.length ≤ 15) (hsr : sr < 15)
    (htouch : ∃ i, i < w.length ∧ (getL b sr (sc + i)).isSome = true)
    (hcrossok : ∀ i, i < w.length → getL b sr (sc + i) = none →
      crossOkH ws b sr (sc + i) (w.getD i 'A') = true)
    (hws : ws w = true) :
    finishValidation ws b placed pu true
        ((List.range' sc w.length).map fun y => ((sr, y), w.getD (y - sc) 'A')) =
      VResult.ok w (posLine true sr sc w.length) true
        (scorePlay w (posLine true sr sc w.length) b pu true) := by
  have hwpword : (((List.range' sc w.length).map fun y => ((sr, y), w.getD (y - sc) 'A')).map
      fun q => q.2) = w := by
    rw [List.map_map]
    exact map_getD_range 'A' w sc
  have hwppos : (((List.range' sc w.length).map fun y => ((sr, y), w.getD (y - sc) 'A')).map
      fun q => q.1) = posLine true sr sc w.length := by
    rw [List.map_map]
    exact (posLine_H_range sr sc w.length).symm
  have hfin := finishValidation_ok ws b placed pu true
    ((List.range' sc w.length).map fun y => ((sr, y), w.getD (y - sc) 'A'))
    (by simpa using h2)
    (by rw [hwpword]; exact hws)
    ?ht ?hbc
  case ht =>
    obtain ⟨it, hit, hsome⟩ := htouch
    refine List.any_eq_true.mpr ⟨((sr, sc + it), w.getD ((sc + it) - sc) 'A'), ?_, ?_⟩
    · exact List.mem_map.mpr ⟨sc + it, List.mem_range'_1.mpr ⟨by omega, by omega⟩, rfl⟩
    · exact hsome
  case hbc =>
    refine firstBadCross_eq_none _ fun q hq hqnone => ?_
    obtain ⟨y, hy, hval⟩ := List.mem_map.mp hq
    have hyb := List.mem_range'_1.mp hy
    subst hval
    have hqn : getL b sr y = none := hqnone
    have hcok := hcrossok (y - sc) (by omega)
      (by rw [show sc + (y - sc) = y from by omega]; exact hqn)
    rw [show sc + (y - sc) = y from by omega] at hcok
    exact crossOkH_notbad hsr hcok
  rw [hfin, hwpword, hwppos]

theorem finish_V_line {ws : Word → Bool} {b : Board} {pu : PremMap} {w : Word}
    {sr sc : Nat} (placed : Placed)
    (h2 : 2 ≤ w.length) (hsr15 : sr + w.length ≤ 15) (hsc : sc < 15)
    (htouch : ∃ i, i < w.length ∧ (getL b (sr + i) sc).isSome = true)
    (hcrossok : ∀ i, i < w.length → getL b (sr + i) sc = none →
      crossOkV ws b (sr + i) sc (w.getD i 'A') = true)
    (hws : ws w = true) :
    finishValidation ws b placed pu false
        ((List.range' sr w.length).map fun x => ((x, sc), w.getD (x - sr) 'A')) =
      VResult.ok w (posLine false sr sc w.length) false
        (scorePlay w (posLine false sr sc w.length) b pu false) := by
  have hwpword : (((List.range' sr w.length).map fun x => ((x, sc), w.getD (x - sr) 'A')).map
      fun q => q.2) = w := by
    rw [List.map_map]
    exact map_getD_range 'A' w sr
  have hwppos : (((List.range' sr w.length).map fun x => ((x, sc), w.getD (x - sr) 'A')).map
      fun q => q.1) = posLine false sr sc w.length := by
    rw [List.map_map]
    exact (posLine_V_range sr sc w.length).symm
  have hfin := finishValidation_ok ws b placed pu false
    ((List.range' sr w.length).map fun x => ((x, sc), w.getD (x - sr) 'A'))
    (by simpa using h2)
    (by rw [hwpword]; exact hws)
    ?ht ?hbc
  case ht =>
    obtain ⟨it, hit, hsome⟩ := htouch
    refine List.any_eq_true.mpr ⟨((sr + it, sc), w.getD ((sr + it) - sr) 'A'), ?_, ?_⟩
    · exact List.mem_map.mpr ⟨sr + it, List.mem_range'_1.mpr ⟨by omega, by omega⟩, rfl⟩
    · exact hsome
  case hbc =>
    refine firstBadCross_eq_none _ fun q hq hqnone => ?_
    obtain ⟨x, hx, hval⟩ := List.mem_map.mp hq
    have hxb := List.mem_range'_1.mp hx
    subst hval
    have hqn : getL b x sc = none := hqnone
    have hcok := hcrossok (x - sr) (by omega)
      (by rw [show sr + (x - sr) = x from by omega]; exact hqn)
    rw [show sr + (x - sr) = x from by omega] at hcok
    exact crossOkV_notbad hsc hcok
  rw [hfin, hwpword, hwppos]

/-! ### Round trip of a horizontal play through the validator -/

theorem roundtrip_H {ws : Word → Bool} {b : Board} {pu : PremMap} {w : Word} {sr sc : Nat}
    (h2 : 2 ≤ w.length) (hsc15 : sc + w.length ≤ 15) (hsr : sr < 15)
    (hcell : ∀ i, i < w.length →
      getL b sr (sc + i) = some (w.getD i 'A') ∨ getL b sr (sc + i) = none)
    (hleft : sc = 0 ∨ getL b sr (sc - 1) = none)
    (hright : 15 ≤ sc + w.length ∨ getL b sr (sc + w.length) = none)
    (htouch : ∃ i, i < w.length ∧ (getL b sr (sc + i)).isSome = true)
    (huses : ∃ i, i < w.length ∧ getL b sr (sc + i) = none)
    (hcrossok : ∀ i, i < w.length → getL b sr (sc + i) = none →
      crossOkH ws b sr (sc + i) (w.getD i 'A') = true)
    (hws : ws w = true) :
    ∃ w2 ps2 hx, validatePlacement ws b (newTilesAt b w true sr sc) pu =
      VResult.ok w2 ps2 hx (scorePlay w (posLine true sr sc w.length) b pu true) := by
  obtain ⟨iu, hiu, hnu⟩ := huses
  have hne : newTilesAt b w true sr sc ≠ [] :=
    List.ne_nil_of_mem (mem_newTilesAt_H.mpr ⟨iu, hiu, hnu, rfl⟩)
  obtain ⟨q0, rest, hcons⟩ := List.exists_cons_of_ne_nil hne
  have hmemc : ∀ q ∈ q0 :: rest, ∃ i, i < w.length ∧ getL b sr (sc + i) = none ∧
      q = ((sr, sc + i), w.getD i 'A') := by
    intro q hq
    exact mem_newTilesAt_H.mp (hcons ▸ hq)
  obtain ⟨i0, hi0, hn0, hval0⟩ := hmemc q0 (List.mem_cons_self q0 rest)
  have hq011 : q0.1.1 = sr := by rw [hval0]
  have hq012 : q0.1.2 = sc + i0 := by rw [hval0]
  have hrowsAll : ∀ x ∈ ((q0 :: rest).map fun q => q.1).map fun p => p.1, x = sr := by
    intro x hx
    rw [List.map_map] at hx
    obtain ⟨q, hq, hqx⟩ := List.mem_map.mp hx
    obtain ⟨i, hi, hn, hval⟩ := hmemc q hq
    rw [hval] at hqx
    exact hqx.symm
  have hrows1 : (((q0 :: rest).map fun q => q.1).map fun p => p.1).dedup.length = 1 := by
    rw [dedup_const sr _ (by simp) hrowsAll]
    rfl
  have hsub1 : (newTilesAt b w true sr sc).Sublist ((posLine true sr sc w.length).zip w) :=
    List.filter_sublist _
  have hzipfst : (((posLine true sr sc w.length).zip w).map fun q => q.1) =
      posLine true sr sc w.length :=
    List.map_fst_zip (posLine true sr sc w.length) w (by rw [posLine_length])
  have hposmap : ((posLine true sr sc w.length).map fun p => p.2) =
      List.range' sc w.length := by
    rw [posLine_H_range, List.map_map]
    simp
  have hsubcols : ((((q0 :: rest).map fun q => q.1).map fun p => p.2)).Sublist
      (List.range' sc w.length) := by
    rw [← hcons]
    have h4 := (hsub1.map fun q => q.1).map fun p => p.2
    rw [hzipfst, hposmap] at h4
    exact h4
  have hcolsD : ((((q0 :: rest).map fun q => q.1).map fun p => p.2)).dedup.length =
      rest.length + 1 := by
    rw [List.dedup_eq_self.mpr (List.Nodup.sublist hsubcols (List.nodup_range' sc w.length))]
    simp
  have hextH := extractH_of_H_line hsc15 hi0 hcell hleft hright
  rw [hcons] at hextH
  rw [hcons]
  simp only [validatePlacement]
  rw [hq011, hq012]
  cases rest with
  | cons q1 rest2 =>
    have hnotc : ¬ ((((q0 :: q1 :: rest2).map fun q => q.1).map fun p => p.1).dedup.length = 1 ∧
        (((q0 :: q1 :: rest2).map fun q => q.1).map fun p => p.2).dedup.length = 1) := by
      intro hand
      rw [hcolsD, List.length_cons] at hand
      omega
    rw [if_neg hnotc, if_pos hrows1, hextH]
    dsimp only
    exact ⟨w, posLine true sr sc w.length, true,
      finish_H_line (q0 :: q1 :: rest2) h2 hsc15 hsr htouch hcrossok hws⟩
  | nil =>
    have hfillothers : ∀ i, i < w.length → i ≠ i0 →
        getL b sr (sc + i) = some (w.getD i 'A') := by
      intro i hi hne2
      rcases hcell i hi with hs | hn
      · exact hs
      · exfalso
        have hmem2 : ((sr, sc + i), w.getD i 'A') ∈ q0 :: ([] : Placed) := by
          rw [← hcons]
          exact mem_newTilesAt_H.mpr ⟨i, hi, hn, rfl⟩
        have heq0 : ((sr, sc + i), w.getD i 'A') = q0 := by
          rcases List.mem_cons.mp hmem2 with h | h
          · exact h
          · exact absurd h (List.not_mem_nil _)
        rw [hval0] at heq0
        have hkey : sc + i = sc + i0 := congrArg (fun t => t.1.2) heq0
        omega
    obtain ⟨ha1, hfillup, hup⟩ := vStart_spec b (sc + i0) sr
    obtain ⟨hd1, hd14, hfilldn, hdn⟩ := extendD_spec b (sc + i0) 15 sr (by omega) (by omega)
    obtain ⟨hvs, hvcwFM, hvlen, hvpos⟩ := vCross_spec b (sc + i0) sr (w.getD i0 'A')
      (vStart b (sc + i0) sr) (extendD b (sc + i0) sr 15 + 1) ha1 (by omega) (by omega)
      (fun x hx1 hx2 hx3 => by
        rcases Nat.lt_or_ge x sr with hlt | hge
        · exact hfillup x hx1 hlt
        · exact hfilldn x (by omega) (by omega))
      hup
      (by
        rcases hdn with h14 | hn
        · exact Or.inl (by omega)
        · exact Or.inr hn)
    have hvcwMap : vCrossWord b sr (sc + i0) (w.getD i0 'A') =
        (List.range' (vStart b (sc + i0) sr)
          (extendD b (sc + i0) sr 15 + 1 - vStart b (sc + i0) sr)).map
        fun x => if x = sr then w.getD i0 'A' else (getL b x (sc + i0)).getD 'A' := by
      rw [hvcwFM]
      refine filterMap_eq_map_of_eq_some _ _ _ fun x hx => ?_
      have hb := List.mem_range'_1.mp hx
      by_cases hxs : x = sr
      · rw [if_pos hxs, if_pos hxs]
      · rw [if_neg hxs, if_neg hxs]
        have hsome : (getL b x (sc + i0)).isSome = true := by
          rcases Nat.lt_or_ge x sr with hlt | hge
          · exact hfillup x hb.1 hlt
          · exact hfilldn x (by omega) (by omega)
        obtain ⟨L, hL⟩ := Option.isSome_iff_exists.mp hsome
        rw [hL]
        rfl
    have hhcw : hCrossWord b sr (sc + i0) (w.getD i0 'A') = w := by
      obtain ⟨hhs, hhcwFM, hhlen, hhps⟩ := hCross_spec b sr (sc + i0) (w.getD i0 'A')
        sc (sc + w.length) (by omega) (by omega) (by omega)
        (fun y hy1 hy2 hy3 => by
          have hs := hfillothers (y - sc) (by omega) (by omega)
          rw [show sc + (y - sc) = y from by omega] at hs
          rw [hs]
          rfl)
        hleft
        (by
          rcases hright with h15 | hn
          · exact Or.inl (by omega)
          · exact Or.inr hn)
      rw [hhcwFM]
      have hfm : ∀ y ∈ List.range' sc (sc + w.length - sc),
          (if y = sc + i0 then some (w.getD i0 'A') else getL b sr y) =
            some (w.getD (y - sc) 'A') := by
        intro y hy
        have hb := List.mem_range'_1.mp hy
        by_cases hys : y = sc + i0
        · rw [if_pos hys, hys, show sc + i0 - sc = i0 from by omega]
        · rw [if_neg hys]
          have hs := hfillothers (y - sc) (by omega) (by omega)
          rw [show sc + (y - sc) = y from by omega] at hs
          exact hs
      rw [filterMap_eq_map_of_eq_some _ _ _ hfm]
      rw [show sc + w.length - sc = w.length from by omega]
      exact map_getD_range 'A' w sc
    have hrowsc : ∀ p ∈ (q0 :: ([] : Placed)).map fun q => q.1, p.1 = sr := by
      intro p hp
      obtain ⟨q, hq, hqp⟩ := List.mem_map.mp hp
      rcases List.mem_cons.mp hq with h | h
      · rw [← hqp, h, hval0]
      · exact absurd h (List.not_mem_nil _)
    have hextV := extractV_of_H_single hsr hi0 hn0 hrowsc
    rw [hcons] at hextV
    rw [if_pos ⟨hrows1, by rw [hcolsD]; rfl⟩, hextH, hextV]
    dsimp only
    by_cases hswap :
        ((List.range' sc w.length).map fun y => ((sr, y), w.getD (y - sc) 'A')).length <
        ((List.range' (vStart b (sc + i0) sr)
            (extendD b (sc + i0) sr 15 + 1 - vStart b (sc + i0) sr)).map
          fun x => ((x, sc + i0),
            if x = sr then w.getD i0 'A' else (getL b x (sc + i0)).getD 'A')).length
    · rw [if_pos hswap]
      have hswap2 : w.length <
          extendD b (sc + i0) sr 15 + 1 - vStart b (sc + i0) sr := by
        simpa using hswap
      have hlong : 1 < (vCrossWord b sr (sc + i0) (w.getD i0 'A')).length := by
        rw [hvlen]
        omega
      have hwsV : ws (vCrossWord b sr (sc + i0) (w.getD i0 'A')) = true := by
        have hnb := crossOkH_notbad hsr (hcrossok i0 hi0 hn0)
        cases hb : ws (vCrossWord b sr (sc + i0) (w.getD i0 'A'))
        · exact absurd ⟨hlong, hb⟩ hnb
        · rfl
      have hm2V : (((List.range' (vStart b (sc + i0) sr)
            (extendD b (sc + i0) sr 15 + 1 - vStart b (sc + i0) sr)).map
          fun x => ((x, sc + i0),
            if x = sr then w.getD i0 'A' else (getL b x (sc + i0)).getD 'A')).map
          fun q => q.2) = vCrossWord b sr (sc + i0) (w.getD i0 'A') := by
        rw [List.map_map]
        exact hvcwMap.symm
      have hm1V : (((List.range' (vStart b (sc + i0) sr)
            (extendD b (sc + i0) sr 15 + 1 - vStart b (sc + i0) sr)).map
          fun x => ((x, sc + i0),
            if x = sr then w.getD i0 'A' else (getL b x (sc + i0)).getD 'A')).map
          fun q => q.1) = vCrossPos b sr (sc + i0) (w.getD i0 'A') := by
        rw [List.map_map]
        exact hvpos.symm
      have hfinV := finishValidation_ok ws b (q0 :: []) pu false
        ((List.range' (vStart b (sc + i0) sr)
            (extendD b (sc + i0) sr 15 + 1 - vStart b (sc + i0) sr)).map
          fun x => ((x, sc + i0),
            if x = sr then w.getD i0 'A' else (getL b x (sc + i0)).getD 'A'))
        (by
          rw [List.length_map, List.length_range']
          omega)
        (by rw [hm2V]; exact hwsV)
        ?htV ?hbcV
      case htV =>
        rcases (show vStart b (sc + i0) sr < sr ∨ sr < extendD b (sc + i0) sr 15 from
            by omega) with hlt | hgt
        · refine List.any_eq_true.mpr ⟨_, List.mem_map.mpr ⟨vStart b (sc + i0) sr,
            List.mem_range'_1.mpr ⟨le_rfl, by omega⟩, rfl⟩, ?_⟩
          exact hfillup _ le_rfl hlt
        · refine List.any_eq_true.mpr ⟨_, List.mem_map.mpr ⟨extendD b (sc + i0) sr 15,
            List.mem_range'_1.mpr ⟨by omega, by omega⟩, rfl⟩, ?_⟩
          exact hfilldn _ hgt le_rfl
      case hbcV =>
        refine firstBadCross_eq_none _ fun q hq hqnone => ?_
        obtain ⟨x, hx, hval⟩ := List.mem_map.mp hq
        have hxb := List.mem_range'_1.mp hx
        subst hval
        have hqn : getL b x (sc + i0) = none := hqnone
        have hxs : x = sr := by
          by_contra hxs
          have hsome : (getL b x (sc + i0)).isSome = true := by
            rcases Nat.lt_or_ge x sr with hlt | hge
            · exact hfillup x hxb.1 hlt
            · exact hfilldn x (by omega) (by omega)
          rw [hqn] at hsome
          exact absurd hsome (by simp)
        rw [hxs]
        dsimp only
        intro hbad2
        have hb1 : 1 < w.length ∧ ws w = false := by
          have e1 : crossWordAt b false sr (sc + i0)
              (if sr = sr then w.getD i0 'A' else (getL b sr (sc + i0)).getD 'A') = w := by
            rw [if_pos rfl]
            simp only [crossWordAt, Bool.false_eq_true, if_false]
            exact hhcw
          rw [e1] at hbad2
          exact hbad2
        rw [hws] at hb1
        exact absurd hb1.2 (by simp)
      refine ⟨((List.range' (vStart b (sc + i0) sr)
          (extendD b (sc + i0) sr 15 + 1 - vStart b (sc + i0) sr)).map
        fun x => ((x, sc + i0),
          if x = sr then w.getD i0 'A' else (getL b x (sc + i0)).getD 'A')).map
        (fun q => q.2),
        ((List.range' (vStart b (sc + i0) sr)
          (extendD b (sc + i0) sr 15 + 1 - vStart b (sc + i0) sr)).map
        fun x => ((x, sc + i0),
          if x = sr then w.getD i0 'A' else (getL b x (sc + i0)).getD 'A')).map
        (fun q => q.1), false, ?_⟩
      rw [hfinV]
      refine congrArg (VResult.ok _ _ _) ?_
      rw [hm2V, hm1V]
      exact score_swap_H h2 hsc15 hsr hi0 hn0 hfillothers hleft hright hlong
    · rw [if_neg hswap]
      exact ⟨w, posLine true sr sc w.length, true,
        finish_H_line (q0 :: []) h2 hsc15 hsr htouch hcrossok hws⟩

/-! ### Round trip of a vertical play through the validator -/

theorem roundtrip_V {ws : Word → Bool} {b : Board} {pu : PremMap} {w : Word} {sr sc : Nat}
    (h2 : 2 ≤ w.length) (hsr15 : sr + w.length ≤ 15) (hsc : sc < 15)
    (hcell : ∀ i, i < w.length →
      getL b (sr + i) sc = some (w.getD i 'A') ∨ getL b (sr + i) sc = none)
    (hup : sr = 0 ∨ getL b (sr - 1) sc = none)
    (hdown : 15 ≤ sr + w.length ∨ getL b (sr + w.length) sc = none)
    (htouch : ∃ i, i < w.length ∧ (getL b (sr + i) sc).isSome = true)
    (huses : ∃ i, i < w.length ∧ getL b (sr + i) sc = none)
    (hcrossok : ∀ i, i < w.length → getL b (sr + i) sc = none →
      crossOkV ws b (sr + i) sc (w.getD i 'A') = true)
    (hws : ws w = true) :
    ∃ w2 ps2 hx, validatePlacement ws b (newTilesAt b w false sr sc) pu =
      VResult.ok w2 ps2 hx (scorePlay w (posLine false sr sc w.length) b pu false) := by
  obtain ⟨iu, hiu, hnu⟩ := huses
  have hne : newTilesAt b w false sr sc ≠ [] :=
    List.ne_nil_of_mem (mem_newTilesAt_V.mpr ⟨iu, hiu, hnu, rfl⟩)
  obtain ⟨q0, rest, hcons⟩ := List.exists_cons_of_ne_nil hne
  have hmemc : ∀ q ∈ q0 :: rest, ∃ i, i < w.length ∧ getL b (sr + i) sc = none ∧
      q = ((sr + i, sc), w.getD i 'A') := by
    intro q hq
    exact mem_newTilesAt_V.mp (hcons ▸ hq)
  obtain ⟨i0, hi0, hn0, hval0⟩ := hmemc q0 (List.mem_cons_self q0 rest)
  have hq011 : q0.1.1 = sr + i0 := by rw [hval0]
  have hq012 : q0.1.2 = sc := by rw [hval0]
  have hcolsAll : ∀ y ∈ ((q0 :: rest).map fun q => q.1).map fun p => p.2, y = sc := by
    intro y hy
    rw [List.map_map] at hy
    obtain ⟨q, hq, hqy⟩ := List.mem_map.mp hy
    obtain ⟨i, hi, hn, hval⟩ := hmemc q hq
    rw [hval] at hqy
    exact hqy.symm
  have hcols1 : (((q0 :: rest).map fun q => q.1).map fun p => p.2).dedup.length = 1 := by
    rw [dedup_const sc _ (by simp) hcolsAll]
    rfl
  have hsub1 : (newTilesAt b w false sr sc).Sublist ((posLine false sr sc w.length).zip w) :=
    List.filter_sublist _
  have hzipfst : (((posLine false sr sc w.length).zip w).map fun q => q.1) =
      posLine false sr sc w.length :=
    List.map_fst_zip (posLine false sr sc w.length) w (by rw [posLine_length])
  have hposmap : ((posLine false sr sc w.length).map fun p => p.1) =
      List.range' sr w.length := by
    rw [posLine_V_range, List.map_map]
    have hid : ∀ x ∈ List.range' sr w.length, ((fun p => p.1) ∘ fun x => (x, sc)) x = x :=
      fun x _ => rfl
    rw [List.map_congr_left hid]
    exact List.map_id' _
  have hsubrows : ((((q0 :: rest).map fun q => q.1).map fun p => p.1)).Sublist
      (List.range' sr w.length) := by
    rw [← hcons]
    have h4 := (hsub1.map fun q => q.1).map fun p => p.1
    rw [hzipfst, hposmap] at h4
    exact h4
  have hrowsD : ((((q0 :: rest).map fun q => q.1).map fun p => p.1)).dedup.length =
      rest.length + 1 := by
    rw [List.dedup_eq_self.mpr (List.Nodup.sublist hsubrows (List.nodup_range' sr w.length))]
    simp
  have hextV := extractV_of_V_line hsr15 hi0 hcell hup hdown
  rw [hcons] at hextV
  rw [hcons]
  simp only [validatePlacement]
  rw [hq011, hq012]
  cases rest with
  | cons q1 rest2 =>
    have hnotc1 : ¬ ((((q0 :: q1 :: rest2).map fun q => q.1).map fun p => p.1).dedup.length = 1 ∧
        (((q0 :: q1 :: rest2).map fun q => q.1).map fun p => p.2).dedup.length = 1) := by
      intro hand
      have := hand.1
      rw [hrowsD, List.length_cons] at this
      omega
    have hnotc2 : ¬ (((q0 :: q1 :: rest2).map fun q => q.1).map fun p => p.1).dedup.length = 1 := by
      intro hand
      rw [hrowsD, List.length_cons] at hand
      omega
    rw [if_neg hnotc1, if_neg hnotc2, if_pos hcols1, hextV]
    dsimp only
    exact ⟨w, posLine false sr sc w.length, false,
      finish_V_line (q0 :: q1 :: rest2) h2 hsr15 hsc htouch hcrossok hws⟩
  | nil =>
    have hfillothers : ∀ i, i < w.length → i ≠ i0 →
        getL b (sr + i) sc = some (w.getD i 'A') := by
      intro i hi hne2
      rcases hcell i hi with hs | hn
      · exact hs
      · exfalso
        have hmem2 : ((sr + i, sc), w.getD i 'A') ∈ q0 :: ([] : Placed) := by
          rw [← hcons]
          exact mem_newTilesAt_V.mpr ⟨i, hi, hn, rfl⟩
        have heq0 : ((sr + i, sc), w.getD i 'A') = q0 := by
          rcases List.mem_cons.mp hmem2 with h | h
          · exact h
          · exact absurd h (List.not_mem_nil _)
        rw [hval0] at heq0
        have hkey : sr + i = sr + i0 := congrArg (fun t => t.1.1) heq0
        omega
    obtain ⟨ha1, hfilllf, hlf⟩ := hStart_spec b (sr + i0) sc
    obtain ⟨hd1, hd14, hfillrt, hrt⟩ := extendR_spec b (sr + i0) 15 sc (by omega) (by omega)
    obtain ⟨hhs, hhcwFM, hhlen, hhps⟩ := hCross_spec b (sr + i0) sc (w.getD i0 'A')
      (hStart b (sr + i0) sc) (extendR b (sr + i0) sc 15 + 1) ha1 (by omega) (by omega)
      (fun y hy1 hy2 hy3 => by
        rcases Nat.lt_or_ge y sc with hlt | hge
        · exact hfilllf y hy1 hlt
        · exact hfillrt y (by omega) (by omega))
      hlf
      (by
        rcases hrt with h14 | hn
        · exact Or.inl (by omega)
        · exact Or.inr hn)
    have hhcwMap : hCrossWord b (sr + i0) sc (w.getD i0 'A') =
        (List.range' (hStart b (sr + i0) sc)
          (extendR b (sr + i0) sc 15 + 1 - hStart b (sr + i0) sc)).map
        fun y => if y = sc then w.getD i0 'A' else (getL b (sr + i0) y).getD 'A' := by
      rw [hhcwFM]
      refine filterMap_eq_map_of_eq_some _ _ _ fun y hy => ?_
      have hb := List.mem_range'_1.mp hy
      by_cases hys : y = sc
      · rw [if_pos hys, if_pos hys]
      · rw [if_neg hys, if_neg hys]
        have hsome : (getL b (sr + i0) y).isSome = true := by
          rcases Nat.lt_or_ge y sc with hlt | hge
          · exact hfilllf y hb.1 hlt
          · exact hfillrt y (by omega) (by omega)
        obtain ⟨L, hL⟩ := Option.isSome_iff_exists.mp hsome
        rw [hL]
        rfl
    have hvcw : vCrossWord b (sr + i0) sc (w.getD i0 'A') = w := by
      obtain ⟨hvs2, hvcwFM2, hvlen2, hvps2⟩ := vCross_spec b sc (sr + i0) (w.getD i0 'A')
        sr (sr + w.length) (by omega) (by omega) (by omega)
        (fun x hx1 hx2 hx3 => by
          have hs := hfillothers (x - sr) (by omega) (by omega)
          rw [show sr + (x - sr) = x from by omega] at hs
          rw [hs]
          rfl)
        hup
        (by
          rcases hdown with h15 | hn
          · exact Or.inl (by omega)
          · exact Or.inr hn)
      rw [hvcwFM2]
      have hfm : ∀ x ∈ List.range' sr (sr + w.length - sr),
          (if x = sr + i0 then some (w.getD i0 'A') else getL b x sc) =
            some (w.getD (x - sr) 'A') := by
        intro x hx
        have hb := List.mem_range'_1.mp hx
        by_cases hxs : x = sr + i0
        · rw [if_pos hxs, hxs, show sr + i0 - sr = i0 from by omega]
        · rw [if_neg hxs]
          have hs := hfillothers (x - sr) (by omega) (by omega)
          rw [show sr + (x - sr) = x from by omega] at hs
          exact hs
      rw [filterMap_eq_map_of_eq_some _ _ _ hfm]
      rw [show sr + w.length - sr = w.length from by omega]
      exact map_getD_range 'A' w sr
    have hcolsc : ∀ p ∈ (q0 :: ([] : Placed)).map fun q => q.1, p.2 = sc := by
      intro p hp
      obtain ⟨q, hq, hqp⟩ := List.mem_map.mp hp
      rcases List.mem_cons.mp hq with h | h
      · rw [← hqp, h, hval0]
      · exact absurd h (List.not_mem_nil _)
    have hextH := extractH_of_V_single hsc hi0 hn0 hcolsc
    rw [hcons] at hextH
    rw [if_pos ⟨by rw [hrowsD]; rfl, hcols1⟩, hextH, hextV]
    dsimp only
    by_cases hswap :
        ((List.range' (hStart b (sr + i0) sc)
            (extendR b (sr + i0) sc 15 + 1 - hStart b (sr + i0) sc)).map
          fun y => ((sr + i0, y),
            if y = sc then w.getD i0 'A' else (getL b (sr + i0) y).getD 'A')).length <
        ((List.range' sr w.length).map fun x => ((x, sc), w.getD (x - sr) 'A')).length
    · rw [if_pos hswap]
      exact ⟨w, posLine false sr sc w.length, false,
        finish_V_line (q0 :: []) h2 hsr15 hsc htouch hcrossok hws⟩
    · rw [if_neg hswap]
      have hswap2 : w.length ≤
          extendR b (sr + i0) sc 15 + 1 - hStart b (sr + i0) sc := by
        have := hswap
        rw [List.length_map, List.length_range', List.length_map, List.length_range'] at this
        omega
      have hlong : 1 < (hCrossWord b (sr + i0) sc (w.getD i0 'A')).length := by
        rw [hhlen]
        omega
      have hwsH : ws (hCrossWord b (sr + i0) sc (w.getD i0 'A')) = true := by
        have hnb := crossOkV_notbad hsc (hcrossok i0 hi0 hn0)
        cases hb : ws (hCrossWord b (sr + i0) sc (w.getD i0 'A'))
        · exact absurd ⟨hlong, hb⟩ hnb
        · rfl
      have hm2H : (((List.range' (hStart b (sr + i0) sc)
            (extendR b (sr + i0) sc 15 + 1 - hStart b (sr + i0) sc)).map
          fun y => ((sr + i0, y),
            if y = sc then w.getD i0 'A' else (getL b (sr + i0) y).getD 'A')).map
          fun q => q.2) = hCrossWord b (sr + i0) sc (w.getD i0 'A') := by
        rw [List.map_map]
        exact hhcwMap.symm
      have hm1H : (((List.range' (hStart b (sr + i0) sc)
            (extendR b (sr + i0) sc 15 + 1 - hStart b (sr + i0) sc)).map
          fun y => ((sr + i0, y),
            if y = sc then w.getD i0 'A' else (getL b (sr + i0) y).getD 'A')).map
          fun q => q.1) = hCrossPos b (sr + i0) sc (w.getD i0 'A') := by
        rw [List.map_map]
        exact hhps.symm
      have hfinH := finishValidation_ok ws b (q0 :: []) pu true
        ((List.range' (hStart b (sr + i0) sc)
            (extendR b (sr + i0) sc 15 + 1 - hStart b (sr + i0) sc)).map
          fun y => ((sr + i0, y),
            if y = sc then w.getD i0 'A' else (getL b (sr + i0) y).getD 'A'))
        (by
          rw [List.length_map, List.length_range']
          omega)
        (by rw [hm2H]; exact hwsH)
        ?htH ?hbcH
      case htH =>
        rcases (show hStart b (sr + i0) sc < sc ∨ sc < extendR b (sr + i0) sc 15 from
            by omega) with hlt | hgt
        · refine List.any_eq_true.mpr ⟨_, List.mem_map.mpr ⟨hStart b (sr + i0) sc,
            List.mem_range'_1.mpr ⟨le_rfl, by omega⟩, rfl⟩, ?_⟩
          exact hfilllf _ le_rfl hlt
        · refine List.any_eq_true.mpr ⟨_, List.mem_map.mpr ⟨extendR b (sr + i0) sc 15,
            List.mem_range'_1.mpr ⟨by omega, by omega⟩, rfl⟩, ?_⟩
          exact hfillrt _ hgt le_rfl
      case hbcH =>
        refine firstBadCross_eq_none _ fun q hq hqnone => ?_
        obtain ⟨y, hy, hval⟩ := List.mem_map.mp hq
        have hyb := List.mem_range'_1.mp hy
        subst hval
        have hqn : getL b (sr + i0) y = none := hqnone
        have hys : y = sc := by
          by_contra hys
          have hsome : (getL b (sr + i0) y).isSome = true := by
            rcases Nat.lt_or_ge y sc with hlt | hge
            · exact hfilllf y hyb.1 hlt
            · exact hfillrt y (by omega) (by omega)
          rw [hqn] at hsome
          exact absurd hsome (by simp)
        rw [hys]
        dsimp only
        intro hbad2
        have hb1 : 1 < w.length ∧ ws w = false := by
          have e1 : crossWordAt b true (sr + i0) sc
              (if sc = sc then w.getD i0 'A' else (getL b (sr + i0) sc).getD 'A') = w := by
            rw [if_pos rfl]
            simp only [crossWordAt, if_true]
            exact hvcw
          rw [e1] at hbad2
          exact hbad2
        rw [hws] at hb1
        exact absurd hb1.2 (by simp)
      refine ⟨((List.range' (hStart b (sr + i0) sc)
          (extendR b (sr + i0) sc 15 + 1 - hStart b (sr + i0) sc)).map
        fun y => ((sr + i0, y),
          if y = sc then w.getD i0 'A' else (getL b (sr + i0) y).getD 'A')).map
        (fun q => q.2),
        ((List.range' (hStart b (sr + i0) sc)
          (extendR b (sr + i0) sc 15 + 1 - hStart b (sr + i0) sc)).map
        fun y => ((sr + i0, y),
          if y = sc then w.getD i0 'A' else (getL b (sr + i0) y).getD 'A')).map
        (fun q => q.1), true, ?_⟩
      rw [hfinH]
      refine congrArg (VResult.ok _ _ _) ?_
      rw [hm2H, hm1H]
      exact score_swap_V h2 hsr15 hsc hi0 hn0 hfillothers hup hdown hlong

/-- C1: for every board, premium-consumption map and rack, every play in the
list returned by `findAllValidPlays` validates successfully when its newly
placed tiles are handed back to `validatePlacement` on the same board and
premium map, and the validator's score equals the play's score.  The word
list and the membership test are the source's `WORD_LIST` and `WORD_SET`
(one derived from the other), so every listed word passes the test. -/
theorem C1_roundtrip (wl : List Word) (ws : Word → Bool) (b : Board)
    (rack : List Char) (pu : PremMap) (p : Play)
    (hwl : ∀ w ∈ wl, ws w = true)
    (hp : p ∈ findAllValidPlays wl ws b rack pu) :
    ∃ w2 ps2 hx, validatePlacement ws b (newTilesOf b p) pu =
      VResult.ok w2 ps2 hx p.score := by
  obtain ⟨w, hw, isH, sr, sc, htp⟩ := mem_findAllValidPlays hp
  obtain ⟨hpEq, h2, hH15, hV15, ⟨rem, hsim⟩, hnoext, hcross⟩ := tryPlace_eq_some htp
  obtain ⟨hcellzip, htflag, huflag, -⟩ := simLoop_some b isH w sr sc rack false false _ hsim
  rw [Bool.false_or] at htflag huflag
  subst hpEq
  cases isH with
  | true =>
    rw [if_pos rfl] at hnoext
    obtain ⟨hleft, hright⟩ := noExtH_spec hnoext
    have hcell : ∀ i, i < w.length →
        getL b sr (sc + i) = some (w.getD i 'A') ∨ getL b sr (sc + i) = none := by
      intro i hi
      have hq := posLine_zip_mem true sr sc w i hi
      rw [if_pos rfl] at hq
      have := hcellzip _ hq
      rw [List.getD_eq_getElem w 'A' hi]
      exact this
    have htouch : ∃ i, i < w.length ∧ (getL b sr (sc + i)).isSome = true := by
      obtain ⟨q, hq, hqs⟩ := List.any_eq_true.mp htflag.symm
      obtain ⟨i, hi, hval⟩ := mem_posLine_zip hq
      rw [if_pos rfl] at hval
      subst hval
      exact ⟨i, hi, hqs⟩
    have huses : ∃ i, i < w.length ∧ getL b sr (sc + i) = none := by
      obtain ⟨q, hq, hqs⟩ := List.any_eq_true.mp huflag.symm
      obtain ⟨i, hi, hval⟩ := mem_posLine_zip hq
      rw [if_pos rfl] at hval
      subst hval
      exact ⟨i, hi, Option.isNone_iff_eq_none.mp hqs⟩
    have hsr : sr < 15 := by
      obtain ⟨i, hi, hs⟩ := htouch
      exact (getL_bounds hs).1
    have hcrossok : ∀ i, i < w.length → getL b sr (sc + i) = none →
        crossOkH ws b sr (sc + i) (w.getD i 'A') = true := by
      intro i hi hnone
      have hq := posLine_zip_mem true sr sc w i hi
      rw [if_pos rfl] at hq
      have := List.all_eq_true.mp hcross _ hq
      rw [hnone] at this
      simp only [Option.isNone_none, if_true, if_pos rfl] at this
      rw [List.getD_eq_getElem w 'A' hi]
      exact this
    exact roundtrip_H h2 (hH15 rfl) hsr hcell hleft hright htouch huses hcrossok (hwl w hw)
  | false =>
    rw [if_neg Bool.false_ne_true] at hnoext
    obtain ⟨hup, hdown⟩ := noExtV_spec hnoext
    have hcell : ∀ i, i < w.length →
        getL b (sr + i) sc = some (w.getD i 'A') ∨ getL b (sr + i) sc = none := by
      intro i hi
      have hq := posLine_zip_mem false sr sc w i hi
      rw [if_neg Bool.false_ne_true] at hq
      have := hcellzip _ hq
      rw [List.getD_eq_getElem w 'A' hi]
      exact this
    have htouch : ∃ i, i < w.length ∧ (getL b (sr + i) sc).isSome = true := by
      obtain ⟨q, hq, hqs⟩ := List.any_eq_true.mp htflag.symm
      obtain ⟨i, hi, hval⟩ := mem_posLine_zip hq
      rw [if_neg Bool.false_ne_true] at hval
      subst hval
      exact ⟨i, hi, hqs⟩
    have huses : ∃ i, i < w.length ∧ getL b (sr + i) sc = none := by
      obtain ⟨q, hq, hqs⟩ := List.any_eq_true.mp huflag.symm
      obtain ⟨i, hi, hval⟩ := mem_posLine_zip hq
      rw [if_neg Bool.false_ne_true] at hval
      subst hval
      exact ⟨i, hi, Option.isNone_iff_eq_none.mp hqs⟩
    have hsc : sc < 15 := by
      obtain ⟨i, hi, hs⟩ := htouch
      exact (getL_bounds hs).2
    have hcrossok : ∀ i, i < w.length → getL b (sr + i) sc = none →
        crossOkV ws b (sr + i) sc (w.getD i 'A') = true := by
      intro i hi hnone
      have hq := posLine_zip_mem false sr sc w i hi
      rw [if_neg Bool.false_ne_true] at hq
      have := List.all_eq_true.mp hcross _ hq
      rw [hnone] at this
      simp only [Option.isNone_none, if_true, if_neg Bool.false_ne_true] at this
      rw [List.getD_eq_getElem w 'A' hi]
      exact this
    exact roundtrip_V h2 (hV15 rfl) hsc hcell hup hdown htouch huses hcrossok (hwl w hw)

/-- Witness for C1: the vertical AT play through the center A on the
one-letter board validates back with the same score 2. -/
theorem C1_roundtrip_witness :
    ∃ w2 ps2 hx, validatePlacement ws1 b1 (newTilesOf b1 p1) emptyPU =
      VResult.ok w2 ps2 hx p1.score :=
  C1_roundtrip wl1 ws1 b1 ['T'] emptyPU p1 (by decide) (by decide)

end Scrabble
